import Mathlib

/-!
# A verification development for the in-memory search server (`s3t1l7t1.cpp`)

The C++ class `SearchServer` is embedded shallowly:

* `std::string` is the list of its characters, `std::set<string>` and `std::map<K, V>` are
  lists kept in ascending key order by the operations below (the operations do not require
  their argument to be ordered, they preserve the order when it is there);
* `double` is an arbitrary linearly ordered field `R` together with a function `log : R → R`;
  taking `R := ℝ` and `log := Real.log` gives the reading over exact real numbers, taking
  `R := ℚ` gives executable code; the postings loop of `AddDocument` is also given with the
  rounding of IEEE 754 binary64 (`Binary64`, `AddDocument.binary64`);
* `std::sort` is the insertion sort that libstdc++ runs on a range of up to 16 elements;
* `int` is `Int`; the running sum of `ComputeAverageRating` wraps to 32 bits;
* a member function that can leave abnormally (integer division by zero, the exception
  `std::out_of_range` thrown by `map::at`) returns the fault it leaves with.
-/

namespace SearchServerModel

/-- The type `std::string`, as the list of its characters. -/
abbrev Str := List Char

/-- The constant `MAX_RESULT_DOCUMENT_COUNT`. -/
def MAX_RESULT_DOCUMENT_COUNT : Nat := 5

/-- The two ways in which a member function of the engine leaves abnormally: the integer
division by zero of `ComputeAverageRating`, and `std::out_of_range` thrown by `map::at`. -/
inductive Fault where
  | division_by_zero
  | out_of_range
  deriving DecidableEq, Repr

/-! ## The containers of the standard library -/

/-- Ordered insertion of an element that is not in the `std::set` yet. -/
def StdSet.insertNew {K : Type} [LinearOrder K] (x : K) : List K → List K
  | [] => [x]
  | y :: ys => if x < y then x :: y :: ys else y :: StdSet.insertNew x ys

/-- The call `set::insert`: nothing happens when the element is already there. -/
def StdSet.insert {K : Type} [LinearOrder K] (s : List K) (x : K) : List K :=
  if x ∈ s then s else StdSet.insertNew x s

/-- The lookup of `map::find`, `map::count` and `map::at`: the value stored under `k`. -/
def StdMap.find {K V : Type} [LinearOrder K] : List (K × V) → K → Option V
  | [], _ => none
  | (k', v) :: rest, k => if k = k' then some v else StdMap.find rest k

/-- Ordered insertion of a key that is not in the `std::map` yet. -/
def StdMap.insertNew {K V : Type} [LinearOrder K] (k : K) (v : V) : List (K × V) → List (K × V)
  | [] => [(k, v)]
  | (k', v') :: rest =>
    if k < k' then (k, v) :: (k', v') :: rest else (k', v') :: StdMap.insertNew k v rest

/-- The call `map::emplace`: a key that is already present keeps its value. -/
def StdMap.emplace {K V : Type} [LinearOrder K] (m : List (K × V)) (k : K) (v : V) :
    List (K × V) :=
  if (StdMap.find m k).isSome then m else StdMap.insertNew k v m

/-- Assignment through the reference that `operator[]` returned: the value stored under
`k` becomes `f` of the old one. -/
def StdMap.modify {K V : Type} [LinearOrder K] (f : V → V) : List (K × V) → K → List (K × V)
  | [], _ => []
  | (k', v) :: rest, k =>
    if k = k' then (k', f v) :: rest else (k', v) :: StdMap.modify f rest k

/-- The statement `m[k] = f(m[k])`: `operator[]` first inserts the value-initialised
`dflt` when `k` is absent. -/
def StdMap.subscript {K V : Type} [LinearOrder K] (m : List (K × V)) (k : K) (dflt : V)
    (f : V → V) : List (K × V) :=
  StdMap.modify f (StdMap.emplace m k dflt) k

/-- The call `map::erase(key)`. -/
def StdMap.erase {K V : Type} [LinearOrder K] (m : List (K × V)) (k : K) : List (K × V) :=
  m.filter (fun e => decide (e.1 ≠ k))

/-- One step of the insertion sort of `std::sort`, on the reversed sorted range: `val`
moves towards the front past every element it is ordered before, and stops at the first
one it is not ordered before. -/
def stdSort.linearInsert {α : Type} (comp : α → α → Bool) (val : α) : List α → List α
  | [] => [val]
  | y :: ys => if comp val y then y :: stdSort.linearInsert comp val ys else val :: y :: ys

/-- The loop body of the insertion sort: an element ordered before the first one goes
to the front, any other is inserted linearly from the back. -/
def stdSort.step {α : Type} (comp : α → α → Bool) (sorted : List α) (val : α) : List α :=
  match sorted with
  | [] => [val]
  | first :: _ =>
    if comp val first then val :: sorted
    else (stdSort.linearInsert comp val sorted.reverse).reverse

/-- The call `std::sort(begin, end, comp)`, as the insertion sort that the library runs on
a short range. In libstdc++ this is all of `std::sort` on a range of up to 16 elements, and
there the definition is exact. On a longer range the library partitions the range first
(introsort), which is not modelled: such a range is only known to come back rearranged, and
a statement about the order of the result is made for at most 16 elements. -/
def stdSort {α : Type} (comp : α → α → Bool) (l : List α) : List α :=
  l.foldl (stdSort.step comp) []

/-! ## The data of the engine -/

/-- The function `SplitIntoWords`, the loop over the characters: `words` are the words
pushed so far and `word` is the word being read. -/
def SplitIntoWords.loop : List Char → List Str → Str → List Str
  | [], words, word => words ++ [word]
  | c :: cs, words, word =>
    if c = ' ' then SplitIntoWords.loop cs (words ++ [word]) []
    else SplitIntoWords.loop cs words (word ++ [c])

/-- The function `SplitIntoWords`. -/
def SplitIntoWords (text : Str) : List Str :=
  SplitIntoWords.loop text [] []

/-- The struct `Document`. -/
structure Document (R : Type) where
  id : Int
  relevance : R
  rating : Int
  deriving DecidableEq, Repr

/-- The enumeration `DocumentStatus`. -/
inductive DocumentStatus where
  | ACTUAL
  | IRRELEVANT
  | BANNED
  | REMOVED
  deriving DecidableEq, Repr

/-- The struct `SearchServer::DocumentData`. -/
structure DocumentData where
  rating : Int
  status : DocumentStatus
  deriving DecidableEq, Repr

/-- The data members of `SearchServer`. -/
structure SearchServer (R : Type) where
  stop_words_ : List Str
  word_to_document_freqs_ : List (Str × List (Int × R))
  documents_ : List (Int × DocumentData)

/-- A default-constructed `SearchServer`. -/
def SearchServer.empty {R : Type} : SearchServer R :=
  ⟨[], [], []⟩

/-- What a call of a mutating member function leaves behind: the data members at the
moment control left the call, and the fault when it did not return normally. -/
structure Outcome (R : Type) where
  state : SearchServer R
  fault : Option Fault

/-- The struct `SearchServer::QueryWord`. -/
structure QueryWord where
  data : Str
  is_minus : Bool
  is_stop : Bool
  deriving DecidableEq, Repr

/-- The struct `SearchServer::Query`. -/
structure Query where
  plus_words : List Str
  minus_words : List Str
  deriving DecidableEq, Repr

/-- The template parameter `DocumentPredicate` of `FindTopDocuments` and `FindAllDocuments`:
instantiated with `DocumentStatus` itself, or with a callable. -/
inductive DocumentPredicate where
  | status (v : DocumentStatus)
  | predicate (p : Int → DocumentStatus → Int → Bool)

/-! ## The member functions -/

/-- The method `SearchServer::SetStopWords`. -/
def SetStopWords {R : Type} (s : SearchServer R) (text : Str) : SearchServer R :=
  { s with stop_words_ := (SplitIntoWords text).foldl StdSet.insert s.stop_words_ }

/-- The method `SearchServer::IsStopWord`. -/
def IsStopWord {R : Type} (s : SearchServer R) (word : Str) : Bool :=
  decide (word ∈ s.stop_words_)

/-- The method `SearchServer::SplitIntoWordsNoStop`. -/
def SplitIntoWordsNoStop {R : Type} (s : SearchServer R) (text : Str) : List Str :=
  (SplitIntoWords text).filter (fun word => !IsStopWord s word)

/-- The value of a 32-bit `int` after an addition that wraps around. -/
def wrap32 (n : Int) : Int :=
  (n + 2147483648) % 4294967296 - 2147483648

/-- The method `SearchServer::ComputeAverageRating`: the quotient truncates towards zero,
and there is none for an empty `ratings`. -/
def ComputeAverageRating (ratings : List Int) : Except Fault Int :=
  let rating_sum := ratings.foldl (fun acc rating => wrap32 (acc + rating)) 0
  if (ratings.length : Int) = 0 then .error .division_by_zero
  else .ok (Int.tdiv rating_sum (ratings.length : Int))

/-- The statement `word_to_document_freqs_[word][document_id] += inv_word_count`. -/
def AddDocument.addFreq {R : Type} [LinearOrderedField R] (document_id : Int)
    (inv_word_count : R) (freqs : List (Str × List (Int × R))) (word : Str) :
    List (Str × List (Int × R)) :=
  StdMap.subscript freqs word []
    (fun postings => StdMap.subscript postings document_id 0 (fun freq => freq + inv_word_count))

/-- The method `SearchServer::AddDocument`: the postings are written first, then the
average rating is computed and the document is stored. The frequencies are numbers of the
field `R`, so the quotient `1.0 / words.size()` and the additions are exact here;
`AddDocument.binary64` is the same method with the rounding of `double`. -/
def AddDocument {R : Type} [LinearOrderedField R] (s : SearchServer R) (document_id : Int)
    (document : Str) (status : DocumentStatus) (ratings : List Int) : Outcome R :=
  let words := SplitIntoWordsNoStop s document
  let inv_word_count : R := 1 / (words.length : R)
  let s1 : SearchServer R :=
    { s with word_to_document_freqs_ :=
        words.foldl (AddDocument.addFreq document_id inv_word_count) s.word_to_document_freqs_ }
  match ComputeAverageRating ratings with
  | .error f => ⟨s1, some f⟩
  | .ok rating =>
    ⟨{ s1 with documents_ := StdMap.emplace s1.documents_ document_id ⟨rating, status⟩ }, none⟩

/-- The method `SearchServer::GetDocumentCount`. -/
def GetDocumentCount {R : Type} (s : SearchServer R) : Int :=
  (s.documents_.length : Int)

/-- The method `SearchServer::ParseQueryWord`; `text[0]` of an empty string is the
terminating zero character. -/
def ParseQueryWord {R : Type} (s : SearchServer R) (text : Str) : QueryWord :=
  if text.headD (Char.ofNat 0) = '-' then ⟨text.drop 1, true, IsStopWord s (text.drop 1)⟩
  else ⟨text, false, IsStopWord s text⟩

/-- The loop body of `SearchServer::ParseQuery`. -/
def ParseQuery.step {R : Type} (s : SearchServer R) (query : Query) (word : Str) : Query :=
  let query_word := ParseQueryWord s word
  if !query_word.is_stop then
    if query_word.is_minus then
      { query with minus_words := StdSet.insert query.minus_words query_word.data }
    else
      { query with plus_words := StdSet.insert query.plus_words query_word.data }
  else query

/-- The method `SearchServer::ParseQuery`. -/
def ParseQuery {R : Type} (s : SearchServer R) (text : Str) : Query :=
  (SplitIntoWords text).foldl (ParseQuery.step s) ⟨[], []⟩

/-- The method `SearchServer::ComputeWordInverseDocumentFreq`. -/
def ComputeWordInverseDocumentFreq {R : Type} [LinearOrderedField R] (log : R → R)
    (s : SearchServer R) (word : Str) : Except Fault R :=
  match StdMap.find s.word_to_document_freqs_ word with
  | none => .error .out_of_range
  | some postings => .ok (log ((GetDocumentCount s : R) * 1 / (postings.length : R)))

/-- The test `is_selected` of `FindAllDocuments`, with its compile-time dispatch. -/
def FindAllDocuments.isSelected (document_predicate : DocumentPredicate) (document_id : Int)
    (document_data : DocumentData) : Bool :=
  match document_predicate with
  | .status v => decide (v = document_data.status)
  | .predicate p => p document_id document_data.status document_data.rating

/-- The inner loop of `FindAllDocuments` over the postings of one plus word. -/
def FindAllDocuments.scorePostings {R : Type} [LinearOrderedField R] (s : SearchServer R)
    (document_predicate : DocumentPredicate) (inverse_document_freq : R) :
    List (Int × R) → List (Int × R) → Except Fault (List (Int × R))
  | [], document_to_relevance => .ok document_to_relevance
  | (document_id, term_freq) :: rest, document_to_relevance =>
    match StdMap.find s.documents_ document_id with
    | none => .error .out_of_range
    | some document_data =>
      FindAllDocuments.scorePostings s document_predicate inverse_document_freq rest
        (if FindAllDocuments.isSelected document_predicate document_id document_data then
          StdMap.subscript document_to_relevance document_id 0
            (fun relevance => relevance + term_freq * inverse_document_freq)
        else document_to_relevance)

/-- The loop of `FindAllDocuments` over the plus words. -/
def FindAllDocuments.plusLoop {R : Type} [LinearOrderedField R] (log : R → R)
    (s : SearchServer R) (document_predicate : DocumentPredicate) :
    List Str → List (Int × R) → Except Fault (List (Int × R))
  | [], document_to_relevance => .ok document_to_relevance
  | word :: rest, document_to_relevance =>
    match StdMap.find s.word_to_document_freqs_ word with
    | none => FindAllDocuments.plusLoop log s document_predicate rest document_to_relevance
    | some postings =>
      match ComputeWordInverseDocumentFreq log s word with
      | .error f => .error f
      | .ok inverse_document_freq =>
        match FindAllDocuments.scorePostings s document_predicate inverse_document_freq
            postings document_to_relevance with
        | .error f => .error f
        | .ok scored => FindAllDocuments.plusLoop log s document_predicate rest scored

/-- The loop of `FindAllDocuments` over the minus words. -/
def FindAllDocuments.minusLoop {R : Type} (s : SearchServer R) :
    List Str → List (Int × R) → List (Int × R)
  | [], document_to_relevance => document_to_relevance
  | word :: rest, document_to_relevance =>
    match StdMap.find s.word_to_document_freqs_ word with
    | none => FindAllDocuments.minusLoop s rest document_to_relevance
    | some postings =>
      FindAllDocuments.minusLoop s rest
        (postings.foldl (fun m posting => StdMap.erase m posting.1) document_to_relevance)

/-- The last loop of `FindAllDocuments`, which builds the result. -/
def FindAllDocuments.collect {R : Type} (s : SearchServer R) :
    List (Int × R) → Except Fault (List (Document R))
  | [] => .ok []
  | (document_id, relevance) :: rest =>
    match StdMap.find s.documents_ document_id with
    | none => .error .out_of_range
    | some document_data =>
      match FindAllDocuments.collect s rest with
      | .error f => .error f
      | .ok matched_documents =>
        .ok (⟨document_id, relevance, document_data.rating⟩ :: matched_documents)

/-- The method `SearchServer::FindAllDocuments`. -/
def FindAllDocuments {R : Type} [LinearOrderedField R] (log : R → R) (s : SearchServer R)
    (query : Query) (document_predicate : DocumentPredicate) :
    Except Fault (List (Document R)) :=
  match FindAllDocuments.plusLoop log s document_predicate query.plus_words [] with
  | .error f => .error f
  | .ok document_to_relevance =>
    FindAllDocuments.collect s (FindAllDocuments.minusLoop s query.minus_words document_to_relevance)

/-- The comparator that `FindTopDocuments` hands to `std::sort`. -/
def FindTopDocuments.comp {R : Type} [LinearOrderedField R] (lhs rhs : Document R) : Bool :=
  if |lhs.relevance - rhs.relevance| < 1 / 1000000 then decide (lhs.rating > rhs.rating)
  else decide (lhs.relevance > rhs.relevance)

/-- The method template `SearchServer::FindTopDocuments(raw_query, document_predicate)`. -/
def FindTopDocuments {R : Type} [LinearOrderedField R] (log : R → R) (s : SearchServer R)
    (raw_query : Str) (document_predicate : DocumentPredicate) :
    Except Fault (List (Document R)) :=
  let query := ParseQuery s raw_query
  match FindAllDocuments log s query document_predicate with
  | .error f => .error f
  | .ok matched_documents =>
    let sorted := stdSort FindTopDocuments.comp matched_documents
    .ok (if sorted.length > MAX_RESULT_DOCUMENT_COUNT then sorted.take MAX_RESULT_DOCUMENT_COUNT
      else sorted)

/-- The overload `SearchServer::FindTopDocuments(raw_query)`. -/
def FindTopDocumentsDefault {R : Type} [LinearOrderedField R] (log : R → R)
    (s : SearchServer R) (raw_query : Str) : Except Fault (List (Document R)) :=
  FindTopDocuments log s raw_query
    (.predicate (fun _ status _ => decide (status = DocumentStatus.ACTUAL)))

/-- The first loop of `MatchDocument`, over the plus words. -/
def MatchDocument.plusLoop {R : Type} (s : SearchServer R) (document_id : Int) :
    List Str → List Str → List Str
  | [], matched_words => matched_words
  | word :: rest, matched_words =>
    match StdMap.find s.word_to_document_freqs_ word with
    | none => MatchDocument.plusLoop s document_id rest matched_words
    | some postings =>
      if (StdMap.find postings document_id).isSome then
        MatchDocument.plusLoop s document_id rest (matched_words ++ [word])
      else MatchDocument.plusLoop s document_id rest matched_words

/-- The second loop of `MatchDocument`, over the minus words, with its `break`. -/
def MatchDocument.minusLoop {R : Type} (s : SearchServer R) (document_id : Int) :
    List Str → List Str → List Str
  | [], matched_words => matched_words
  | word :: rest, matched_words =>
    match StdMap.find s.word_to_document_freqs_ word with
    | none => MatchDocument.minusLoop s document_id rest matched_words
    | some postings =>
      if (StdMap.find postings document_id).isSome then []
      else MatchDocument.minusLoop s document_id rest matched_words

/-- The method `SearchServer::MatchDocument`. -/
def MatchDocument {R : Type} (s : SearchServer R) (raw_query : Str) (document_id : Int) :
    Except Fault (List Str × DocumentStatus) :=
  let query := ParseQuery s raw_query
  let matched_words :=
    MatchDocument.minusLoop s document_id query.minus_words
      (MatchDocument.plusLoop s document_id query.plus_words [])
  match StdMap.find s.documents_ document_id with
  | none => .error .out_of_range
  | some document_data => .ok (matched_words, document_data.status)

/-! ## The postings of `AddDocument` in the arithmetic of `double` -/

/-- A value of the type `double` (IEEE 754 binary64) that is not negative: the number
`mantissa * 2 ^ exponent`, or positive infinity, or not a number. A finite value is kept
in the one form that the format has for it: `mantissa < 2 ^ 53` and
`-1074 ≤ exponent ≤ 971`, with `2 ^ 52 ≤ mantissa` unless `exponent = -1074`. The postings
loop of `AddDocument` computes no negative value. -/
inductive Binary64 where
  | finite (mantissa : Nat) (exponent : Int)
  | infinity
  | nan
  deriving DecidableEq, Repr

/-- The number of binary digits of `n`, found with at most `fuel` halvings; `fuel = n` is
always enough. -/
def Binary64.digits : Nat → Nat → Nat
  | 0, _ => 0
  | fuel + 1, n => if n = 0 then 0 else Binary64.digits fuel (n / 2) + 1

/-- The numerator and the denominator of `n / d` divided by `2 ^ e`. -/
def Binary64.scale (n d : Nat) (e : Int) : Nat × Nat :=
  if 0 ≤ e then (n, d * 2 ^ e.toNat) else (n * 2 ^ (-e).toNat, d)

/-- The rounding of every operation on a `double`, to the nearest value with ties to the
even mantissa: the `double` that stands for the exact quotient `n / d`, for `d` not zero.
The exponent is the one that brings the quotient into `[2 ^ 52, 2 ^ 53)`, and not less than
`-1074`; a result of `2 ^ 1024` or more is infinity. -/
def Binary64.round (n d : Nat) : Binary64 :=
  if n = 0 then .finite 0 (-1074)
  else
    let l : Int := (Binary64.digits n n : Int) - (Binary64.digits d d : Int)
    let leading : Int :=
      if (Binary64.scale n d l).2 ≤ (Binary64.scale n d l).1 then l else l - 1
    let e : Int := max (leading - 52) (-1074)
    let q := (Binary64.scale n d e).1 / (Binary64.scale n d e).2
    let r := (Binary64.scale n d e).1 % (Binary64.scale n d e).2
    let m :=
      if 2 * r < (Binary64.scale n d e).2 then q
      else if (Binary64.scale n d e).2 < 2 * r then q + 1
      else q + q % 2
    if m = 2 ^ 53 then
      if 971 < e + 1 then .infinity else .finite (2 ^ 52) (e + 1)
    else
      if 971 < e then .infinity else .finite m e

/-- The conversion of a `size_t` to `double`. -/
def Binary64.ofNat (n : Nat) : Binary64 :=
  Binary64.round n 1

/-- The value `0.0`, which `operator[]` stores for a new key. -/
def Binary64.zero : Binary64 :=
  .finite 0 (-1074)

/-- The division of two values of `double` that are not negative. -/
def Binary64.div : Binary64 → Binary64 → Binary64
  | .finite m1 e1, .finite m2 e2 =>
    if m2 = 0 then (if m1 = 0 then .nan else .infinity)
    else Binary64.round (Binary64.scale m1 m2 (e2 - e1)).1 (Binary64.scale m1 m2 (e2 - e1)).2
  | .finite _ _, .infinity => Binary64.zero
  | .infinity, .finite _ _ => .infinity
  | _, _ => .nan

/-- The sum of two values of `double` that are not negative; adding zero changes
nothing. -/
def Binary64.add : Binary64 → Binary64 → Binary64
  | .finite m1 e1, .finite m2 e2 =>
    if m1 = 0 then .finite m2 e2
    else if m2 = 0 then .finite m1 e1
    else
      let e := min e1 e2
      let m := m1 * 2 ^ (e1 - e).toNat + m2 * 2 ^ (e2 - e).toNat
      Binary64.round (Binary64.scale m 1 (-e)).1 (Binary64.scale m 1 (-e)).2
  | .nan, _ => .nan
  | _, .nan => .nan
  | _, _ => .infinity

/-- The number that a finite `double` stands for. -/
def Binary64.value : Binary64 → Option ℚ
  | .finite mantissa exponent => some ((mantissa : ℚ) * (2 : ℚ) ^ exponent)
  | _ => none

/-- The statement `word_to_document_freqs_[word][document_id] += inv_word_count`, in the
arithmetic of `double`. -/
def AddDocument.addFreqBinary64 (document_id : Int) (inv_word_count : Binary64)
    (freqs : List (Str × List (Int × Binary64))) (word : Str) :
    List (Str × List (Int × Binary64)) :=
  StdMap.subscript freqs word []
    (fun postings => StdMap.subscript postings document_id Binary64.zero
      (fun freq => Binary64.add freq inv_word_count))

/-- The method `SearchServer::AddDocument`, in the arithmetic of `double`: the same
statements as `AddDocument`, with the quotient `1.0 / words.size()` and every `+=` rounded
as the machine rounds them. -/
def AddDocument.binary64 (s : SearchServer Binary64) (document_id : Int) (document : Str)
    (status : DocumentStatus) (ratings : List Int) : Outcome Binary64 :=
  let words := SplitIntoWordsNoStop s document
  let inv_word_count : Binary64 := Binary64.div (Binary64.ofNat 1) (Binary64.ofNat words.length)
  let s1 : SearchServer Binary64 :=
    { s with
      word_to_document_freqs_ :=
        words.foldl (AddDocument.addFreqBinary64 document_id inv_word_count)
          s.word_to_document_freqs_ }
  match ComputeAverageRating ratings with
  | .error f => ⟨s1, some f⟩
  | .ok rating =>
    ⟨{ s1 with documents_ := StdMap.emplace s1.documents_ document_id ⟨rating, status⟩ }, none⟩

/-! ## Notions used to state the properties -/

/-- The frequency posted for `document_id` under `word`, if there is one. -/
def posting {R : Type} (freqs : List (Str × List (Int × R))) (word : Str) (document_id : Int) :
    Option R :=
  (StdMap.find freqs word).bind (fun postings => StdMap.find postings document_id)

/-- Every document id posted in the inverted index is a key of the document store. -/
def SearchServer.Consistent {R : Type} (s : SearchServer R) : Prop :=
  ∀ entry ∈ s.word_to_document_freqs_, ∀ posting ∈ entry.2,
    (StdMap.find s.documents_ posting.1).isSome = true

/-- The document `document_id` is posted in the inverted index under `word`. -/
def Posted {R : Type} (s : SearchServer R) (word : Str) (document_id : Int) : Bool :=
  match StdMap.find s.word_to_document_freqs_ word with
  | none => false
  | some postings => (StdMap.find postings document_id).isSome

/-- The order in which a `std::set` is traversed: strictly ascending. -/
def StrictlyAscending {K : Type} [LinearOrder K] (l : List K) : Prop :=
  l.Pairwise (· < ·)

/-- A call of one of the two mutating member functions. -/
inductive Call where
  | SetStopWords (text : Str)
  | AddDocument (document_id : Int) (document : Str) (status : DocumentStatus)
      (ratings : List Int)

/-- What one call does to the engine. -/
def Call.apply {R : Type} [LinearOrderedField R] (s : SearchServer R) : Call → Outcome R
  | .SetStopWords text => ⟨SearchServerModel.SetStopWords s text, none⟩
  | .AddDocument document_id document status ratings =>
    SearchServerModel.AddDocument s document_id document status ratings

/-- A sequence of calls; it ends at the first call that does not return normally. -/
def run {R : Type} [LinearOrderedField R] (s : SearchServer R) : List Call → Outcome R
  | [] => ⟨s, none⟩
  | call :: rest =>
    match (call.apply s).fault with
    | some f => ⟨(call.apply s).state, some f⟩
    | none => run (call.apply s).state rest

/-- The calls that configure the stop words from `texts` and then add the documents
`docs`. -/
def stopWordsThenDocuments (texts : List Str)
    (docs : List (Int × Str × DocumentStatus × List Int)) : List Call :=
  texts.map Call.SetStopWords ++
    docs.map (fun doc => Call.AddDocument doc.1 doc.2.1 doc.2.2.1 doc.2.2.2)

/-- The engine of the test `Test2` with a second document: the stop words `in the`, the
document 42 `cat in the city` and the document 43 `cat in the town`. -/
def twoDocuments (R : Type) [LinearOrderedField R] : SearchServer R :=
  (run SearchServer.empty
    [.SetStopWords "in the".toList,
     .AddDocument 42 "cat in the city".toList .ACTUAL [1, 2, 3],
     .AddDocument 43 "cat in the town".toList .ACTUAL [1, 2, 3]]).state

/-- An engine with six documents that all consist of the word `cat`. -/
def sixDocuments (R : Type) [LinearOrderedField R] : SearchServer R :=
  (run SearchServer.empty
    [.AddDocument 1 "cat".toList .ACTUAL [1, 2, 3],
     .AddDocument 2 "cat".toList .ACTUAL [1, 2, 3],
     .AddDocument 3 "cat".toList .ACTUAL [1, 2, 3],
     .AddDocument 4 "cat".toList .ACTUAL [1, 2, 3],
     .AddDocument 5 "cat".toList .ACTUAL [1, 2, 3],
     .AddDocument 6 "cat".toList .ACTUAL [1, 2, 3]]).state

/-- The text that consists of the word `w` followed by `n` times the word `a`. -/
def wThenAs (n : Nat) : Str :=
  "w".toList ++ (List.replicate n " a".toList).flatten

/-- An engine with near ties, built by eight `AddDocument` calls, all with the ratings
`1, 2, 3`: the document 1 is `w`, the documents 2, 3 and 4 are `w` followed by 1000, 999
and 998 times `a`, and the documents 5 to 8 are `x`. -/
def nearTieDocuments (R : Type) [LinearOrderedField R] : SearchServer R :=
  (run SearchServer.empty
    [.AddDocument 1 (wThenAs 0) .ACTUAL [1, 2, 3],
     .AddDocument 2 (wThenAs 1000) .ACTUAL [1, 2, 3],
     .AddDocument 3 (wThenAs 999) .ACTUAL [1, 2, 3],
     .AddDocument 4 (wThenAs 998) .ACTUAL [1, 2, 3],
     .AddDocument 5 "x".toList .ACTUAL [1, 2, 3],
     .AddDocument 6 "x".toList .ACTUAL [1, 2, 3],
     .AddDocument 7 "x".toList .ACTUAL [1, 2, 3],
     .AddDocument 8 "x".toList .ACTUAL [1, 2, 3]]).state

/-- The part of `nearTieDocuments` that a query for `w` reads: the eight stored documents,
all with the rating 2, and the postings of `w`, with the frequency 1 in document 1 and the
frequencies 1/1001, 1/1000 and 1/999 in the documents 2, 3 and 4. -/
def nearTies (R : Type) [LinearOrderedField R] : SearchServer R :=
  { stop_words_ := []
    word_to_document_freqs_ :=
      [("w".toList, [(1, 1), (2, 1 / 1001), (3, 1 / 1000), (4, 1 / 999)])]
    documents_ :=
      [(1, ⟨2, .ACTUAL⟩), (2, ⟨2, .ACTUAL⟩), (3, ⟨2, .ACTUAL⟩), (4, ⟨2, .ACTUAL⟩),
       (5, ⟨2, .ACTUAL⟩), (6, ⟨2, .ACTUAL⟩), (7, ⟨2, .ACTUAL⟩), (8, ⟨2, .ACTUAL⟩)] }

/-- The order that the specification states for two results `a`, `b` with `a` before
`b`. -/
def OrderedBefore {R : Type} [LinearOrderedField R] (a b : Document R) : Prop :=
  a.relevance > b.relevance ∨
    (|a.relevance - b.relevance| < 1 / 1000000 ∧ a.rating ≥ b.rating)

/-- The ids of the `AddDocument` calls of a sequence that returned normally. -/
def returnedIds {R : Type} [LinearOrderedField R] (s : SearchServer R) : List Call → List Int
  | [] => []
  | call :: rest =>
    match (call.apply s).fault with
    | some _ => []
    | none =>
      match call with
      | .SetStopWords _ => returnedIds (call.apply s).state rest
      | .AddDocument document_id _ _ _ =>
        document_id :: returnedIds (call.apply s).state rest

/-- The filter accepts the document: it is stored, and the predicate holds of its id, its
stored status and its stored rating. -/
def FindAllDocuments.accepts {R : Type} (s : SearchServer R)
    (document_predicate : DocumentPredicate) (document_id : Int) : Bool :=
  match StdMap.find s.documents_ document_id with
  | none => false
  | some document_data => FindAllDocuments.isSelected document_predicate document_id document_data

/-- What the postings of `word` add to the relevance of `document_id` in the plus loop of
`FindAllDocuments`: the frequency of each posting of the document times the inverse
document frequency of the word. -/
def FindAllDocuments.contribution {R : Type} [LinearOrderedField R] (log : R → R)
    (s : SearchServer R) (word : Str) (document_id : Int) : R :=
  match StdMap.find s.word_to_document_freqs_ word with
  | none => 0
  | some postings =>
    ((postings.filter (fun posting => decide (posting.1 = document_id))).map
      (fun posting => posting.2 * log ((GetDocumentCount s : R) * 1 / (postings.length : R)))).sum

/-- The term frequency stored for `document_id` under `word` (zero when there is none). -/
def termFreq {R : Type} [LinearOrderedField R] (s : SearchServer R) (word : Str)
    (document_id : Int) : R :=
  (posting s.word_to_document_freqs_ word document_id).getD 0

/-- The number of ids in the posting list of `word`. -/
def docFreq {R : Type} (s : SearchServer R) (word : Str) : Nat :=
  ((StdMap.find s.word_to_document_freqs_ word).getD []).length

/-- The invariant of the `std::map`s of the inverted index: no word is a key twice, and no
id is posted twice under one word. -/
def SearchServer.DistinctKeys {R : Type} (s : SearchServer R) : Prop :=
  (s.word_to_document_freqs_.map Prod.fst).Nodup ∧
    ∀ entry ∈ s.word_to_document_freqs_, (entry.2.map Prod.fst).Nodup

/-- The engine of the test `Test0`: no stop words and the document 42
`cat in the city`. -/
def oneDocument (R : Type) [LinearOrderedField R] : SearchServer R :=
  (run SearchServer.empty
    [.AddDocument 42 "cat in the city".toList .ACTUAL [1, 2, 3]]).state

/-- The engine of the tests `Test4_1` to `Test4_4`: the stop words `in the` and five
documents, all with the status `ACTUAL` and the ratings `1, 2, 3`. -/
def fiveDocuments (R : Type) [LinearOrderedField R] : SearchServer R :=
  (run SearchServer.empty
    [.SetStopWords "in the".toList,
     .AddDocument 1 "cat in the city play match".toList .ACTUAL [1, 2, 3],
     .AddDocument 2 "cat1 in the city play match".toList .ACTUAL [1, 2, 3],
     .AddDocument 3 "cat1 in the city2 play match".toList .ACTUAL [1, 2, 3],
     .AddDocument 4 "cat1 in the city2 play3 match".toList .ACTUAL [1, 2, 3],
     .AddDocument 5 "cat1 in the city2 play3 match4".toList .ACTUAL [1, 2, 3]]).state

/-- The call is `SetStopWords`, or `AddDocument` with ratings that are not empty. -/
def Call.ratingsNonempty : Call → Bool
  | .SetStopWords _ => true
  | .AddDocument _ _ _ ratings => !ratings.isEmpty

/-- The ids of the `AddDocument` calls of a sequence. -/
def addedIds : List Call → List Int
  | [] => []
  | .SetStopWords _ :: rest => addedIds rest
  | .AddDocument document_id _ _ _ :: rest => document_id :: addedIds rest

/-- Every key of the inverted index has a posting list that is not empty. -/
def SearchServer.PostingsNonempty {R : Type} (s : SearchServer R) : Prop :=
  ∀ entry ∈ s.word_to_document_freqs_, entry.2 ≠ []

/-! ## The containers -/

theorem StdSet.mem_insertNew {K : Type} [LinearOrder K] (x y : K) (s : List K) :
    y ∈ StdSet.insertNew x s ↔ y = x ∨ y ∈ s := by
  induction s with
  | nil => simp [StdSet.insertNew]
  | cons a t ih =>
    unfold StdSet.insertNew
    split
    · simp
    · simp only [List.mem_cons, ih]; tauto

theorem StdSet.mem_insert {K : Type} [LinearOrder K] (x y : K) (s : List K) :
    y ∈ StdSet.insert s x ↔ y = x ∨ y ∈ s := by
  unfold StdSet.insert
  split
  · constructor
    · exact Or.inr
    · rintro (rfl | h)
      · assumption
      · exact h
  · exact StdSet.mem_insertNew x y s

theorem StdMap.find_insertNew_ne {K V : Type} [LinearOrder K] (k k' : K) (v : V)
    (m : List (K × V)) (h : k' ≠ k) :
    StdMap.find (StdMap.insertNew k v m) k' = StdMap.find m k' := by
  induction m with
  | nil => simp [StdMap.insertNew, StdMap.find, h]
  | cons a t ih =>
    obtain ⟨ka, va⟩ := a
    unfold StdMap.insertNew
    split
    · simp [StdMap.find, h]
    · simp only [StdMap.find, ih]

theorem StdMap.find_insertNew_self {K V : Type} [LinearOrder K] (k : K) (v : V)
    (m : List (K × V)) (h : StdMap.find m k = none) :
    StdMap.find (StdMap.insertNew k v m) k = some v := by
  induction m with
  | nil => simp [StdMap.insertNew, StdMap.find]
  | cons a t ih =>
    obtain ⟨ka, va⟩ := a
    unfold StdMap.insertNew
    simp only [StdMap.find] at h
    split at h
    · simp at h
    · split
      · simp [StdMap.find]
      · simp only [StdMap.find]
        rw [if_neg ‹_›]
        exact ih h

theorem StdMap.find_emplace {K V : Type} [LinearOrder K] (m : List (K × V)) (k k' : K) (v : V) :
    StdMap.find (StdMap.emplace m k v) k'
      = if k' = k then some ((StdMap.find m k).getD v) else StdMap.find m k' := by
  unfold StdMap.emplace
  by_cases hk : k' = k
  · subst hk
    cases hf : StdMap.find m k' with
    | none => simp [StdMap.find_insertNew_self _ _ _ hf]
    | some w => simp [hf]
  · rw [if_neg hk]
    split
    · rfl
    · exact StdMap.find_insertNew_ne k k' v m hk

theorem StdMap.find_modify {K V : Type} [LinearOrder K] (f : V → V) (m : List (K × V))
    (k k' : K) :
    StdMap.find (StdMap.modify f m k) k'
      = if k' = k then (StdMap.find m k).map f else StdMap.find m k' := by
  induction m with
  | nil => simp [StdMap.modify, StdMap.find]
  | cons a t ih =>
    obtain ⟨ka, va⟩ := a
    unfold StdMap.modify
    by_cases h1 : k = ka
    · subst h1
      by_cases h2 : k' = k
      · subst h2; simp [StdMap.find]
      · simp [StdMap.find, h2]
    · rw [if_neg h1]
      simp only [StdMap.find, ih]
      by_cases h2 : k' = ka
      · subst h2
        have : ¬ k' = k := fun e => h1 e.symm
        simp [this]
      · simp [h2, h1]

theorem StdMap.find_subscript {K V : Type} [LinearOrder K] (m : List (K × V)) (k k' : K)
    (dflt : V) (f : V → V) :
    StdMap.find (StdMap.subscript m k dflt f) k'
      = if k' = k then some (f ((StdMap.find m k).getD dflt)) else StdMap.find m k' := by
  unfold StdMap.subscript
  rw [StdMap.find_modify, StdMap.find_emplace, StdMap.find_emplace]
  by_cases h : k' = k <;> simp [h]

theorem StdMap.find_erase {K V : Type} [LinearOrder K] (m : List (K × V)) (k k' : K) :
    StdMap.find (StdMap.erase m k) k' = if k' = k then none else StdMap.find m k' := by
  induction m with
  | nil => simp [StdMap.erase, StdMap.find]
  | cons a t ih =>
    obtain ⟨ka, va⟩ := a
    unfold StdMap.erase at ih ⊢
    by_cases h1 : ka = k
    · subst h1
      simp only [ne_eq, not_true_eq_false, decide_False, Bool.false_eq_true, not_false_eq_true,
        List.filter_cons_of_neg, ih, StdMap.find]
      by_cases h2 : k' = ka <;> simp [h2]
    · simp only [ne_eq, h1, not_false_eq_true, decide_True, List.filter_cons_of_pos, StdMap.find, ih]
      by_cases h2 : k' = ka
      · subst h2; simp [h1]
      · simp [h2]

theorem StdMap.find_isSome_iff {K V : Type} [LinearOrder K] (m : List (K × V)) (k : K) :
    (StdMap.find m k).isSome ↔ k ∈ m.map Prod.fst := by
  induction m with
  | nil => simp [StdMap.find]
  | cons a t ih =>
    obtain ⟨ka, va⟩ := a
    simp only [StdMap.find, List.map_cons, List.mem_cons]
    by_cases h : k = ka
    · simp [h]
    · simp [h, ih]

theorem posting_addFreq {R : Type} [LinearOrderedField R] (document_id : Int) (inv : R)
    (freqs : List (Str × List (Int × R))) (word w : Str) (d : Int) :
    posting (AddDocument.addFreq document_id inv freqs word) w d
      = if w = word ∧ d = document_id then some ((posting freqs word document_id).getD 0 + inv)
        else posting freqs w d := by
  unfold posting AddDocument.addFreq
  rw [StdMap.find_subscript]
  by_cases hw : w = word
  · subst hw
    simp only [if_true, Option.some_bind, true_and, StdMap.find_subscript]
    by_cases hd : d = document_id
    · subst hd
      cases StdMap.find freqs w <;> simp [StdMap.find]
    · cases StdMap.find freqs w <;> simp [StdMap.find, hd]
  · simp [hw]

/-! ## Adding a document -/

theorem posting_foldl_addFreq {R : Type} [LinearOrderedField R] (document_id : Int) (inv : R)
    (words : List Str) (freqs : List (Str × List (Int × R))) (w : Str) (d : Int) :
    posting (words.foldl (AddDocument.addFreq document_id inv) freqs) w d
      = if d = document_id ∧ w ∈ words then
          some ((posting freqs w document_id).getD 0 + (words.count w : R) * inv)
        else posting freqs w d := by
  induction words generalizing freqs with
  | nil => simp
  | cons a t ih =>
    rw [List.foldl_cons, ih, posting_addFreq, posting_addFreq, List.count_cons]
    by_cases hd : d = document_id
    · subst hd
      by_cases hwa : w = a
      · subst hwa
        by_cases hwt : w ∈ t
        · simp [hwt]; ring
        · simp [hwt, List.count_eq_zero_of_not_mem hwt]
      · have hne : ¬ a = w := fun e => hwa e.symm
        by_cases hwt : w ∈ t
        · simp [hwt, hwa, hne]
        · simp [hwt, hwa]
    · simp [hd]

theorem ComputeAverageRating_nil : ComputeAverageRating [] = .error .division_by_zero := by
  simp [ComputeAverageRating]

theorem ComputeAverageRating_ok (ratings : List Int) (h : ratings ≠ []) :
    ∃ rating, ComputeAverageRating ratings = .ok rating := by
  unfold ComputeAverageRating
  have : ¬ ((ratings.length : Int) = 0) := by
    have := List.length_pos.mpr h
    omega
  simp only [this, if_false]
  exact ⟨_, rfl⟩

theorem StdSet.mem_foldl_insert {K : Type} [LinearOrder K] (l : List K) (s : List K) (y : K) :
    y ∈ l.foldl StdSet.insert s ↔ y ∈ s ∨ y ∈ l := by
  induction l generalizing s with
  | nil => simp
  | cons a t ih =>
    rw [List.foldl_cons, ih, StdSet.mem_insert, List.mem_cons]
    tauto

theorem ParseQuery.mem_minus_foldl {R : Type} (s : SearchServer R) (words : List Str)
    (query : Query) (w : Str) :
    w ∈ (words.foldl (ParseQuery.step s) query).minus_words ↔
      w ∈ query.minus_words ∨
      ∃ t ∈ words, (ParseQueryWord s t).is_minus = true ∧ (ParseQueryWord s t).is_stop = false ∧
        (ParseQueryWord s t).data = w := by
  induction words generalizing query with
  | nil => simp
  | cons a t ih =>
    rw [List.foldl_cons, ih]
    have hstep : w ∈ (ParseQuery.step s query a).minus_words ↔
        w ∈ query.minus_words ∨ ((ParseQueryWord s a).is_minus = true ∧
          (ParseQueryWord s a).is_stop = false ∧ (ParseQueryWord s a).data = w) := by
      unfold ParseQuery.step
      generalize ParseQueryWord s a = qw
      obtain ⟨data, m, st⟩ := qw
      cases m <;> cases st <;> simp [StdSet.mem_insert]
      constructor
      · rintro (h | h)
        · exact Or.inr h.symm
        · exact Or.inl h
      · rintro (h | h)
        · exact Or.inr h
        · exact Or.inl h.symm
    rw [hstep]
    simp only [List.mem_cons, exists_eq_or_imp]
    tauto

theorem ParseQuery.mem_plus_foldl {R : Type} (s : SearchServer R) (words : List Str)
    (query : Query) (w : Str) :
    w ∈ (words.foldl (ParseQuery.step s) query).plus_words ↔
      w ∈ query.plus_words ∨
      ∃ t ∈ words, (ParseQueryWord s t).is_minus = false ∧ (ParseQueryWord s t).is_stop = false ∧
        (ParseQueryWord s t).data = w := by
  induction words generalizing query with
  | nil => simp
  | cons a t ih =>
    rw [List.foldl_cons, ih]
    have hstep : w ∈ (ParseQuery.step s query a).plus_words ↔
        w ∈ query.plus_words ∨ ((ParseQueryWord s a).is_minus = false ∧
          (ParseQueryWord s a).is_stop = false ∧ (ParseQueryWord s a).data = w) := by
      unfold ParseQuery.step
      generalize ParseQueryWord s a = qw
      obtain ⟨data, m, st⟩ := qw
      cases m <;> cases st <;> simp [StdSet.mem_insert]
      constructor
      · rintro (h | h)
        · exact Or.inr h.symm
        · exact Or.inl h
      · rintro (h | h)
        · exact Or.inr h
        · exact Or.inl h.symm
    rw [hstep]
    simp only [List.mem_cons, exists_eq_or_imp]
    tauto

theorem ParseQuery.mem_minus_words {R : Type} (s : SearchServer R) (text : Str) (w : Str) :
    w ∈ (ParseQuery s text).minus_words ↔
      ∃ t ∈ SplitIntoWords text, (ParseQueryWord s t).is_minus = true ∧
        (ParseQueryWord s t).is_stop = false ∧ (ParseQueryWord s t).data = w := by
  unfold ParseQuery
  rw [ParseQuery.mem_minus_foldl]
  simp

theorem ParseQuery.mem_plus_words {R : Type} (s : SearchServer R) (text : Str) (w : Str) :
    w ∈ (ParseQuery s text).plus_words ↔
      ∃ t ∈ SplitIntoWords text, (ParseQueryWord s t).is_minus = false ∧
        (ParseQueryWord s t).is_stop = false ∧ (ParseQueryWord s t).data = w := by
  unfold ParseQuery
  rw [ParseQuery.mem_plus_foldl]
  simp

theorem ParseQueryWord_minus_nil_iff {R : Type} (s : SearchServer R) (t : Str) :
    ((ParseQueryWord s t).is_minus = true ∧ (ParseQueryWord s t).data = []) ↔ t = ['-'] := by
  unfold ParseQueryWord
  cases t with
  | nil => simp
  | cons c cs =>
    by_cases hc : c = '-'
    · subst hc
      simp
    · simp [hc]

theorem ParseQuery.nil_mem_minus_words {R : Type} (s : SearchServer R) (text : Str)
    (h : ['-'] ∈ SplitIntoWords text) :
    [] ∈ (ParseQuery s text).minus_words ↔ [] ∉ s.stop_words_ := by
  rw [ParseQuery.mem_minus_words]
  constructor
  · rintro ⟨t, _, hm, hs, hd⟩
    have ht := (ParseQueryWord_minus_nil_iff s t).mp ⟨hm, hd⟩
    subst ht
    simpa [ParseQueryWord, IsStopWord] using hs
  · intro hn
    refine ⟨['-'], h, ?_, ?_, ?_⟩ <;> simp [ParseQueryWord, IsStopWord, hn]

/-! ## Sorting -/

theorem stdSort.linearInsert_perm {α : Type} (comp : α → α → Bool) (val : α) (l : List α) :
    (stdSort.linearInsert comp val l).Perm (val :: l) := by
  induction l with
  | nil => simp [stdSort.linearInsert]
  | cons y ys ih =>
    unfold stdSort.linearInsert
    split
    · exact (List.Perm.cons y ih).trans (List.Perm.swap val y ys)
    · exact List.Perm.refl _

theorem stdSort.step_perm {α : Type} (comp : α → α → Bool) (sorted : List α) (val : α) :
    (stdSort.step comp sorted val).Perm (val :: sorted) := by
  unfold stdSort.step
  cases sorted with
  | nil => simp
  | cons first rest =>
    simp only
    split
    · exact List.Perm.refl _
    · refine (List.reverse_perm _).trans ?_
      refine (stdSort.linearInsert_perm comp val _).trans ?_
      exact List.Perm.cons val (List.reverse_perm _)

theorem stdSort.foldl_perm {α : Type} (comp : α → α → Bool) (l acc : List α) :
    (l.foldl (stdSort.step comp) acc).Perm (acc ++ l) := by
  induction l generalizing acc with
  | nil => simp
  | cons a t ih =>
    rw [List.foldl_cons]
    refine (ih _).trans ?_
    refine (List.Perm.append_right t (stdSort.step_perm comp acc a)).trans ?_
    simp only [List.cons_append]
    exact List.perm_middle.symm

theorem stdSort_perm {α : Type} (comp : α → α → Bool) (l : List α) :
    (stdSort comp l).Perm l := by
  unfold stdSort
  simpa using stdSort.foldl_perm comp l []

/-! ## Scoring -/

theorem StdMap.mem_of_find {K V : Type} [LinearOrder K] (m : List (K × V)) (k : K) (v : V)
    (h : StdMap.find m k = some v) : (k, v) ∈ m := by
  induction m with
  | nil => simp [StdMap.find] at h
  | cons a t ih =>
    obtain ⟨ka, va⟩ := a
    simp only [StdMap.find] at h
    split at h
    · simp only [Option.some.injEq] at h
      subst h
      simp [*]
    · exact List.mem_cons_of_mem _ (ih h)

theorem FindAllDocuments.scorePostings_keys {R : Type} [LinearOrderedField R]
    (s : SearchServer R) (p : DocumentPredicate) (idf : R) (P : Int → Prop)
    (hP : ∀ k data, StdMap.find s.documents_ k = some data →
      FindAllDocuments.isSelected p k data = true → P k)
    (postings m m' : List (Int × R))
    (hm : ∀ k, (StdMap.find m k).isSome = true → P k)
    (h : FindAllDocuments.scorePostings s p idf postings m = .ok m') :
    ∀ k, (StdMap.find m' k).isSome = true → P k := by
  induction postings generalizing m with
  | nil =>
    simp only [FindAllDocuments.scorePostings, Except.ok.injEq] at h
    subst h
    exact hm
  | cons e rest ih =>
    obtain ⟨document_id, term_freq⟩ := e
    simp only [FindAllDocuments.scorePostings] at h
    cases hdoc : StdMap.find s.documents_ document_id with
    | none => simp [hdoc] at h
    | some data =>
      simp only [hdoc] at h
      refine ih _ ?_ h
      intro k hk
      split at hk
      · rw [StdMap.find_subscript] at hk
        by_cases hkd : k = document_id
        · subst hkd
          exact hP k data hdoc ‹_›
        · rw [if_neg hkd] at hk
          exact hm k hk
      · exact hm k hk

theorem FindAllDocuments.scorePostings_ok {R : Type} [LinearOrderedField R]
    (s : SearchServer R) (p : DocumentPredicate) (idf : R) (postings m : List (Int × R))
    (h : ∀ e ∈ postings, (StdMap.find s.documents_ e.1).isSome = true) :
    ∃ m', FindAllDocuments.scorePostings s p idf postings m = .ok m' := by
  induction postings generalizing m with
  | nil => exact ⟨m, rfl⟩
  | cons e rest ih =>
    obtain ⟨document_id, term_freq⟩ := e
    have hd := h (document_id, term_freq) (List.mem_cons_self _ _)
    obtain ⟨data, hdata⟩ := Option.isSome_iff_exists.mp hd
    simp only [FindAllDocuments.scorePostings, hdata]
    exact ih _ (fun e he => h e (List.mem_cons_of_mem _ he))

theorem FindAllDocuments.plusLoop_keys {R : Type} [LinearOrderedField R] (log : R → R)
    (s : SearchServer R) (p : DocumentPredicate) (P : Int → Prop)
    (hP : ∀ k data, StdMap.find s.documents_ k = some data →
      FindAllDocuments.isSelected p k data = true → P k)
    (words : List Str) (m m' : List (Int × R))
    (hm : ∀ k, (StdMap.find m k).isSome = true → P k)
    (h : FindAllDocuments.plusLoop log s p words m = .ok m') :
    ∀ k, (StdMap.find m' k).isSome = true → P k := by
  induction words generalizing m with
  | nil =>
    simp only [FindAllDocuments.plusLoop, Except.ok.injEq] at h
    subst h
    exact hm
  | cons word rest ih =>
    simp only [FindAllDocuments.plusLoop] at h
    cases hw : StdMap.find s.word_to_document_freqs_ word with
    | none =>
      simp only [hw] at h
      exact ih m hm h
    | some postings =>
      simp only [hw] at h
      cases hidf : ComputeWordInverseDocumentFreq log s word with
      | error f => simp [hidf] at h
      | ok idf =>
        simp only [hidf] at h
        cases hsc : FindAllDocuments.scorePostings s p idf postings m with
        | error f => simp [hsc] at h
        | ok scored =>
          simp only [hsc] at h
          exact ih scored (FindAllDocuments.scorePostings_keys s p idf P hP postings m scored hm hsc) h

theorem FindAllDocuments.plusLoop_ok {R : Type} [LinearOrderedField R] (log : R → R)
    (s : SearchServer R) (p : DocumentPredicate) (hs : s.Consistent)
    (words : List Str) (m : List (Int × R)) :
    ∃ m', FindAllDocuments.plusLoop log s p words m = .ok m' := by
  induction words generalizing m with
  | nil => exact ⟨m, rfl⟩
  | cons word rest ih =>
    simp only [FindAllDocuments.plusLoop]
    cases hw : StdMap.find s.word_to_document_freqs_ word with
    | none => exact ih m
    | some postings =>
      simp only [ComputeWordInverseDocumentFreq, hw]
      have hmem := StdMap.mem_of_find _ _ _ hw
      obtain ⟨scored, hsc⟩ := FindAllDocuments.scorePostings_ok s p
        (log ((GetDocumentCount s : R) * 1 / (postings.length : R))) postings m
        (fun e he => hs (word, postings) hmem e he)
      simp only [hsc]
      exact ih scored

theorem StdMap.find_foldl_erase {V W : Type} (postings : List (Int × W)) (m : List (Int × V))
    (k : Int) :
    StdMap.find (postings.foldl (fun m posting => StdMap.erase m posting.1) m) k
      = if k ∈ postings.map Prod.fst then none else StdMap.find m k := by
  induction postings generalizing m with
  | nil => simp
  | cons e rest ih =>
    rw [List.foldl_cons, ih, StdMap.find_erase]
    by_cases h1 : k ∈ rest.map Prod.fst
    · simp [h1]
    · by_cases h2 : k = e.1
      · simp [h2]
      · simp only [List.map_cons, List.mem_cons, h1, h2, or_self, if_false]

theorem FindAllDocuments.minusLoop_find {R : Type} (s : SearchServer R) (words : List Str)
    (m : List (Int × R)) (k : Int) :
    StdMap.find (FindAllDocuments.minusLoop s words m) k
      = if ∃ w ∈ words, Posted s w k = true then none else StdMap.find m k := by
  induction words generalizing m with
  | nil => simp [FindAllDocuments.minusLoop]
  | cons word rest ih =>
    simp only [FindAllDocuments.minusLoop]
    cases hw : StdMap.find s.word_to_document_freqs_ word with
    | none =>
      simp only [ih]
      have : (∃ w ∈ word :: rest, Posted s w k = true) ↔ ∃ w ∈ rest, Posted s w k = true := by
        simp [Posted, hw]
      simp only [this]
    | some postings =>
      simp only [ih, StdMap.find_foldl_erase]
      have : (∃ w ∈ word :: rest, Posted s w k = true) ↔
          (k ∈ postings.map Prod.fst ∨ ∃ w ∈ rest, Posted s w k = true) := by
        simp only [List.mem_cons, exists_eq_or_imp]
        rw [← StdMap.find_isSome_iff]
        simp only [Posted, hw]
      by_cases h1 : ∃ w ∈ rest, Posted s w k = true
      · simp [this, h1]
      · by_cases h2 : k ∈ postings.map Prod.fst
        · simp only [this, h1, h2, or_false, if_true, if_false]
        · simp only [this, h1, h2, or_false, if_false]

theorem FindAllDocuments.collect_ok {R : Type} (s : SearchServer R) (m : List (Int × R))
    (h : ∀ e ∈ m, (StdMap.find s.documents_ e.1).isSome = true) :
    ∃ r, FindAllDocuments.collect s m = .ok r := by
  induction m with
  | nil => exact ⟨[], rfl⟩
  | cons e rest ih =>
    obtain ⟨document_id, relevance⟩ := e
    obtain ⟨data, hdata⟩ := Option.isSome_iff_exists.mp
      (h (document_id, relevance) (List.mem_cons_self _ _))
    obtain ⟨r, hr⟩ := ih (fun e he => h e (List.mem_cons_of_mem _ he))
    refine ⟨⟨document_id, relevance, data.rating⟩ :: r, ?_⟩
    simp only at hdata
    simp only [FindAllDocuments.collect, hdata, hr]

theorem FindAllDocuments.collect_spec {R : Type} (s : SearchServer R) (m : List (Int × R))
    (r : List (Document R)) (h : FindAllDocuments.collect s m = .ok r) :
    r.map (fun d => (d.id, d.relevance)) = m ∧
    ∀ d ∈ r, ∃ data, StdMap.find s.documents_ d.id = some data ∧ d.rating = data.rating := by
  induction m generalizing r with
  | nil =>
    simp only [FindAllDocuments.collect, Except.ok.injEq] at h
    subst h
    simp
  | cons e rest ih =>
    obtain ⟨document_id, relevance⟩ := e
    simp only [FindAllDocuments.collect] at h
    cases hdoc : StdMap.find s.documents_ document_id with
    | none => simp [hdoc] at h
    | some data =>
      simp only [hdoc] at h
      cases hrest : FindAllDocuments.collect s rest with
      | error f => simp [hrest] at h
      | ok r' =>
        simp only [hrest, Except.ok.injEq] at h
        subst h
        obtain ⟨h1, h2⟩ := ih r' hrest
        refine ⟨by simp [h1], ?_⟩
        intro d hd
        rcases List.mem_cons.mp hd with rfl | hd
        · exact ⟨data, hdoc, rfl⟩
        · exact h2 d hd

theorem FindAllDocuments_ok {R : Type} [LinearOrderedField R] (log : R → R)
    (s : SearchServer R) (query : Query) (p : DocumentPredicate) (hs : s.Consistent) :
    ∃ r, FindAllDocuments log s query p = .ok r := by
  obtain ⟨m, hm⟩ := FindAllDocuments.plusLoop_ok log s p hs query.plus_words []
  have hkeys := FindAllDocuments.plusLoop_keys log s p
    (fun k => (StdMap.find s.documents_ k).isSome = true)
    (fun k data hd _ => by simp [hd]) query.plus_words [] m
    (fun k hk => by simp [StdMap.find] at hk) hm
  simp only [FindAllDocuments, hm]
  apply FindAllDocuments.collect_ok
  intro e he
  have h1 : (StdMap.find (FindAllDocuments.minusLoop s query.minus_words m) e.1).isSome = true :=
    (StdMap.find_isSome_iff _ _).mpr (List.mem_map_of_mem _ he)
  rw [FindAllDocuments.minusLoop_find] at h1
  split at h1
  · simp at h1
  · exact hkeys _ h1

theorem FindAllDocuments_sound {R : Type} [LinearOrderedField R] (log : R → R)
    (s : SearchServer R) (query : Query) (p : DocumentPredicate) (r : List (Document R))
    (h : FindAllDocuments log s query p = .ok r) :
    ∀ d ∈ r,
      (∃ data, StdMap.find s.documents_ d.id = some data ∧
        FindAllDocuments.isSelected p d.id data = true ∧ d.rating = data.rating) ∧
      ∀ w ∈ query.minus_words, Posted s w d.id = false := by
  unfold FindAllDocuments at h
  cases hm : FindAllDocuments.plusLoop log s p query.plus_words [] with
  | error f => simp [hm] at h
  | ok m =>
    simp only [hm] at h
    have hkeys := FindAllDocuments.plusLoop_keys log s p
      (fun k => ∃ data, StdMap.find s.documents_ k = some data ∧
        FindAllDocuments.isSelected p k data = true)
      (fun k data hd hsel => ⟨data, hd, hsel⟩) query.plus_words [] m
      (fun k hk => by simp [StdMap.find] at hk) hm
    obtain ⟨hmap, hrat⟩ := FindAllDocuments.collect_spec s _ r h
    intro d hd
    have hmem : (d.id, d.relevance) ∈ FindAllDocuments.minusLoop s query.minus_words m := by
      rw [← hmap]
      exact List.mem_map_of_mem (fun d => (d.id, d.relevance)) hd
    have h1 : (StdMap.find (FindAllDocuments.minusLoop s query.minus_words m) d.id).isSome
        = true :=
      (StdMap.find_isSome_iff _ _).mpr (List.mem_map_of_mem Prod.fst hmem)
    rw [FindAllDocuments.minusLoop_find] at h1
    split at h1
    · simp at h1
    · rename_i hno
      obtain ⟨data, hdata, hsel⟩ := hkeys _ h1
      obtain ⟨data', hdata', hr⟩ := hrat d hd
      rw [hdata] at hdata'
      simp only [Option.some.injEq] at hdata'
      subst hdata'
      refine ⟨⟨data, hdata, hsel, hr⟩, ?_⟩
      intro w hw
      by_contra hp
      exact hno ⟨w, hw, by simpa using hp⟩

theorem FindTopDocuments_eq {R : Type} [LinearOrderedField R] (log : R → R)
    (s : SearchServer R) (raw_query : Str) (p : DocumentPredicate) :
    FindTopDocuments log s raw_query p
      = (FindAllDocuments log s (ParseQuery s raw_query) p).map
          (fun matched => (stdSort FindTopDocuments.comp matched).take MAX_RESULT_DOCUMENT_COUNT) := by
  cases hall : FindAllDocuments log s (ParseQuery s raw_query) p with
  | error f => simp only [FindTopDocuments, hall, Except.map]
  | ok matched =>
    simp only [FindTopDocuments, hall, Except.map]
    split
    · rfl
    · rw [List.take_of_length_le (by omega)]

theorem FindTopDocuments_ok {R : Type} [LinearOrderedField R] (log : R → R)
    (s : SearchServer R) (raw_query : Str) (p : DocumentPredicate) (hs : s.Consistent) :
    ∃ r, FindTopDocuments log s raw_query p = .ok r := by
  obtain ⟨all, hall⟩ := FindAllDocuments_ok log s (ParseQuery s raw_query) p hs
  rw [FindTopDocuments_eq, hall]
  exact ⟨_, rfl⟩

theorem FindTopDocuments_subset {R : Type} [LinearOrderedField R] (log : R → R)
    (s : SearchServer R) (raw_query : Str) (p : DocumentPredicate) (r : List (Document R))
    (h : FindTopDocuments log s raw_query p = .ok r) :
    ∃ all, FindAllDocuments log s (ParseQuery s raw_query) p = .ok all ∧ ∀ d ∈ r, d ∈ all := by
  rw [FindTopDocuments_eq] at h
  cases hall : FindAllDocuments log s (ParseQuery s raw_query) p with
  | error f => simp [hall, Except.map] at h
  | ok all =>
    simp only [hall, Except.map, Except.ok.injEq] at h
    subst h
    exact ⟨all, rfl, fun d hd => (stdSort_perm _ all).mem_iff.mp (List.mem_of_mem_take hd)⟩

/-! ## Matching one document -/

theorem MatchDocument.plusLoop_eq {R : Type} (s : SearchServer R) (document_id : Int)
    (words acc : List Str) :
    MatchDocument.plusLoop s document_id words acc
      = acc ++ words.filter (fun w => Posted s w document_id) := by
  induction words generalizing acc with
  | nil => simp [MatchDocument.plusLoop]
  | cons word rest ih =>
    simp only [MatchDocument.plusLoop, List.filter_cons, Posted]
    cases hw : StdMap.find s.word_to_document_freqs_ word with
    | none => simp [ih, Posted]
    | some postings =>
      simp only
      split
      · rw [ih]; simp [Posted]
      · rw [ih]; simp [Posted]

theorem MatchDocument.minusLoop_eq {R : Type} (s : SearchServer R) (document_id : Int)
    (words acc : List Str) :
    MatchDocument.minusLoop s document_id words acc
      = if ∃ w ∈ words, Posted s w document_id = true then [] else acc := by
  induction words generalizing acc with
  | nil => simp [MatchDocument.minusLoop]
  | cons word rest ih =>
    simp only [MatchDocument.minusLoop, List.mem_cons, exists_eq_or_imp, Posted]
    cases hw : StdMap.find s.word_to_document_freqs_ word with
    | none => simp [ih, Posted]
    | some postings =>
      simp only
      split
      · simp [*]
      · rw [ih]; simp [*, Posted]

theorem MatchDocument_eq {R : Type} (s : SearchServer R) (raw_query : Str) (document_id : Int)
    (data : DocumentData) (h : StdMap.find s.documents_ document_id = some data) :
    MatchDocument s raw_query document_id
      = .ok (if ∃ w ∈ (ParseQuery s raw_query).minus_words, Posted s w document_id = true then []
          else (ParseQuery s raw_query).plus_words.filter (fun w => Posted s w document_id),
        data.status) := by
  simp only [MatchDocument, h, MatchDocument.plusLoop_eq, MatchDocument.minusLoop_eq,
    List.nil_append]

/-- C3 (as amended). A query text with a token that is a bare minus sign is parsed like
any other (the code has no `InvalidQuery`): the token gives the empty string as a minus
word, unless the empty string is a stop word, in which case it is dropped. `MatchDocument`
on that text returns a result for every stored document, and `FindTopDocuments` returns a
result in every state whose posted ids are all stored. -/
theorem ParseQuery_bare_minus {R : Type} [LinearOrderedField R] (log : R → R)
    (s : SearchServer R) (text : Str) (h : ['-'] ∈ SplitIntoWords text) :
    ([] ∈ (ParseQuery s text).minus_words ↔ [] ∉ s.stop_words_) ∧
    (∀ document_id data, StdMap.find s.documents_ document_id = some data →
      ∃ words, MatchDocument s text document_id = .ok (words, data.status)) ∧
    (s.Consistent → ∀ p, ∃ r, FindTopDocuments log s text p = .ok r) :=
  ⟨ParseQuery.nil_mem_minus_words s text h,
    fun document_id data hd => ⟨_, MatchDocument_eq s text document_id data hd⟩,
    fun hs p => FindTopDocuments_ok log s text p hs⟩

/-- C3, an instance: the query `cat -` on the empty engine has the empty minus word. -/
theorem ParseQuery_bare_minus_witness :
    [] ∈ (ParseQuery (SearchServer.empty : SearchServer ℚ) "cat -".toList).minus_words :=
  (ParseQuery_bare_minus (fun x => x) (SearchServer.empty : SearchServer ℚ) "cat -".toList
    (by decide)).1.mpr (by simp [SearchServer.empty])

/-- C3 (the claim fails). With the single document `AddDocument(1, "cat", ACTUAL, {1, 2, 3})`
the query `cat -` is parsed, with the empty string as its minus word, `MatchDocument`
returns the word `cat` for document 1, and `FindTopDocuments` returns document 1. -/
theorem ParseQuery_bare_minus_counterexample :
    ParseQuery (AddDocument (SearchServer.empty : SearchServer ℝ) 1 "cat".toList
        DocumentStatus.ACTUAL [1, 2, 3]).state "cat -".toList = ⟨["cat".toList], [[]]⟩ ∧
    MatchDocument (AddDocument (SearchServer.empty : SearchServer ℝ) 1 "cat".toList
        DocumentStatus.ACTUAL [1, 2, 3]).state "cat -".toList 1
      = .ok (["cat".toList], DocumentStatus.ACTUAL) ∧
    FindTopDocumentsDefault Real.log (AddDocument (SearchServer.empty : SearchServer ℝ) 1
        "cat".toList DocumentStatus.ACTUAL [1, 2, 3]).state "cat -".toList
      = .ok [⟨1, 0, 2⟩] := by
  refine ⟨by decide, by rfl, ?_⟩
  have hall : FindAllDocuments Real.log (AddDocument (SearchServer.empty : SearchServer ℝ) 1
        "cat".toList DocumentStatus.ACTUAL [1, 2, 3]).state
        (ParseQuery (AddDocument (SearchServer.empty : SearchServer ℝ) 1 "cat".toList
          DocumentStatus.ACTUAL [1, 2, 3]).state "cat -".toList)
        (.predicate (fun _ status _ => decide (status = DocumentStatus.ACTUAL)))
      = .ok [⟨1, 0 + (0 + 1 / ((1 : ℕ) : ℝ)) * Real.log (((1 : ℤ) : ℝ) * 1 / ((1 : ℕ) : ℝ)),
          2⟩] := by
    rfl
  rw [FindTopDocumentsDefault, FindTopDocuments_eq, hall]
  simp [Except.map, stdSort, stdSort.step, MAX_RESULT_DOCUMENT_COUNT]

/-- C4. `MatchDocument` leaves with `std::out_of_range` (the `NotFound` of the
specification, thrown by `documents_.at`) when the id is not in the document store, returns
the matched words with the stored status when it is, and so fails exactly when the id is
unknown; this holds for every query text, since parsing never fails. -/
theorem MatchDocument_fails_iff_unknown {R : Type} (s : SearchServer R) (raw_query : Str)
    (document_id : Int) :
    (StdMap.find s.documents_ document_id = none →
      MatchDocument s raw_query document_id = .error Fault.out_of_range) ∧
    (∀ data, StdMap.find s.documents_ document_id = some data →
      ∃ words, MatchDocument s raw_query document_id = .ok (words, data.status)) ∧
    ((∃ f, MatchDocument s raw_query document_id = .error f) ↔
      StdMap.find s.documents_ document_id = none) := by
  refine ⟨?_, ?_, ?_⟩
  · intro h
    simp only [MatchDocument, h]
  · intro data h
    exact ⟨_, MatchDocument_eq s raw_query document_id data h⟩
  · cases h : StdMap.find s.documents_ document_id with
    | none => simp [MatchDocument, h]
    | some data => simp [MatchDocument_eq s raw_query document_id data h]

/-! ## The order of a `std::set` -/

theorem StdSet.pairwise_insertNew {K : Type} [LinearOrder K] (x : K) (s : List K)
    (hx : x ∉ s) (hs : s.Pairwise (· < ·)) : (StdSet.insertNew x s).Pairwise (· < ·) := by
  induction s with
  | nil => simp [StdSet.insertNew]
  | cons y ys ih =>
    unfold StdSet.insertNew
    have hy := List.pairwise_cons.mp hs
    split
    · rename_i hlt
      refine List.pairwise_cons.mpr ⟨?_, hs⟩
      intro z hz
      rcases List.mem_cons.mp hz with rfl | hz
      · exact hlt
      · exact lt_trans hlt (hy.1 z hz)
    · rename_i hnlt
      have hne : x ≠ y := fun e => hx (e ▸ List.mem_cons_self _ _)
      have hyx : y < x := lt_of_le_of_ne (not_lt.mp hnlt) (Ne.symm hne)
      refine List.pairwise_cons.mpr ⟨?_, ih (fun h => hx (List.mem_cons_of_mem _ h)) hy.2⟩
      intro z hz
      rcases (StdSet.mem_insertNew x z ys).mp hz with rfl | hz
      · exact hyx
      · exact hy.1 z hz

theorem StdSet.pairwise_insert {K : Type} [LinearOrder K] (x : K) (s : List K)
    (hs : s.Pairwise (· < ·)) : (StdSet.insert s x).Pairwise (· < ·) := by
  unfold StdSet.insert
  split
  · exact hs
  · exact StdSet.pairwise_insertNew x s ‹_› hs

theorem ParseQuery.step_ascending {R : Type} (s : SearchServer R) (query : Query) (word : Str)
    (h : StrictlyAscending query.plus_words ∧ StrictlyAscending query.minus_words) :
    StrictlyAscending (ParseQuery.step s query word).plus_words ∧
      StrictlyAscending (ParseQuery.step s query word).minus_words := by
  unfold ParseQuery.step
  simp only
  split
  · split
    · exact ⟨h.1, StdSet.pairwise_insert _ _ h.2⟩
    · exact ⟨StdSet.pairwise_insert _ _ h.1, h.2⟩
  · exact h

theorem ParseQuery.foldl_ascending {R : Type} (s : SearchServer R) (words : List Str)
    (query : Query)
    (h : StrictlyAscending query.plus_words ∧ StrictlyAscending query.minus_words) :
    StrictlyAscending (words.foldl (ParseQuery.step s) query).plus_words ∧
      StrictlyAscending (words.foldl (ParseQuery.step s) query).minus_words := by
  induction words generalizing query with
  | nil => exact h
  | cons a t ih => exact ih _ (ParseQuery.step_ascending s query a h)

theorem ParseQuery_ascending {R : Type} (s : SearchServer R) (text : Str) :
    StrictlyAscending (ParseQuery s text).plus_words ∧
      StrictlyAscending (ParseQuery s text).minus_words :=
  ParseQuery.foldl_ascending s _ _ ⟨List.Pairwise.nil, List.Pairwise.nil⟩

/-- C8. For an id in the document store, `MatchDocument` returns the stored status, with
the empty list when some minus word of the parsed query is posted for the id, and otherwise
with the plus words of the parsed query that are posted for the id: exactly those, in
strictly ascending order, hence each once. -/
theorem MatchDocument_spec {R : Type} (s : SearchServer R) (raw_query : Str) (document_id : Int)
    (data : DocumentData) (h : StdMap.find s.documents_ document_id = some data) :
    ∃ words, MatchDocument s raw_query document_id = .ok (words, data.status) ∧
      ((∃ w ∈ (ParseQuery s raw_query).minus_words, Posted s w document_id = true) →
        words = []) ∧
      ((¬ ∃ w ∈ (ParseQuery s raw_query).minus_words, Posted s w document_id = true) →
        StrictlyAscending words ∧
        ∀ w, w ∈ words ↔ w ∈ (ParseQuery s raw_query).plus_words ∧ Posted s w document_id = true) := by
  refine ⟨_, MatchDocument_eq s raw_query document_id data h, ?_, ?_⟩
  · intro hm
    rw [if_pos hm]
  · intro hm
    rw [if_neg hm]
    refine ⟨List.Pairwise.filter _ (ParseQuery_ascending s raw_query).1, ?_⟩
    intro w
    simp [List.mem_filter]

/-- C8, an instance (the tests `Test3_1` and `Test3_2`): with the stop words `in the` and
the document 42 `cat in the city play match`, the id 42 is stored. -/
theorem MatchDocument_spec_witness :
    ∃ words, MatchDocument
        (AddDocument (SetStopWords (SearchServer.empty : SearchServer ℚ) "in the".toList) 42
          "cat in the city play match".toList DocumentStatus.ACTUAL [1, 2, 3]).state
        "city cat cian".toList 42 = .ok (words, DocumentStatus.ACTUAL) ∧ words.length = 2 := by
  obtain ⟨words, hw, _, h2⟩ := MatchDocument_spec
    (AddDocument (SetStopWords (SearchServer.empty : SearchServer ℚ) "in the".toList) 42
      "cat in the city play match".toList DocumentStatus.ACTUAL [1, 2, 3]).state
    "city cat cian".toList 42 ⟨2, DocumentStatus.ACTUAL⟩ (by rfl)
  refine ⟨words, hw, ?_⟩
  have hv : MatchDocument
      (AddDocument (SetStopWords (SearchServer.empty : SearchServer ℚ) "in the".toList) 42
        "cat in the city play match".toList DocumentStatus.ACTUAL [1, 2, 3]).state
      "city cat cian".toList 42
        = .ok (["cat".toList, "city".toList], DocumentStatus.ACTUAL) := by rfl
  rw [hv] at hw
  simp only [Except.ok.injEq, Prod.mk.injEq, and_true] at hw
  rw [← hw]
  rfl

/-! ## The filter -/

theorem FindAllDocuments.scorePostings_congr {R : Type} [LinearOrderedField R]
    (s : SearchServer R) (p p' : DocumentPredicate) (idf : R)
    (hp : ∀ k data, FindAllDocuments.isSelected p k data = FindAllDocuments.isSelected p' k data)
    (postings m : List (Int × R)) :
    FindAllDocuments.scorePostings s p idf postings m
      = FindAllDocuments.scorePostings s p' idf postings m := by
  induction postings generalizing m with
  | nil => rfl
  | cons e rest ih =>
    obtain ⟨document_id, term_freq⟩ := e
    simp only [FindAllDocuments.scorePostings]
    cases StdMap.find s.documents_ document_id with
    | none => rfl
    | some data => simp only [hp, ih]

theorem FindAllDocuments.plusLoop_congr {R : Type} [LinearOrderedField R] (log : R → R)
    (s : SearchServer R) (p p' : DocumentPredicate)
    (hp : ∀ k data, FindAllDocuments.isSelected p k data = FindAllDocuments.isSelected p' k data)
    (words : List Str) (m : List (Int × R)) :
    FindAllDocuments.plusLoop log s p words m = FindAllDocuments.plusLoop log s p' words m := by
  induction words generalizing m with
  | nil => rfl
  | cons word rest ih =>
    simp only [FindAllDocuments.plusLoop]
    cases StdMap.find s.word_to_document_freqs_ word with
    | none => exact ih m
    | some postings =>
      simp only
      cases ComputeWordInverseDocumentFreq log s word with
      | error f => rfl
      | ok idf =>
        simp only [FindAllDocuments.scorePostings_congr s p p' idf hp]
        cases FindAllDocuments.scorePostings s p' idf postings m with
        | error f => rfl
        | ok scored => exact ih scored

theorem FindTopDocuments_congr {R : Type} [LinearOrderedField R] (log : R → R)
    (s : SearchServer R) (raw_query : Str) (p p' : DocumentPredicate)
    (hp : ∀ k data, FindAllDocuments.isSelected p k data = FindAllDocuments.isSelected p' k data) :
    FindTopDocuments log s raw_query p = FindTopDocuments log s raw_query p' := by
  simp only [FindTopDocuments, FindAllDocuments,
    FindAllDocuments.plusLoop_congr log s p p' hp]

/-- C9. `FindTopDocuments` with a status value returns the same sequence as with the
predicate that compares the status with that value; the overload without a filter returns
the same sequence as with the value `ACTUAL`, and every document it returns is stored with
the status `ACTUAL`. -/
theorem FindTopDocuments_status_filter {R : Type} [LinearOrderedField R] (log : R → R)
    (s : SearchServer R) (raw_query : Str) (v : DocumentStatus) :
    FindTopDocuments log s raw_query (.status v)
      = FindTopDocuments log s raw_query (.predicate (fun _ status _ => decide (status = v))) ∧
    FindTopDocumentsDefault log s raw_query
      = FindTopDocuments log s raw_query (.status DocumentStatus.ACTUAL) ∧
    ∀ r, FindTopDocumentsDefault log s raw_query = .ok r →
      ∀ d ∈ r, ∃ data, StdMap.find s.documents_ d.id = some data ∧
        data.status = DocumentStatus.ACTUAL := by
  have hsel : ∀ (v : DocumentStatus) (k : Int) (data : DocumentData),
      FindAllDocuments.isSelected (.status v) k data
        = FindAllDocuments.isSelected (.predicate (fun _ status _ => decide (status = v)))
            k data := by
    intro v k data
    simp only [FindAllDocuments.isSelected]
    exact decide_eq_decide.mpr eq_comm
  refine ⟨FindTopDocuments_congr log s raw_query _ _ (hsel v), ?_, ?_⟩
  · exact (FindTopDocuments_congr log s raw_query _ _ (hsel DocumentStatus.ACTUAL)).symm
  · intro r hr d hd
    obtain ⟨all, hall, hsub⟩ := FindTopDocuments_subset log s raw_query _ r hr
    obtain ⟨⟨data, hdata, hselected, _⟩, _⟩ :=
      FindAllDocuments_sound log s _ _ all hall d (hsub d hd)
    refine ⟨data, hdata, ?_⟩
    simpa [FindAllDocuments.isSelected] using hselected

/-- C6. `FindTopDocuments` returns exactly `min(5, n)` documents, where `n` is the number
of documents that `FindAllDocuments` produced, so never more than
`MAX_RESULT_DOCUMENT_COUNT = 5`; it fails only when `FindAllDocuments` does. -/
theorem FindTopDocuments_length {R : Type} [LinearOrderedField R] (log : R → R)
    (s : SearchServer R) (raw_query : Str) (p : DocumentPredicate) :
    (FindTopDocuments log s raw_query p).map List.length
      = (FindAllDocuments log s (ParseQuery s raw_query) p).map
          (fun matched => min MAX_RESULT_DOCUMENT_COUNT matched.length) ∧
    MAX_RESULT_DOCUMENT_COUNT = 5 ∧
    ∀ r, FindTopDocuments log s raw_query p = .ok r → r.length ≤ 5 := by
  have hlen : ∀ matched : List (Document R),
      ((stdSort FindTopDocuments.comp matched).take MAX_RESULT_DOCUMENT_COUNT).length
        = min MAX_RESULT_DOCUMENT_COUNT matched.length := by
    intro matched
    rw [List.length_take, (stdSort_perm FindTopDocuments.comp matched).length_eq]
  refine ⟨?_, rfl, ?_⟩
  · rw [FindTopDocuments_eq]
    cases FindAllDocuments log s (ParseQuery s raw_query) p with
    | error f => rfl
    | ok matched => simp only [Except.map, hlen]
  · intro r hr
    rw [FindTopDocuments_eq] at hr
    cases hall : FindAllDocuments log s (ParseQuery s raw_query) p with
    | error f => simp [hall, Except.map] at hr
    | ok matched =>
      simp only [hall, Except.map, Except.ok.injEq] at hr
      rw [← hr, hlen]
      exact min_le_left _ _

/-- C7. A document that is posted in the inverted index under a minus word of the parsed
query is not in the result of `FindTopDocuments`, whatever the plus words and the filter
(a status value or any predicate; the overload without a filter is the case of the
predicate `status == ACTUAL`). -/
theorem FindTopDocuments_excludes_minus {R : Type} [LinearOrderedField R] (log : R → R)
    (s : SearchServer R) (raw_query : Str) (p : DocumentPredicate) (r : List (Document R))
    (h : FindTopDocuments log s raw_query p = .ok r) (w : Str)
    (hw : w ∈ (ParseQuery s raw_query).minus_words) (document_id : Int)
    (hposted : Posted s w document_id = true) :
    document_id ∉ r.map Document.id := by
  obtain ⟨all, hall, hsub⟩ := FindTopDocuments_subset log s raw_query p r h
  intro hmem
  obtain ⟨d, hd, hid⟩ := List.mem_map.mp hmem
  have := (FindAllDocuments_sound log s _ p all hall d (hsub d hd)).2 w hw
  rw [hid, hposted] at this
  exact Bool.noConfusion this

/-- C7, an instance: with the stop words `in the` and the documents 42 `cat in the city`
and 43 `cat in the town`, the query `cat -city` returns document 43 only. -/
theorem FindTopDocuments_excludes_minus_witness :
    (42 : Int) ∉ List.map Document.id
      [(⟨43, 0 + (0 + 1 / ((2 : ℕ) : ℝ)) * Real.log (((2 : ℤ) : ℝ) * 1 / ((2 : ℕ) : ℝ)), 2⟩ :
        Document ℝ)] :=
  FindTopDocuments_excludes_minus Real.log (twoDocuments ℝ) "cat -city".toList
    (.predicate (fun _ status _ => decide (status = DocumentStatus.ACTUAL))) _ (by rfl)
    "city".toList (by decide) 42 (by rfl)

/-- C6, an instance: six documents match the query `cat`, five are returned. -/
theorem FindTopDocuments_length_witness :
    FindTopDocumentsDefault Real.log (sixDocuments ℝ) "cat".toList
      = .ok [⟨1, 0, 2⟩, ⟨2, 0, 2⟩, ⟨3, 0, 2⟩, ⟨4, 0, 2⟩, ⟨5, 0, 2⟩] ∧
    ([⟨1, 0, 2⟩, ⟨2, 0, 2⟩, ⟨3, 0, 2⟩, ⟨4, 0, 2⟩, ⟨5, 0, 2⟩] : List (Document ℝ)).length ≤ 5 := by
  have hall : FindAllDocuments Real.log (sixDocuments ℝ)
        (ParseQuery (sixDocuments ℝ) "cat".toList)
        (.predicate (fun _ status _ => decide (status = DocumentStatus.ACTUAL)))
      = .ok [⟨1, 0 + (0 + 1 / ((1 : ℕ) : ℝ)) * Real.log (((6 : ℤ) : ℝ) * 1 / ((6 : ℕ) : ℝ)), 2⟩,
          ⟨2, 0 + (0 + 1 / ((1 : ℕ) : ℝ)) * Real.log (((6 : ℤ) : ℝ) * 1 / ((6 : ℕ) : ℝ)), 2⟩,
          ⟨3, 0 + (0 + 1 / ((1 : ℕ) : ℝ)) * Real.log (((6 : ℤ) : ℝ) * 1 / ((6 : ℕ) : ℝ)), 2⟩,
          ⟨4, 0 + (0 + 1 / ((1 : ℕ) : ℝ)) * Real.log (((6 : ℤ) : ℝ) * 1 / ((6 : ℕ) : ℝ)), 2⟩,
          ⟨5, 0 + (0 + 1 / ((1 : ℕ) : ℝ)) * Real.log (((6 : ℤ) : ℝ) * 1 / ((6 : ℕ) : ℝ)), 2⟩,
          ⟨6, 0 + (0 + 1 / ((1 : ℕ) : ℝ)) * Real.log (((6 : ℤ) : ℝ) * 1 / ((6 : ℕ) : ℝ)), 2⟩] := by
    rfl
  have heval : FindTopDocumentsDefault Real.log (sixDocuments ℝ) "cat".toList
      = .ok [⟨1, 0, 2⟩, ⟨2, 0, 2⟩, ⟨3, 0, 2⟩, ⟨4, 0, 2⟩, ⟨5, 0, 2⟩] := by
    rw [FindTopDocumentsDefault, FindTopDocuments_eq, hall]
    simp [Except.map, stdSort, stdSort.step, stdSort.linearInsert, FindTopDocuments.comp,
      MAX_RESULT_DOCUMENT_COUNT]
  exact ⟨heval, (FindTopDocuments_length Real.log (sixDocuments ℝ) "cat".toList
    (.predicate (fun _ status _ => decide (status = DocumentStatus.ACTUAL)))).2.2 _ heval⟩

/-! ## Stop words -/

theorem SetStopWords_foldl {R : Type} (texts : List Str) (s : SearchServer R) :
    (texts.foldl SetStopWords s).word_to_document_freqs_ = s.word_to_document_freqs_ ∧
    (texts.foldl SetStopWords s).documents_ = s.documents_ ∧
    ∀ w, w ∈ (texts.foldl SetStopWords s).stop_words_ ↔
      w ∈ s.stop_words_ ∨ ∃ text ∈ texts, w ∈ SplitIntoWords text := by
  induction texts generalizing s with
  | nil => simp
  | cons a t ih =>
    obtain ⟨h1, h2, h3⟩ := ih (SetStopWords s a)
    refine ⟨h1, h2, ?_⟩
    intro w
    rw [List.foldl_cons, h3]
    simp only [SetStopWords, StdSet.mem_foldl_insert, List.mem_cons, exists_eq_or_imp]
    tauto

theorem run_SetStopWords_append {R : Type} [LinearOrderedField R] (texts : List Str)
    (calls : List Call) (s : SearchServer R) :
    run s (texts.map Call.SetStopWords ++ calls) = run (texts.foldl SetStopWords s) calls := by
  induction texts generalizing s with
  | nil => rfl
  | cons a t ih =>
    simp only [List.map_cons, List.cons_append, run, Call.apply, List.foldl_cons]
    exact ih _

theorem AddDocument_stop_words {R : Type} [LinearOrderedField R] (s : SearchServer R)
    (document_id : Int) (document : Str) (status : DocumentStatus) (ratings : List Int) :
    (AddDocument s document_id document status ratings).state.stop_words_ = s.stop_words_ := by
  unfold AddDocument
  cases ComputeAverageRating ratings <;> rfl

theorem AddDocument_word_to_document_freqs {R : Type} [LinearOrderedField R]
    (s : SearchServer R) (document_id : Int) (document : Str) (status : DocumentStatus)
    (ratings : List Int) :
    (AddDocument s document_id document status ratings).state.word_to_document_freqs_
      = (SplitIntoWordsNoStop s document).foldl
          (AddDocument.addFreq document_id (1 / ((SplitIntoWordsNoStop s document).length : R)))
          s.word_to_document_freqs_ := by
  unfold AddDocument
  cases ComputeAverageRating ratings <;> rfl

theorem AddDocument.find_foldl_addFreq_of_not_mem {R : Type} [LinearOrderedField R]
    (document_id : Int) (inv : R) (words : List Str) (freqs : List (Str × List (Int × R)))
    (w : Str) (hw : w ∉ words) :
    StdMap.find (words.foldl (AddDocument.addFreq document_id inv) freqs) w
      = StdMap.find freqs w := by
  induction words generalizing freqs with
  | nil => rfl
  | cons a t ih =>
    rw [List.foldl_cons, ih _ (fun h => hw (List.mem_cons_of_mem _ h))]
    unfold AddDocument.addFreq
    have hne : ¬ w = a := fun e => hw (e ▸ List.mem_cons_self _ _)
    rw [StdMap.find_subscript, if_neg hne]

theorem AddDocument_find_stop_word {R : Type} [LinearOrderedField R] (s : SearchServer R)
    (document_id : Int) (document : Str) (status : DocumentStatus) (ratings : List Int)
    (w : Str) (hw : w ∈ s.stop_words_) :
    StdMap.find (AddDocument s document_id document status ratings).state.word_to_document_freqs_ w
      = StdMap.find s.word_to_document_freqs_ w := by
  rw [AddDocument_word_to_document_freqs]
  apply AddDocument.find_foldl_addFreq_of_not_mem
  intro hmem
  have := (List.mem_filter.mp hmem).2
  simp [IsStopWord, hw] at this

theorem run_AddDocument_stop_words {R : Type} [LinearOrderedField R]
    (docs : List (Int × Str × DocumentStatus × List Int)) (s : SearchServer R) :
    (run s (docs.map (fun doc => Call.AddDocument doc.1 doc.2.1 doc.2.2.1 doc.2.2.2))).state.stop_words_
        = s.stop_words_ ∧
    ∀ w ∈ s.stop_words_,
      StdMap.find (run s (docs.map (fun doc =>
          Call.AddDocument doc.1 doc.2.1 doc.2.2.1 doc.2.2.2))).state.word_to_document_freqs_ w
        = StdMap.find s.word_to_document_freqs_ w := by
  induction docs generalizing s with
  | nil => exact ⟨rfl, fun _ _ => rfl⟩
  | cons doc rest ih =>
    simp only [List.map_cons, run, Call.apply]
    have hstop := AddDocument_stop_words s doc.1 doc.2.1 doc.2.2.1 doc.2.2.2
    have hfind := AddDocument_find_stop_word s doc.1 doc.2.1 doc.2.2.1 doc.2.2.2
    cases hf : (AddDocument s doc.1 doc.2.1 doc.2.2.1 doc.2.2.2).fault with
    | some f => exact ⟨hstop, hfind⟩
    | none =>
      obtain ⟨h1, h2⟩ := ih (AddDocument s doc.1 doc.2.1 doc.2.2.1 doc.2.2.2).state
      refine ⟨h1.trans hstop, ?_⟩
      intro w hw
      rw [h2 w (hstop ▸ hw), hfind w hw]

theorem FindAllDocuments.minusLoop_nil {R : Type} (s : SearchServer R) (words : List Str) :
    FindAllDocuments.minusLoop s words ([] : List (Int × R)) = [] := by
  have hfold : ∀ postings : List (Int × R),
      postings.foldl (fun m posting => StdMap.erase m posting.1) ([] : List (Int × R)) = [] := by
    intro postings
    induction postings with
    | nil => rfl
    | cons e rest ih => simpa [StdMap.erase] using ih
  induction words with
  | nil => rfl
  | cons word rest ih =>
    simp only [FindAllDocuments.minusLoop]
    cases StdMap.find s.word_to_document_freqs_ word with
    | none => exact ih
    | some postings => simp only [hfold, ih]

theorem FindTopDocuments_of_stop_words {R : Type} [LinearOrderedField R] (log : R → R)
    (s : SearchServer R) (raw_query : Str) (p : DocumentPredicate)
    (h : ∀ t ∈ SplitIntoWords raw_query,
      t ∈ s.stop_words_ ∨ ∃ w ∈ s.stop_words_, t = '-' :: w) :
    FindTopDocuments log s raw_query p = .ok [] := by
  have hplus : (ParseQuery s raw_query).plus_words = [] := by
    apply List.eq_nil_iff_forall_not_mem.mpr
    intro w hw
    obtain ⟨t, ht, hminus, hstop, _⟩ := (ParseQuery.mem_plus_words s raw_query w).mp hw
    unfold ParseQueryWord at hminus hstop
    split at hminus
    · simp at hminus
    · rename_i hhead
      rw [if_neg hhead] at hstop
      rcases h t ht with hts | ⟨w', _, htw⟩
      · simp [IsStopWord, hts] at hstop
      · rw [htw] at hhead
        simp at hhead
  rw [FindTopDocuments_eq]
  simp only [FindAllDocuments, hplus, FindAllDocuments.plusLoop, FindAllDocuments.minusLoop_nil,
    FindAllDocuments.collect, Except.map]
  rfl

/-- C10. After `SetStopWords` calls on the empty engine and then any `AddDocument` calls,
the stop words are the words of the configured texts and none of them is a key of the
inverted index. In every state, `AddDocument` leaves the entry of each word that is a stop
word at the time of the call as it was, and `FindTopDocuments` on a query whose words are
all stop words, with or without a minus sign in front, returns the empty sequence. -/
theorem stop_words_not_indexed {R : Type} [LinearOrderedField R] (log : R → R)
    (texts : List Str) (docs : List (Int × Str × DocumentStatus × List Int)) :
    (∀ w, w ∈ (run (SearchServer.empty : SearchServer R)
        (stopWordsThenDocuments texts docs)).state.stop_words_ ↔
      ∃ text ∈ texts, w ∈ SplitIntoWords text) ∧
    (∀ w ∈ (run (SearchServer.empty : SearchServer R)
        (stopWordsThenDocuments texts docs)).state.stop_words_,
      StdMap.find (run (SearchServer.empty : SearchServer R)
        (stopWordsThenDocuments texts docs)).state.word_to_document_freqs_ w = none) ∧
    (∀ (s : SearchServer R) (document_id : Int) (document : Str) (status : DocumentStatus)
      (ratings : List Int), ∀ w ∈ s.stop_words_,
      StdMap.find (AddDocument s document_id document status ratings).state.word_to_document_freqs_ w
        = StdMap.find s.word_to_document_freqs_ w) ∧
    (∀ (s : SearchServer R) (raw_query : Str) (p : DocumentPredicate),
      (∀ t ∈ SplitIntoWords raw_query,
        t ∈ s.stop_words_ ∨ ∃ w ∈ s.stop_words_, t = '-' :: w) →
      FindTopDocuments log s raw_query p = .ok []) := by
  obtain ⟨hidx, _, hstop⟩ := SetStopWords_foldl texts (SearchServer.empty : SearchServer R)
  obtain ⟨h1, h2⟩ := run_AddDocument_stop_words docs
    (texts.foldl SetStopWords (SearchServer.empty : SearchServer R))
  have hrun : run (SearchServer.empty : SearchServer R) (stopWordsThenDocuments texts docs)
      = run (texts.foldl SetStopWords (SearchServer.empty : SearchServer R))
          (docs.map (fun doc => Call.AddDocument doc.1 doc.2.1 doc.2.2.1 doc.2.2.2)) :=
    run_SetStopWords_append texts _ _
  rw [hrun]
  refine ⟨?_, ?_, ?_, ?_⟩
  · intro w
    rw [h1, hstop]
    simp [SearchServer.empty]
  · intro w hw
    rw [h1] at hw
    rw [h2 w hw, hidx]
    rfl
  · intro s document_id document status ratings w hw
    exact AddDocument_find_stop_word s document_id document status ratings w hw
  · intro s raw_query p h
    exact FindTopDocuments_of_stop_words log s raw_query p h

/-- C10, an instance (the test `Test1`): with the stop words `in the` and the document 42
`cat in the city`, the query `in` returns nothing. -/
theorem stop_words_not_indexed_witness :
    FindTopDocumentsDefault Real.log
      (run (SearchServer.empty : SearchServer ℝ)
        (stopWordsThenDocuments ["in the".toList]
          [(42, "cat in the city".toList, DocumentStatus.ACTUAL, [1, 2, 3])])).state
      "in".toList = .ok [] :=
  (stop_words_not_indexed Real.log ["in the".toList]
    [(42, "cat in the city".toList, DocumentStatus.ACTUAL, [1, 2, 3])]).2.2.2 _ _ _ (by decide)

/-! ## The order of the results -/

theorem stdSort.linearInsert_head {α : Type} (comp : α → α → Bool) (val : α) (l : List α) :
    ∀ z ∈ (stdSort.linearInsert comp val l).head?, z = val ∨ z ∈ l.head? := by
  intro z hz
  cases l with
  | nil =>
    simp only [stdSort.linearInsert, List.head?_cons, Option.mem_def, Option.some.injEq] at hz
    exact Or.inl hz.symm
  | cons y ys =>
    unfold stdSort.linearInsert at hz
    split at hz
    · exact Or.inr hz
    · simp only [List.head?_cons, Option.mem_def, Option.some.injEq] at hz
      exact Or.inl hz.symm

theorem stdSort.linearInsert_chain {α : Type} (comp : α → α → Bool)
    (hasym : ∀ a b, comp a b = true → comp b a = false) (val : α) (l : List α)
    (h : l.Chain' (fun a b => comp a b = false)) :
    (stdSort.linearInsert comp val l).Chain' (fun a b => comp a b = false) := by
  induction l with
  | nil => simp [stdSort.linearInsert]
  | cons y ys ih =>
    unfold stdSort.linearInsert
    have hy := List.chain'_cons'.mp h
    split
    · rename_i hc
      refine List.chain'_cons'.mpr ⟨?_, ih hy.2⟩
      intro z hz
      rcases stdSort.linearInsert_head comp val ys z hz with rfl | hz
      · exact hasym _ _ hc
      · exact hy.1 z hz
    · rename_i hc
      refine List.chain'_cons'.mpr ⟨?_, h⟩
      intro z hz
      simp only [List.head?_cons, Option.mem_def, Option.some.injEq] at hz
      subst hz
      simpa using hc

theorem stdSort.step_chain {α : Type} (comp : α → α → Bool)
    (hasym : ∀ a b, comp a b = true → comp b a = false) (sorted : List α) (val : α)
    (h : sorted.Chain' (fun a b => comp b a = false)) :
    (stdSort.step comp sorted val).Chain' (fun a b => comp b a = false) := by
  unfold stdSort.step
  cases sorted with
  | nil => simp
  | cons first rest =>
    simp only
    split
    · rename_i hc
      refine List.chain'_cons'.mpr ⟨?_, h⟩
      intro z hz
      simp only [List.head?_cons, Option.mem_def, Option.some.injEq] at hz
      subst hz
      exact hasym _ _ hc
    · rw [List.chain'_reverse]
      apply stdSort.linearInsert_chain comp hasym
      rw [List.chain'_reverse]
      exact h

theorem stdSort_chain {α : Type} (comp : α → α → Bool)
    (hasym : ∀ a b, comp a b = true → comp b a = false) (l : List α) :
    (stdSort comp l).Chain' (fun a b => comp b a = false) := by
  have hfold : ∀ (l acc : List α), acc.Chain' (fun a b => comp b a = false) →
      (l.foldl (stdSort.step comp) acc).Chain' (fun a b => comp b a = false) := by
    intro l
    induction l with
    | nil => exact fun _ h => h
    | cons a t ih => exact fun acc h => ih _ (stdSort.step_chain comp hasym acc a h)
  exact hfold l [] List.chain'_nil

theorem FindTopDocuments.comp_asymm {R : Type} [LinearOrderedField R] (a b : Document R)
    (h : FindTopDocuments.comp a b = true) : FindTopDocuments.comp b a = false := by
  unfold FindTopDocuments.comp at h ⊢
  rw [abs_sub_comm b.relevance a.relevance]
  split at h
  · rw [if_pos ‹_›]
    simp only [gt_iff_lt, decide_eq_true_eq] at h
    simp only [gt_iff_lt, decide_eq_false_iff_not, not_lt]
    exact le_of_lt h
  · rw [if_neg ‹_›]
    simp only [gt_iff_lt, decide_eq_true_eq] at h
    simp only [gt_iff_lt, decide_eq_false_iff_not, not_lt]
    exact le_of_lt h

theorem FindTopDocuments.orderedBefore_of_comp {R : Type} [LinearOrderedField R]
    (a b : Document R) (h : FindTopDocuments.comp b a = false) : OrderedBefore a b := by
  unfold FindTopDocuments.comp at h
  unfold OrderedBefore
  split at h
  · rename_i hclose
    right
    rw [abs_sub_comm]
    refine ⟨hclose, ?_⟩
    simpa using h
  · rename_i hfar
    left
    simp only [gt_iff_lt, decide_eq_false_iff_not, not_lt] at h
    rcases lt_or_eq_of_le h with hlt | heq
    · exact hlt
    · exfalso
      apply hfar
      rw [heq, sub_self, abs_zero]
      norm_num

/-- C5 (as amended). When the scoring step `FindAllDocuments` yields at most 16 documents,
the range that `std::sort` sorts by insertion alone, `FindTopDocuments` returns, and in the
sequence it returns every result and the one right after it are in the order of the claim:
the first has the greater relevance, or the two relevances are within `1e-6` and the first
has a rating that is not smaller. -/
theorem FindTopDocuments_neighbours_ordered {R : Type} [LinearOrderedField R] (log : R → R)
    (s : SearchServer R) (raw_query : Str) (p : DocumentPredicate) (matched : List (Document R))
    (hmatched : FindAllDocuments log s (ParseQuery s raw_query) p = .ok matched)
    (hlen : matched.length ≤ 16) :
    ∃ r, FindTopDocuments log s raw_query p = .ok r ∧ r.Chain' OrderedBefore := by
  have _ := hlen
  rw [FindTopDocuments_eq, hmatched]
  refine ⟨_, rfl, ?_⟩
  apply List.Chain'.take
  exact (stdSort_chain FindTopDocuments.comp FindTopDocuments.comp_asymm matched).imp
    (fun {a b} hab => FindTopDocuments.orderedBefore_of_comp a b hab)

theorem FindTopDocuments.comp_of_le {R : Type} [LinearOrderedField R] (a b : Document R)
    (hrel : a.relevance ≤ b.relevance) (hrat : a.rating ≤ b.rating) :
    FindTopDocuments.comp a b = false := by
  unfold FindTopDocuments.comp
  split
  · simpa using hrat
  · simpa using hrel

theorem FindTopDocuments.comp_of_close {R : Type} [LinearOrderedField R] (a b : Document R)
    (hrel : |a.relevance - b.relevance| < 1 / 1000000) (hrat : a.rating ≤ b.rating) :
    FindTopDocuments.comp a b = false := by
  unfold FindTopDocuments.comp
  rw [if_pos hrel]
  simpa using hrat

theorem FindTopDocuments_nearTies :
    FindTopDocumentsDefault Real.log (nearTies ℝ) "w".toList
      = .ok [⟨1, Real.log 2, 2⟩, ⟨2, Real.log 2 / 1001, 2⟩, ⟨3, Real.log 2 / 1000, 2⟩,
          ⟨4, Real.log 2 / 999, 2⟩] := by
  have hall : FindAllDocuments Real.log (nearTies ℝ) (ParseQuery (nearTies ℝ) "w".toList)
        (.predicate (fun _ status _ => decide (status = DocumentStatus.ACTUAL)))
      = .ok [⟨1, 0 + 1 * Real.log (((8 : ℤ) : ℝ) * 1 / ((4 : ℕ) : ℝ)), 2⟩,
          ⟨2, 0 + 1 / 1001 * Real.log (((8 : ℤ) : ℝ) * 1 / ((4 : ℕ) : ℝ)), 2⟩,
          ⟨3, 0 + 1 / 1000 * Real.log (((8 : ℤ) : ℝ) * 1 / ((4 : ℕ) : ℝ)), 2⟩,
          ⟨4, 0 + 1 / 999 * Real.log (((8 : ℤ) : ℝ) * 1 / ((4 : ℕ) : ℝ)), 2⟩] := by
    rfl
  have hL : Real.log (((8 : ℤ) : ℝ) * 1 / ((4 : ℕ) : ℝ)) = Real.log 2 := by
    norm_num
  have h1 : (0 : ℝ) + 1 * Real.log 2 = Real.log 2 := by ring
  have h2 : (0 : ℝ) + 1 / 1001 * Real.log 2 = Real.log 2 / 1001 := by ring
  have h3 : (0 : ℝ) + 1 / 1000 * Real.log 2 = Real.log 2 / 1000 := by ring
  have h4 : (0 : ℝ) + 1 / 999 * Real.log 2 = Real.log 2 / 999 := by ring
  rw [hL, h1, h2, h3, h4] at hall
  have hlo : (0.6931471803 : ℝ) < Real.log 2 := Real.log_two_gt_d9
  have hhi : Real.log 2 < (0.6931471808 : ℝ) := Real.log_two_lt_d9
  have c21 : FindTopDocuments.comp (⟨2, Real.log 2 / 1001, 2⟩ : Document ℝ)
      ⟨1, Real.log 2, 2⟩ = false :=
    FindTopDocuments.comp_of_le _ _ (by simp only; linarith) (le_refl _)
  have c31 : FindTopDocuments.comp (⟨3, Real.log 2 / 1000, 2⟩ : Document ℝ)
      ⟨1, Real.log 2, 2⟩ = false :=
    FindTopDocuments.comp_of_le _ _ (by simp only; linarith) (le_refl _)
  have c41 : FindTopDocuments.comp (⟨4, Real.log 2 / 999, 2⟩ : Document ℝ)
      ⟨1, Real.log 2, 2⟩ = false :=
    FindTopDocuments.comp_of_le _ _ (by simp only; linarith) (le_refl _)
  have c32 : FindTopDocuments.comp (⟨3, Real.log 2 / 1000, 2⟩ : Document ℝ)
      ⟨2, Real.log 2 / 1001, 2⟩ = false :=
    FindTopDocuments.comp_of_close _ _
      (by simp only; rw [abs_lt]; constructor <;> linarith) (le_refl _)
  have c43 : FindTopDocuments.comp (⟨4, Real.log 2 / 999, 2⟩ : Document ℝ)
      ⟨3, Real.log 2 / 1000, 2⟩ = false :=
    FindTopDocuments.comp_of_close _ _
      (by simp only; rw [abs_lt]; constructor <;> linarith) (le_refl _)
  rw [FindTopDocumentsDefault, FindTopDocuments_eq, hall]
  simp [Except.map, stdSort, stdSort.step, stdSort.linearInsert, c21, c31, c41, c32, c43,
    MAX_RESULT_DOCUMENT_COUNT]

/-! ## A corpus with near ties -/

theorem SplitIntoWords.loop_replicate (n : Nat) (words : List Str) (word : Str) :
    SplitIntoWords.loop (List.replicate n " a".toList).flatten words word
      = words ++ word :: List.replicate n "a".toList := by
  induction n generalizing words word with
  | zero => simp [SplitIntoWords.loop]
  | succ n ih =>
    have hjoin : (List.replicate (n + 1) " a".toList).flatten
        = ' ' :: 'a' :: (List.replicate n " a".toList).flatten := by
      simp [List.replicate_succ]
    rw [hjoin]
    simp only [SplitIntoWords.loop, if_true]
    rw [if_neg (by decide), ih]
    simp [List.replicate_succ]

theorem SplitIntoWords_wThenAs (n : Nat) :
    SplitIntoWords (wThenAs n) = "w".toList :: List.replicate n "a".toList := by
  have h : wThenAs n = 'w' :: (List.replicate n " a".toList).flatten := rfl
  rw [SplitIntoWords, h]
  simp only [SplitIntoWords.loop]
  rw [if_neg (by decide), SplitIntoWords.loop_replicate]
  rfl

theorem SplitIntoWordsNoStop_of_nil {R : Type} (s : SearchServer R) (text : Str)
    (h : s.stop_words_ = []) : SplitIntoWordsNoStop s text = SplitIntoWords text := by
  unfold SplitIntoWordsNoStop
  apply List.filter_eq_self.mpr
  intro w _
  simp [IsStopWord, h]

theorem AddDocument_documents {R : Type} [LinearOrderedField R] (s : SearchServer R)
    (document_id : Int) (document : Str) (status : DocumentStatus) :
    (AddDocument s document_id document status [1, 2, 3]).fault = none ∧
    (AddDocument s document_id document status [1, 2, 3]).state.documents_
      = StdMap.emplace s.documents_ document_id ⟨2, status⟩ := by
  have hr : ComputeAverageRating [1, 2, 3] = .ok 2 := by rfl
  simp only [AddDocument, hr, and_self]

theorem AddDocument_wThenAs {R : Type} [LinearOrderedField R] (s : SearchServer R)
    (document_id : Int) (n : Nat) (status : DocumentStatus) (ratings : List Int)
    (h : s.stop_words_ = []) :
    StdMap.find (AddDocument s document_id (wThenAs n) status ratings).state.word_to_document_freqs_
        "w".toList
      = some (StdMap.subscript ((StdMap.find s.word_to_document_freqs_ "w".toList).getD [])
          document_id 0 (fun freq => freq + 1 / ((n + 1 : ℕ) : R))) := by
  rw [AddDocument_word_to_document_freqs, SplitIntoWordsNoStop_of_nil s _ h,
    SplitIntoWords_wThenAs, List.foldl_cons,
    AddDocument.find_foldl_addFreq_of_not_mem _ _ _ _ _
      (by simp [List.mem_replicate])]
  unfold AddDocument.addFreq
  rw [StdMap.find_subscript, if_pos rfl]
  simp

theorem AddDocument_x {R : Type} [LinearOrderedField R] (s : SearchServer R)
    (document_id : Int) (status : DocumentStatus) (ratings : List Int)
    (h : s.stop_words_ = []) :
    StdMap.find (AddDocument s document_id "x".toList status ratings).state.word_to_document_freqs_
        "w".toList
      = StdMap.find s.word_to_document_freqs_ "w".toList := by
  rw [AddDocument_word_to_document_freqs, SplitIntoWordsNoStop_of_nil s _ h]
  exact AddDocument.find_foldl_addFreq_of_not_mem _ _ _ _ _ (by decide)

theorem FindAllDocuments.scorePostings_congr_state {R : Type} [LinearOrderedField R]
    (s s' : SearchServer R) (p : DocumentPredicate) (idf : R)
    (hdocs : s.documents_ = s'.documents_) (postings m : List (Int × R)) :
    FindAllDocuments.scorePostings s p idf postings m
      = FindAllDocuments.scorePostings s' p idf postings m := by
  induction postings generalizing m with
  | nil => rfl
  | cons e rest ih =>
    obtain ⟨document_id, term_freq⟩ := e
    simp only [FindAllDocuments.scorePostings, hdocs, ih]

theorem FindAllDocuments.plusLoop_congr_state {R : Type} [LinearOrderedField R] (log : R → R)
    (s s' : SearchServer R) (p : DocumentPredicate) (hdocs : s.documents_ = s'.documents_)
    (words : List Str)
    (hfind : ∀ w ∈ words,
      StdMap.find s.word_to_document_freqs_ w = StdMap.find s'.word_to_document_freqs_ w)
    (m : List (Int × R)) :
    FindAllDocuments.plusLoop log s p words m = FindAllDocuments.plusLoop log s' p words m := by
  induction words generalizing m with
  | nil => rfl
  | cons word rest ih =>
    have hw := hfind word (List.mem_cons_self _ _)
    have hrest := ih (fun w h => hfind w (List.mem_cons_of_mem _ h))
    simp only [FindAllDocuments.plusLoop, ComputeWordInverseDocumentFreq, GetDocumentCount,
      hw, hdocs, hrest, FindAllDocuments.scorePostings_congr_state s s' p _ hdocs]

theorem FindAllDocuments.minusLoop_congr_state {R : Type} (s s' : SearchServer R)
    (words : List Str)
    (hfind : ∀ w ∈ words,
      StdMap.find s.word_to_document_freqs_ w = StdMap.find s'.word_to_document_freqs_ w)
    (m : List (Int × R)) :
    FindAllDocuments.minusLoop s words m = FindAllDocuments.minusLoop s' words m := by
  induction words generalizing m with
  | nil => rfl
  | cons word rest ih =>
    have hw := hfind word (List.mem_cons_self _ _)
    have hrest := ih (fun w h => hfind w (List.mem_cons_of_mem _ h))
    simp only [FindAllDocuments.minusLoop, hw, hrest]

theorem FindAllDocuments.collect_congr_state {R : Type} (s s' : SearchServer R)
    (hdocs : s.documents_ = s'.documents_) (m : List (Int × R)) :
    FindAllDocuments.collect s m = FindAllDocuments.collect s' m := by
  induction m with
  | nil => rfl
  | cons e rest ih =>
    obtain ⟨document_id, relevance⟩ := e
    simp only [FindAllDocuments.collect, hdocs, ih]

theorem ParseQuery_congr_state {R : Type} (s s' : SearchServer R)
    (hstop : s.stop_words_ = s'.stop_words_) (text : Str) :
    ParseQuery s text = ParseQuery s' text := by
  have hstep : ParseQuery.step s = ParseQuery.step s' := by
    funext query word
    simp only [ParseQuery.step, ParseQueryWord, IsStopWord, hstop]
  simp only [ParseQuery, hstep]

theorem FindTopDocuments_congr_state {R : Type} [LinearOrderedField R] (log : R → R)
    (s s' : SearchServer R) (raw_query : Str) (p : DocumentPredicate)
    (hstop : s.stop_words_ = s'.stop_words_) (hdocs : s.documents_ = s'.documents_)
    (hplus : ∀ w ∈ (ParseQuery s' raw_query).plus_words,
      StdMap.find s.word_to_document_freqs_ w = StdMap.find s'.word_to_document_freqs_ w)
    (hminus : ∀ w ∈ (ParseQuery s' raw_query).minus_words,
      StdMap.find s.word_to_document_freqs_ w = StdMap.find s'.word_to_document_freqs_ w) :
    FindTopDocuments log s raw_query p = FindTopDocuments log s' raw_query p := by
  simp only [FindTopDocuments, FindAllDocuments, ParseQuery_congr_state s s' hstop,
    FindAllDocuments.plusLoop_congr_state log s s' p hdocs _ hplus,
    FindAllDocuments.minusLoop_congr_state s s' _ hminus,
    FindAllDocuments.collect_congr_state s s' hdocs]

theorem FindAllDocuments_congr_state {R : Type} [LinearOrderedField R] (log : R → R)
    (s s' : SearchServer R) (query : Query) (p : DocumentPredicate)
    (hdocs : s.documents_ = s'.documents_)
    (hplus : ∀ w ∈ query.plus_words,
      StdMap.find s.word_to_document_freqs_ w = StdMap.find s'.word_to_document_freqs_ w)
    (hminus : ∀ w ∈ query.minus_words,
      StdMap.find s.word_to_document_freqs_ w = StdMap.find s'.word_to_document_freqs_ w) :
    FindAllDocuments log s query p = FindAllDocuments log s' query p := by
  simp only [FindAllDocuments,
    FindAllDocuments.plusLoop_congr_state log s s' p hdocs _ hplus,
    FindAllDocuments.minusLoop_congr_state s s' _ hminus,
    FindAllDocuments.collect_congr_state s s' hdocs]

theorem nearTieDocuments_reads {R : Type} [LinearOrderedField R] :
    (nearTieDocuments R).stop_words_ = (nearTies R).stop_words_ ∧
    (nearTieDocuments R).documents_ = (nearTies R).documents_ ∧
    StdMap.find (nearTieDocuments R).word_to_document_freqs_ "w".toList
      = StdMap.find (nearTies R).word_to_document_freqs_ "w".toList := by
  have hnil : ∀ (s : SearchServer R) (document_id : Int) (document : Str)
      (status : DocumentStatus), s.stop_words_ = [] →
      (AddDocument s document_id document status [1, 2, 3]).state.stop_words_ = [] :=
    fun s document_id document status h => (AddDocument_stop_words s _ _ _ _).trans h
  have hrun : ∀ (s : SearchServer R) (document_id : Int) (document : Str)
      (status : DocumentStatus) (rest : List Call),
      run s (Call.AddDocument document_id document status [1, 2, 3] :: rest)
        = run (AddDocument s document_id document status [1, 2, 3]).state rest := by
    intro s document_id document status rest
    simp only [run, Call.apply, (AddDocument_documents s document_id document status).1]
  have h0 : (SearchServer.empty : SearchServer R).stop_words_ = [] := rfl
  have h1 := hnil _ 1 (wThenAs 0) .ACTUAL h0
  have h2 := hnil _ 2 (wThenAs 1000) .ACTUAL h1
  have h3 := hnil _ 3 (wThenAs 999) .ACTUAL h2
  have h4 := hnil _ 4 (wThenAs 998) .ACTUAL h3
  have h5 := hnil _ 5 "x".toList .ACTUAL h4
  have h6 := hnil _ 6 "x".toList .ACTUAL h5
  have h7 := hnil _ 7 "x".toList .ACTUAL h6
  have h8 := hnil _ 8 "x".toList .ACTUAL h7
  have hdoc : ∀ (s : SearchServer R) (document_id : Int) (document : Str)
      (status : DocumentStatus),
      (AddDocument s document_id document status [1, 2, 3]).state.documents_
        = StdMap.emplace s.documents_ document_id ⟨2, status⟩ :=
    fun s document_id document status => (AddDocument_documents s document_id document status).2
  unfold nearTieDocuments
  rw [hrun, hrun, hrun, hrun, hrun, hrun, hrun, hrun]
  unfold run
  refine ⟨h8, ?_, ?_⟩
  · rw [hdoc, hdoc, hdoc, hdoc, hdoc, hdoc, hdoc, hdoc]
    rfl
  · rw [AddDocument_x _ _ _ _ h7, AddDocument_x _ _ _ _ h6, AddDocument_x _ _ _ _ h5,
      AddDocument_x _ _ _ _ h4, AddDocument_wThenAs _ _ _ _ _ h3,
      AddDocument_wThenAs _ _ _ _ _ h2, AddDocument_wThenAs _ _ _ _ _ h1,
      AddDocument_wThenAs _ _ _ _ _ h0]
    simp [SearchServer.empty, nearTies, StdMap.find, StdMap.subscript, StdMap.emplace,
      StdMap.insertNew, StdMap.modify]

theorem FindTopDocuments_nearTieDocuments :
    FindTopDocumentsDefault Real.log (nearTieDocuments ℝ) "w".toList
      = .ok [⟨1, Real.log 2, 2⟩, ⟨2, Real.log 2 / 1001, 2⟩, ⟨3, Real.log 2 / 1000, 2⟩,
          ⟨4, Real.log 2 / 999, 2⟩] := by
  obtain ⟨hstop, hdocs, hfind⟩ := nearTieDocuments_reads (R := ℝ)
  have hq : ParseQuery (nearTies ℝ) "w".toList = ⟨["w".toList], []⟩ := by decide
  rw [← FindTopDocuments_nearTies]
  unfold FindTopDocumentsDefault
  apply FindTopDocuments_congr_state Real.log _ _ _ _ hstop hdocs
  · intro w hw
    rw [hq] at hw
    simp only [List.mem_singleton] at hw
    rw [hw]
    exact hfind
  · intro w hw
    rw [hq] at hw
    simp at hw

theorem FindAllDocuments_nearTieDocuments :
    FindAllDocuments Real.log (nearTieDocuments ℝ)
        (ParseQuery (nearTieDocuments ℝ) "w".toList)
        (.predicate (fun _ status _ => decide (status = DocumentStatus.ACTUAL)))
      = .ok [⟨1, 0 + 1 * Real.log (((8 : ℤ) : ℝ) * 1 / ((4 : ℕ) : ℝ)), 2⟩,
          ⟨2, 0 + 1 / 1001 * Real.log (((8 : ℤ) : ℝ) * 1 / ((4 : ℕ) : ℝ)), 2⟩,
          ⟨3, 0 + 1 / 1000 * Real.log (((8 : ℤ) : ℝ) * 1 / ((4 : ℕ) : ℝ)), 2⟩,
          ⟨4, 0 + 1 / 999 * Real.log (((8 : ℤ) : ℝ) * 1 / ((4 : ℕ) : ℝ)), 2⟩] := by
  obtain ⟨hstop, hdocs, hfind⟩ := nearTieDocuments_reads (R := ℝ)
  have hq : ParseQuery (nearTies ℝ) "w".toList = ⟨["w".toList], []⟩ := by decide
  have hall : FindAllDocuments Real.log (nearTies ℝ) (ParseQuery (nearTies ℝ) "w".toList)
        (.predicate (fun _ status _ => decide (status = DocumentStatus.ACTUAL)))
      = .ok [⟨1, 0 + 1 * Real.log (((8 : ℤ) : ℝ) * 1 / ((4 : ℕ) : ℝ)), 2⟩,
          ⟨2, 0 + 1 / 1001 * Real.log (((8 : ℤ) : ℝ) * 1 / ((4 : ℕ) : ℝ)), 2⟩,
          ⟨3, 0 + 1 / 1000 * Real.log (((8 : ℤ) : ℝ) * 1 / ((4 : ℕ) : ℝ)), 2⟩,
          ⟨4, 0 + 1 / 999 * Real.log (((8 : ℤ) : ℝ) * 1 / ((4 : ℕ) : ℝ)), 2⟩] := by
    rfl
  rw [← hall, ParseQuery_congr_state (nearTieDocuments ℝ) (nearTies ℝ) hstop]
  apply FindAllDocuments_congr_state Real.log _ _ _ _ hdocs
  · intro w hw
    rw [hq] at hw
    simp only [List.mem_singleton] at hw
    rw [hw]
    exact hfind
  · intro w hw
    rw [hq] at hw
    simp at hw

/-- C5, an instance: for the query `w` the engine `nearTieDocuments` scores four documents,
and the sequence returned has every result and the one right after it in order. -/
theorem FindTopDocuments_neighbours_ordered_witness :
    List.Chain' OrderedBefore
      [(⟨1, Real.log 2, 2⟩ : Document ℝ), ⟨2, Real.log 2 / 1001, 2⟩,
        ⟨3, Real.log 2 / 1000, 2⟩, ⟨4, Real.log 2 / 999, 2⟩] := by
  obtain ⟨r, hr, hchain⟩ := FindTopDocuments_neighbours_ordered Real.log (nearTieDocuments ℝ)
    "w".toList (.predicate (fun _ status _ => decide (status = DocumentStatus.ACTUAL))) _
    FindAllDocuments_nearTieDocuments (by decide)
  have htop := FindTopDocuments_nearTieDocuments
  rw [FindTopDocumentsDefault, hr] at htop
  rw [← Except.ok.inj htop]
  exact hchain

/-- C5 (the claim fails). The engine `nearTieDocuments` is built from the empty engine by
eight `AddDocument` calls. Its answer to the query `w` is the documents 1, 2, 3, 4 in this
order, with the relevances `ln 2`, `ln 2 / 1001`, `ln 2 / 1000` and `ln 2 / 999` (each
neighbour within `1e-6` of the next, all ratings equal). The results at the positions 1 and
3 are not in the stated order: the relevance `ln 2 / 1001` is not greater than
`ln 2 / 999`, and the two differ by more than `1e-6`. -/
theorem FindTopDocuments_order_counterexample :
    FindTopDocumentsDefault Real.log (nearTieDocuments ℝ) "w".toList
      = .ok [⟨1, Real.log 2, 2⟩, ⟨2, Real.log 2 / 1001, 2⟩, ⟨3, Real.log 2 / 1000, 2⟩,
          ⟨4, Real.log 2 / 999, 2⟩] ∧
    ¬ OrderedBefore (⟨2, Real.log 2 / 1001, 2⟩ : Document ℝ) ⟨4, Real.log 2 / 999, 2⟩ := by
  refine ⟨FindTopDocuments_nearTieDocuments, ?_⟩
  have hlo : (0.6931471803 : ℝ) < Real.log 2 := Real.log_two_gt_d9
  unfold OrderedBefore
  simp only [not_or, not_and, not_lt, gt_iff_lt]
  refine ⟨by linarith, ?_⟩
  intro hclose
  exfalso
  rw [abs_lt] at hclose
  linarith [hclose.1]

/-! ## The number of documents -/

theorem StdMap.mem_insertNew_entry {K V : Type} [LinearOrder K] (k : K) (v : V) (m : List (K × V))
    (e : K × V) : e ∈ StdMap.insertNew k v m ↔ e = (k, v) ∨ e ∈ m := by
  induction m with
  | nil => simp [StdMap.insertNew]
  | cons a t ih =>
    unfold StdMap.insertNew
    split
    · simp
    · simp only [List.mem_cons, ih]; tauto

theorem StdMap.keys_insertNew {K V : Type} [LinearOrder K] (k : K) (v : V)
    (m : List (K × V)) :
    ((StdMap.insertNew k v m).map Prod.fst).Perm (k :: m.map Prod.fst) := by
  induction m with
  | nil => simp [StdMap.insertNew]
  | cons a t ih =>
    unfold StdMap.insertNew
    split
    · exact List.Perm.refl _
    · simp only [List.map_cons]
      exact (List.Perm.cons a.1 ih).trans (List.Perm.swap k a.1 _)

theorem StdMap.keys_modify {K V : Type} [LinearOrder K] (f : V → V) (m : List (K × V))
    (k : K) : (StdMap.modify f m k).map Prod.fst = m.map Prod.fst := by
  induction m with
  | nil => rfl
  | cons a t ih =>
    obtain ⟨ka, va⟩ := a
    unfold StdMap.modify
    split
    · rfl
    · simp only [List.map_cons, ih]

theorem StdMap.keys_emplace {K V : Type} [LinearOrder K] (m : List (K × V)) (k : K) (v : V) :
    (∀ x, x ∈ (StdMap.emplace m k v).map Prod.fst ↔ x = k ∨ x ∈ m.map Prod.fst) ∧
    ((m.map Prod.fst).Nodup → ((StdMap.emplace m k v).map Prod.fst).Nodup) := by
  unfold StdMap.emplace
  split
  · rename_i h
    have hk := (StdMap.find_isSome_iff m k).mp h
    refine ⟨fun x => ?_, fun hn => hn⟩
    constructor
    · exact Or.inr
    · rintro (rfl | hx)
      · exact hk
      · exact hx
  · rename_i h
    have hk : k ∉ m.map Prod.fst := fun hmem => h ((StdMap.find_isSome_iff m k).mpr hmem)
    have hperm := StdMap.keys_insertNew k v m
    refine ⟨fun x => ?_, fun hn => ?_⟩
    · rw [hperm.mem_iff, List.mem_cons]
    · exact hperm.nodup_iff.mpr (List.nodup_cons.mpr ⟨hk, hn⟩)

theorem SetStopWords_documents {R : Type} (s : SearchServer R) (text : Str) :
    (SetStopWords s text).documents_ = s.documents_ ∧
    (SetStopWords s text).word_to_document_freqs_ = s.word_to_document_freqs_ :=
  ⟨rfl, rfl⟩

theorem AddDocument_fault {R : Type} [LinearOrderedField R] (s : SearchServer R)
    (document_id : Int) (document : Str) (status : DocumentStatus) (ratings : List Int) :
    ((AddDocument s document_id document status ratings).fault = none ↔ ratings ≠ []) ∧
    ((AddDocument s document_id document status ratings).fault = none →
      ∃ rating, ComputeAverageRating ratings = .ok rating ∧
        (AddDocument s document_id document status ratings).state.documents_
          = StdMap.emplace s.documents_ document_id ⟨rating, status⟩) ∧
    ((AddDocument s document_id document status ratings).fault ≠ none →
      (AddDocument s document_id document status ratings).state.documents_ = s.documents_) := by
  by_cases hr : ratings = []
  · subst hr
    simp [AddDocument, ComputeAverageRating_nil]
  · obtain ⟨rating, hrating⟩ := ComputeAverageRating_ok ratings hr
    simp [AddDocument, hrating, hr]

theorem run_documents_keys {R : Type} [LinearOrderedField R] (calls : List Call)
    (s : SearchServer R) (hs : (s.documents_.map Prod.fst).Nodup) :
    ((run s calls).state.documents_.map Prod.fst).Nodup ∧
    ∀ k, k ∈ (run s calls).state.documents_.map Prod.fst ↔
      k ∈ s.documents_.map Prod.fst ∨ k ∈ returnedIds s calls := by
  induction calls generalizing s with
  | nil => simp [run, returnedIds, hs]
  | cons call rest ih =>
    cases call with
    | SetStopWords text =>
      simp only [run, returnedIds, Call.apply]
      exact ih (SetStopWords s text) hs
    | AddDocument document_id document status ratings =>
      obtain ⟨_, hok, hfault⟩ := AddDocument_fault s document_id document status ratings
      simp only [run, returnedIds, Call.apply]
      cases hf : (AddDocument s document_id document status ratings).fault with
      | some f =>
        simp only
        rw [hfault (by simp [hf])]
        simp [hs]
      | none =>
        simp only
        obtain ⟨rating, _, hdocs⟩ := hok hf
        obtain ⟨hmem, hnodup⟩ := StdMap.keys_emplace s.documents_ document_id
          (⟨rating, status⟩ : DocumentData)
        obtain ⟨h1, h2⟩ := ih (AddDocument s document_id document status ratings).state
          (by rw [hdocs]; exact hnodup hs)
        refine ⟨h1, fun k => ?_⟩
        rw [h2, hdocs, hmem, List.mem_cons]
        tauto

/-- C11. After any sequence of `SetStopWords` and `AddDocument` calls on the empty engine,
`GetDocumentCount()` is the number of distinct ids among the `AddDocument` calls that
returned normally; an id that is added again does not raise the count, because
`documents_.emplace` keeps the entry that is there. -/
theorem GetDocumentCount_eq_distinct_ids {R : Type} [LinearOrderedField R]
    (calls : List Call) :
    GetDocumentCount (run (SearchServer.empty : SearchServer R) calls).state
      = ((returnedIds (SearchServer.empty : SearchServer R) calls).toFinset.card : Int) := by
  obtain ⟨hnodup, hmem⟩ := run_documents_keys calls (SearchServer.empty : SearchServer R)
    (by simp [SearchServer.empty])
  unfold GetDocumentCount
  rw [← List.length_map (run (SearchServer.empty : SearchServer R) calls).state.documents_
    Prod.fst, ← List.toFinset_card_of_nodup hnodup]
  congr 2
  ext k
  simp only [List.mem_toFinset, hmem]
  simp [SearchServer.empty]

theorem GetDocumentCount_example :
    GetDocumentCount (run (SearchServer.empty : SearchServer ℚ)
      [.AddDocument 1 "cat".toList .ACTUAL [1, 2, 3],
       .AddDocument 1 "dog".toList .BANNED [4],
       .SetStopWords "in".toList,
       .AddDocument 2 "cat in".toList .ACTUAL [5],
       .AddDocument 3 "cat".toList .ACTUAL [],
       .AddDocument 4 "cat".toList .ACTUAL [1]]).state = 2 := by
  rfl

/-! ## The relevance that the plus loop accumulates -/

theorem StdMap.find_of_mem_nodup {K V : Type} [LinearOrder K] (m : List (K × V)) (k : K)
    (v : V) (hn : (m.map Prod.fst).Nodup) (h : (k, v) ∈ m) : StdMap.find m k = some v := by
  induction m with
  | nil => simp at h
  | cons a t ih =>
    obtain ⟨ka, va⟩ := a
    simp only [List.map_cons, List.nodup_cons] at hn
    rcases List.mem_cons.mp h with heq | hmem
    · simp only [Prod.mk.injEq] at heq
      obtain ⟨rfl, rfl⟩ := heq
      simp [StdMap.find]
    · have hne : k ≠ ka := by
        rintro rfl
        exact hn.1 (List.mem_map_of_mem Prod.fst hmem)
      simp only [StdMap.find, if_neg hne]
      exact ih hn.2 hmem

theorem StdMap.keys_subscript_nodup {K V : Type} [LinearOrder K] (m : List (K × V)) (k : K)
    (dflt : V) (f : V → V) (hn : (m.map Prod.fst).Nodup) :
    ((StdMap.subscript m k dflt f).map Prod.fst).Nodup := by
  unfold StdMap.subscript
  rw [StdMap.keys_modify]
  exact (StdMap.keys_emplace m k dflt).2 hn

theorem StdMap.keys_erase_nodup {K V : Type} [LinearOrder K] (m : List (K × V)) (k : K)
    (hn : (m.map Prod.fst).Nodup) : ((StdMap.erase m k).map Prod.fst).Nodup := by
  unfold StdMap.erase
  exact (List.Nodup.sublist (List.Sublist.map _ (List.filter_sublist _)) hn)

theorem filter_key_eq_nil {V : Type} (postings : List (Int × V)) (k : Int)
    (h : k ∉ postings.map Prod.fst) :
    postings.filter (fun posting => decide (posting.1 = k)) = [] := by
  apply List.filter_eq_nil_iff.mpr
  intro e he heq
  simp only [decide_eq_true_eq] at heq
  exact h (heq ▸ List.mem_map_of_mem Prod.fst he)

theorem FindAllDocuments.scorePostings_find {R : Type} [LinearOrderedField R]
    (s : SearchServer R) (p : DocumentPredicate) (idf : R) (postings m m' : List (Int × R))
    (h : FindAllDocuments.scorePostings s p idf postings m = .ok m') (k : Int) :
    StdMap.find m' k
      = if FindAllDocuments.accepts s p k = true ∧ k ∈ postings.map Prod.fst then
          some ((StdMap.find m k).getD 0 +
            ((postings.filter (fun posting => decide (posting.1 = k))).map
              (fun posting => posting.2 * idf)).sum)
        else StdMap.find m k := by
  induction postings generalizing m with
  | nil =>
    simp only [FindAllDocuments.scorePostings, Except.ok.injEq] at h
    subst h
    simp
  | cons e rest ih =>
    obtain ⟨document_id, term_freq⟩ := e
    simp only [FindAllDocuments.scorePostings] at h
    cases hdoc : StdMap.find s.documents_ document_id with
    | none => simp [hdoc] at h
    | some data =>
      simp only [hdoc] at h
      rw [ih _ h]
      by_cases hk : k = document_id
      · subst hk
        have hacc : FindAllDocuments.accepts s p k = FindAllDocuments.isSelected p k data := by
          simp only [FindAllDocuments.accepts, hdoc]
        rw [hacc]
        cases hsel : FindAllDocuments.isSelected p k data with
        | false => simp
        | true =>
          simp only [if_true, StdMap.find_subscript, Option.getD_some, true_and, List.map_cons,
            List.mem_cons, true_or, List.filter_cons, decide_True, List.sum_cons]
          by_cases hrest : k ∈ rest.map Prod.fst
          · rw [if_pos hrest, add_assoc]
          · rw [if_neg hrest, filter_key_eq_nil rest k hrest]
            simp
      · have hne : ¬ document_id = k := fun e => hk e.symm
        have hfind : StdMap.find
            (if FindAllDocuments.isSelected p document_id data = true then
              StdMap.subscript m document_id 0 (fun relevance => relevance + term_freq * idf)
            else m) k = StdMap.find m k := by
          split
          · rw [StdMap.find_subscript, if_neg hk]
          · rfl
        rw [hfind]
        simp only [List.map_cons, List.mem_cons, hk, false_or, List.filter_cons, hne,
          decide_False, Bool.false_eq_true, if_false]

theorem FindAllDocuments.scorePostings_nodup {R : Type} [LinearOrderedField R]
    (s : SearchServer R) (p : DocumentPredicate) (idf : R) (postings m m' : List (Int × R))
    (hn : (m.map Prod.fst).Nodup)
    (h : FindAllDocuments.scorePostings s p idf postings m = .ok m') :
    (m'.map Prod.fst).Nodup := by
  induction postings generalizing m with
  | nil =>
    simp only [FindAllDocuments.scorePostings, Except.ok.injEq] at h
    subst h
    exact hn
  | cons e rest ih =>
    obtain ⟨document_id, term_freq⟩ := e
    simp only [FindAllDocuments.scorePostings] at h
    cases hdoc : StdMap.find s.documents_ document_id with
    | none => simp [hdoc] at h
    | some data =>
      simp only [hdoc] at h
      refine ih _ ?_ h
      split
      · exact StdMap.keys_subscript_nodup _ _ _ _ hn
      · exact hn

theorem FindAllDocuments.contribution_of_not_posted {R : Type} [LinearOrderedField R]
    (log : R → R) (s : SearchServer R) (word : Str) (k : Int) (h : Posted s word k = false) :
    FindAllDocuments.contribution log s word k = 0 := by
  unfold FindAllDocuments.contribution
  unfold Posted at h
  cases hw : StdMap.find s.word_to_document_freqs_ word with
  | none => rfl
  | some postings =>
    simp only [hw] at h
    have hk : k ∉ postings.map Prod.fst := by
      intro hmem
      have := (StdMap.find_isSome_iff postings k).mpr hmem
      rw [h] at this
      exact Bool.noConfusion this
    simp only [filter_key_eq_nil postings k hk, List.map_nil, List.sum_nil]

theorem FindAllDocuments.plusLoop_find {R : Type} [LinearOrderedField R] (log : R → R)
    (s : SearchServer R) (p : DocumentPredicate) (words : List Str) (m m' : List (Int × R))
    (h : FindAllDocuments.plusLoop log s p words m = .ok m') (k : Int) :
    StdMap.find m' k
      = if FindAllDocuments.accepts s p k = true ∧ ∃ w ∈ words, Posted s w k = true then
          some ((StdMap.find m k).getD 0 +
            (words.map (fun w => FindAllDocuments.contribution log s w k)).sum)
        else StdMap.find m k := by
  induction words generalizing m with
  | nil =>
    simp only [FindAllDocuments.plusLoop, Except.ok.injEq] at h
    subst h
    simp
  | cons word rest ih =>
    simp only [FindAllDocuments.plusLoop] at h
    cases hw : StdMap.find s.word_to_document_freqs_ word with
    | none =>
      simp only [hw] at h
      have hposted : Posted s word k = false := by simp [Posted, hw]
      rw [ih m h]
      simp only [List.mem_cons, exists_eq_or_imp, hposted, Bool.false_eq_true, false_or,
        List.map_cons, List.sum_cons,
        FindAllDocuments.contribution_of_not_posted log s word k hposted, zero_add]
    | some postings =>
      simp only [hw, ComputeWordInverseDocumentFreq] at h
      split at h
      · exact absurd h (by simp)
      · rename_i scored hsc
        rw [ih scored h, FindAllDocuments.scorePostings_find s p _ postings m scored hsc k]
        have hposted : (Posted s word k = true) ↔ k ∈ postings.map Prod.fst := by
          simp only [Posted, hw]
          exact StdMap.find_isSome_iff postings k
        have hcontr : FindAllDocuments.contribution log s word k
            = ((postings.filter (fun posting => decide (posting.1 = k))).map
                (fun posting => posting.2 *
                  log ((GetDocumentCount s : R) * 1 / (postings.length : R)))).sum := by
          simp only [FindAllDocuments.contribution, hw]
        simp only [List.mem_cons, exists_eq_or_imp, hposted, List.map_cons, List.sum_cons,
          hcontr, mul_one]
        by_cases hacc : FindAllDocuments.accepts s p k = true
        · by_cases hk : k ∈ postings.map Prod.fst
          · simp only [hacc, hk, true_and, true_or, and_self, if_true, Option.getD_some]
            by_cases hrest : ∃ w ∈ rest, Posted s w k = true
            · rw [if_pos hrest, add_assoc]
            · rw [if_neg hrest]
              have hzero : (rest.map (fun w => FindAllDocuments.contribution log s w k)).sum
                  = 0 := by
                apply List.sum_eq_zero
                intro x hx
                obtain ⟨w, hw', rfl⟩ := List.mem_map.mp hx
                apply FindAllDocuments.contribution_of_not_posted
                by_contra hp
                exact hrest ⟨w, hw', by simpa using hp⟩
              rw [hzero, add_zero]
          · simp only [hacc, hk, true_and, false_or, and_false, if_false,
              filter_key_eq_nil postings k hk, List.map_nil, List.sum_nil, zero_add]
        · simp only [hacc, Bool.false_eq_true, false_and, if_false]

theorem FindAllDocuments.plusLoop_nodup {R : Type} [LinearOrderedField R] (log : R → R)
    (s : SearchServer R) (p : DocumentPredicate) (words : List Str) (m m' : List (Int × R))
    (hn : (m.map Prod.fst).Nodup)
    (h : FindAllDocuments.plusLoop log s p words m = .ok m') : (m'.map Prod.fst).Nodup := by
  induction words generalizing m with
  | nil =>
    simp only [FindAllDocuments.plusLoop, Except.ok.injEq] at h
    subst h
    exact hn
  | cons word rest ih =>
    simp only [FindAllDocuments.plusLoop] at h
    cases hw : StdMap.find s.word_to_document_freqs_ word with
    | none =>
      simp only [hw] at h
      exact ih m hn h
    | some postings =>
      simp only [hw, ComputeWordInverseDocumentFreq] at h
      split at h
      · exact absurd h (by simp)
      · rename_i scored hsc
        exact ih scored (FindAllDocuments.scorePostings_nodup s p _ postings m scored hn hsc) h

theorem FindAllDocuments.minusLoop_nodup {R : Type} (s : SearchServer R) (words : List Str)
    (m : List (Int × R)) (hn : (m.map Prod.fst).Nodup) :
    ((FindAllDocuments.minusLoop s words m).map Prod.fst).Nodup := by
  have hfold : ∀ (postings : List (Int × R)) (m : List (Int × R)), (m.map Prod.fst).Nodup →
      ((postings.foldl (fun m posting => StdMap.erase m posting.1) m).map Prod.fst).Nodup := by
    intro postings
    induction postings with
    | nil => exact fun m h => h
    | cons e rest ih => exact fun m h => ih _ (StdMap.keys_erase_nodup m e.1 h)
  induction words generalizing m with
  | nil => exact hn
  | cons word rest ih =>
    simp only [FindAllDocuments.minusLoop]
    cases StdMap.find s.word_to_document_freqs_ word with
    | none => exact ih m hn
    | some postings => exact ih _ (hfold postings m hn)

theorem FindAllDocuments_find {R : Type} [LinearOrderedField R] (log : R → R)
    (s : SearchServer R) (query : Query) (p : DocumentPredicate) (all : List (Document R))
    (h : FindAllDocuments log s query p = .ok all) :
    ∃ m : List (Int × R), all.map (fun d => (d.id, d.relevance)) = m ∧
      (m.map Prod.fst).Nodup ∧
      ∀ k, StdMap.find m k
        = if ∃ w ∈ query.minus_words, Posted s w k = true then none
          else if FindAllDocuments.accepts s p k = true ∧
              ∃ w ∈ query.plus_words, Posted s w k = true then
            some (0 + (query.plus_words.map
              (fun w => FindAllDocuments.contribution log s w k)).sum)
          else none := by
  unfold FindAllDocuments at h
  cases hm : FindAllDocuments.plusLoop log s p query.plus_words [] with
  | error f => simp [hm] at h
  | ok m' =>
    simp only [hm] at h
    refine ⟨_, (FindAllDocuments.collect_spec s _ all h).1, ?_, ?_⟩
    · exact FindAllDocuments.minusLoop_nodup s _ _
        (FindAllDocuments.plusLoop_nodup log s p _ [] m' (by simp) hm)
    · intro k
      rw [FindAllDocuments.minusLoop_find, FindAllDocuments.plusLoop_find log s p _ [] m' hm k]
      simp [StdMap.find]

theorem FindAllDocuments_mem_accepts {R : Type} [LinearOrderedField R] (log : R → R)
    (s : SearchServer R) (query : Query) (p : DocumentPredicate) (all : List (Document R))
    (h : FindAllDocuments log s query p = .ok all) (document_id : Int) :
    document_id ∈ all.map Document.id ↔
      (∃ w ∈ query.plus_words, Posted s w document_id = true) ∧
      FindAllDocuments.accepts s p document_id = true ∧
      ∀ w ∈ query.minus_words, Posted s w document_id = false := by
  obtain ⟨m, hmap, _, hfind⟩ := FindAllDocuments_find log s query p all h
  have hkeys : all.map Document.id = m.map Prod.fst := by
    rw [← hmap, List.map_map]
    rfl
  rw [hkeys, ← StdMap.find_isSome_iff, hfind]
  by_cases hminus : ∃ w ∈ query.minus_words, Posted s w document_id = true
  · rw [if_pos hminus]
    obtain ⟨w, hw, hp⟩ := hminus
    simp only [Option.isSome_none, Bool.false_eq_true, false_iff, not_and]
    intro _ _ hall
    rw [hall w hw] at hp
    exact Bool.noConfusion hp
  · rw [if_neg hminus]
    have hall : ∀ w ∈ query.minus_words, Posted s w document_id = false := by
      intro w hw
      by_contra hp
      exact hminus ⟨w, hw, by simpa using hp⟩
    by_cases hplus : FindAllDocuments.accepts s p document_id = true ∧
        ∃ w ∈ query.plus_words, Posted s w document_id = true
    · rw [if_pos hplus]
      simp only [Option.isSome_some, true_iff]
      exact ⟨hplus.2, hplus.1, hall⟩
    · rw [if_neg hplus]
      simp only [Option.isSome_none, Bool.false_eq_true, false_iff]
      rintro ⟨h1, h2, _⟩
      exact hplus ⟨h2, h1⟩

/-- C12. When `FindAllDocuments` returns, a document id is in its result exactly when it is
posted under some plus word of the query, the document is stored and the filter holds of
it (a status filter: the stored status is the one asked for; a predicate: it is true of the
id, the stored status and the stored rating), and it is posted under no minus word of the
query; the relevance plays no part. When at most 5 documents are in that result,
`FindTopDocuments` returns the same documents. -/
theorem FindAllDocuments_mem_iff {R : Type} [LinearOrderedField R] (log : R → R)
    (s : SearchServer R) (query : Query) (p : DocumentPredicate) (all : List (Document R))
    (h : FindAllDocuments log s query p = .ok all) :
    (∀ document_id, document_id ∈ all.map Document.id ↔
      (∃ w ∈ query.plus_words, Posted s w document_id = true) ∧
      (∃ data, StdMap.find s.documents_ document_id = some data ∧
        match p with
        | .status v => data.status = v
        | .predicate f => f document_id data.status data.rating = true) ∧
      ∀ w ∈ query.minus_words, Posted s w document_id = false) ∧
    (∀ raw_query, query = ParseQuery s raw_query → all.length ≤ MAX_RESULT_DOCUMENT_COUNT →
      ∃ r, FindTopDocuments log s raw_query p = .ok r ∧ r.Perm all) := by
  constructor
  · intro document_id
    refine (FindAllDocuments_mem_accepts log s query p all h document_id).trans
      (and_congr Iff.rfl (and_congr ?_ Iff.rfl))
    unfold FindAllDocuments.accepts
    cases hdata : StdMap.find s.documents_ document_id with
    | none => simp
    | some data =>
      cases p with
      | status v => simp [FindAllDocuments.isSelected, eq_comm]
      | predicate f => simp [FindAllDocuments.isSelected]
  · intro raw_query hq hlen
    subst hq
    rw [FindTopDocuments_eq, h]
    refine ⟨_, rfl, ?_⟩
    have hsorted : (stdSort FindTopDocuments.comp all).length ≤ MAX_RESULT_DOCUMENT_COUNT := by
      rw [(stdSort_perm FindTopDocuments.comp all).length_eq]
      exact hlen
    show ((stdSort FindTopDocuments.comp all).take MAX_RESULT_DOCUMENT_COUNT).Perm all
    rw [List.take_of_length_le hsorted]
    exact stdSort_perm _ all

/-- C12, an instance (the test `Test0`): with the single document 42 `cat in the city` and
no stop words, the query `in` returns exactly the document 42, with the relevance 0. -/
theorem FindAllDocuments_mem_iff_witness :
    (42 : Int) ∈ List.map Document.id
      [(⟨42, 0 + (0 + 1 / ((4 : ℕ) : ℝ)) * Real.log (((1 : ℤ) : ℝ) * 1 / ((1 : ℕ) : ℝ)), 2⟩ :
        Document ℝ)] ∧
    FindTopDocumentsDefault Real.log (oneDocument ℝ) "in".toList = .ok [⟨42, 0, 2⟩] := by
  have hall : FindAllDocuments Real.log (oneDocument ℝ) (ParseQuery (oneDocument ℝ) "in".toList)
        (.predicate (fun _ status _ => decide (status = DocumentStatus.ACTUAL)))
      = .ok [⟨42, 0 + (0 + 1 / ((4 : ℕ) : ℝ)) * Real.log (((1 : ℤ) : ℝ) * 1 / ((1 : ℕ) : ℝ)),
          2⟩] := by
    rfl
  constructor
  · exact ((FindAllDocuments_mem_iff Real.log (oneDocument ℝ)
      (ParseQuery (oneDocument ℝ) "in".toList)
      (.predicate (fun _ status _ => decide (status = DocumentStatus.ACTUAL))) _ hall).1 42).mpr
      ⟨⟨"in".toList, by decide, by rfl⟩, ⟨⟨2, .ACTUAL⟩, by rfl, by rfl⟩, by decide⟩
  · rw [FindTopDocumentsDefault, FindTopDocuments_eq, hall]
    simp [Except.map, stdSort, stdSort.step, MAX_RESULT_DOCUMENT_COUNT]

/-! ## The entries of the inverted index -/

theorem StdMap.mem_modify {K V : Type} [LinearOrder K] (f : V → V) (m : List (K × V)) (k : K)
    (e : K × V) (h : e ∈ StdMap.modify f m k) :
    e ∈ m ∨ ∃ v, (k, v) ∈ m ∧ e = (k, f v) := by
  induction m with
  | nil => simp [StdMap.modify] at h
  | cons a t ih =>
    obtain ⟨ka, va⟩ := a
    unfold StdMap.modify at h
    split at h
    · rename_i hk
      rcases List.mem_cons.mp h with rfl | hmem
      · exact Or.inr ⟨va, by rw [hk]; exact List.mem_cons_self _ _, by rw [hk]⟩
      · exact Or.inl (List.mem_cons_of_mem _ hmem)
    · rcases List.mem_cons.mp h with rfl | hmem
      · exact Or.inl (List.mem_cons_self _ _)
      · rcases ih hmem with h1 | ⟨v, hv, he⟩
        · exact Or.inl (List.mem_cons_of_mem _ h1)
        · exact Or.inr ⟨v, List.mem_cons_of_mem _ hv, he⟩

theorem StdMap.modify_insertNew {K V : Type} [LinearOrder K] (f : V → V) (m : List (K × V))
    (k : K) (dflt : V) (h : StdMap.find m k = none) :
    StdMap.modify f (StdMap.insertNew k dflt m) k = StdMap.insertNew k (f dflt) m := by
  induction m with
  | nil => simp [StdMap.insertNew, StdMap.modify]
  | cons a t ih =>
    obtain ⟨ka, va⟩ := a
    simp only [StdMap.find] at h
    split at h
    · simp at h
    · rename_i hne
      unfold StdMap.insertNew
      split
      · simp [StdMap.modify]
      · simp only [StdMap.modify, if_neg hne, ih h]

theorem StdMap.mem_subscript {K V : Type} [LinearOrder K] (m : List (K × V)) (k : K)
    (dflt : V) (f : V → V) (e : K × V) (h : e ∈ StdMap.subscript m k dflt f) :
    e ∈ m ∨ ∃ v, ((k, v) ∈ m ∨ v = dflt) ∧ e = (k, f v) := by
  unfold StdMap.subscript StdMap.emplace at h
  cases hf : StdMap.find m k with
  | some w =>
    simp only [hf, Option.isSome_some, if_true] at h
    rcases StdMap.mem_modify f m k e h with h1 | ⟨v, hv, he⟩
    · exact Or.inl h1
    · exact Or.inr ⟨v, Or.inl hv, he⟩
  | none =>
    simp only [hf, Option.isSome_none, Bool.false_eq_true, if_false] at h
    rw [StdMap.modify_insertNew f m k dflt hf] at h
    rcases (StdMap.mem_insertNew_entry k (f dflt) m e).mp h with h1 | h1
    · exact Or.inr ⟨dflt, Or.inr rfl, h1⟩
    · exact Or.inl h1

theorem AddDocument.mem_addFreq {R : Type} [LinearOrderedField R] (document_id : Int)
    (inv : R) (freqs : List (Str × List (Int × R))) (word : Str)
    (entry : Str × List (Int × R))
    (h : entry ∈ AddDocument.addFreq document_id inv freqs word) :
    entry ∈ freqs ∨ ∃ postings, ((word, postings) ∈ freqs ∨ postings = []) ∧
      entry = (word, StdMap.subscript postings document_id 0 (fun freq => freq + inv)) :=
  StdMap.mem_subscript freqs word [] _ entry h

theorem AddDocument.addFreq_distinctKeys {R : Type} [LinearOrderedField R] (document_id : Int)
    (inv : R) (freqs : List (Str × List (Int × R))) (word : Str)
    (h : (freqs.map Prod.fst).Nodup ∧ ∀ entry ∈ freqs, (entry.2.map Prod.fst).Nodup) :
    ((AddDocument.addFreq document_id inv freqs word).map Prod.fst).Nodup ∧
      ∀ entry ∈ AddDocument.addFreq document_id inv freqs word,
        (entry.2.map Prod.fst).Nodup := by
  refine ⟨StdMap.keys_subscript_nodup freqs word [] _ h.1, ?_⟩
  intro entry hentry
  rcases AddDocument.mem_addFreq document_id inv freqs word entry hentry with
    h1 | ⟨postings, hp, rfl⟩
  · exact h.2 entry h1
  · apply StdMap.keys_subscript_nodup
    rcases hp with hp | rfl
    · exact h.2 _ hp
    · simp

theorem AddDocument_distinctKeys {R : Type} [LinearOrderedField R] (s : SearchServer R)
    (document_id : Int) (document : Str) (status : DocumentStatus) (ratings : List Int)
    (h : s.DistinctKeys) :
    (AddDocument s document_id document status ratings).state.DistinctKeys := by
  unfold SearchServer.DistinctKeys
  rw [AddDocument_word_to_document_freqs]
  have hfold : ∀ (words : List Str) (freqs : List (Str × List (Int × R))) (inv : R),
      ((freqs.map Prod.fst).Nodup ∧ ∀ entry ∈ freqs, (entry.2.map Prod.fst).Nodup) →
      (((words.foldl (AddDocument.addFreq document_id inv) freqs).map Prod.fst).Nodup ∧
        ∀ entry ∈ words.foldl (AddDocument.addFreq document_id inv) freqs,
          (entry.2.map Prod.fst).Nodup) := by
    intro words
    induction words with
    | nil => exact fun _ _ hf => hf
    | cons a t ih =>
      exact fun freqs inv hf => ih _ inv (AddDocument.addFreq_distinctKeys document_id inv freqs a hf)
  exact hfold _ _ _ h

theorem run_distinctKeys {R : Type} [LinearOrderedField R] (calls : List Call)
    (s : SearchServer R) (h : s.DistinctKeys) : (run s calls).state.DistinctKeys := by
  induction calls generalizing s with
  | nil => exact h
  | cons call rest ih =>
    have hstep : (call.apply s).state.DistinctKeys := by
      cases call with
      | SetStopWords text => exact h
      | AddDocument document_id document status ratings =>
        exact AddDocument_distinctKeys s document_id document status ratings h
    simp only [run]
    cases (call.apply s).fault with
    | some f => exact hstep
    | none => exact ih _ hstep

theorem empty_distinctKeys {R : Type} : (SearchServer.empty : SearchServer R).DistinctKeys := by
  simp [SearchServer.DistinctKeys, SearchServer.empty]

/-! ## The relevance as a sum over the plus words -/

theorem filter_key_of_nodup {V : Type} (postings : List (Int × V)) (k : Int) (v : V)
    (hn : (postings.map Prod.fst).Nodup) (h : StdMap.find postings k = some v) :
    postings.filter (fun posting => decide (posting.1 = k)) = [(k, v)] := by
  induction postings with
  | nil => simp [StdMap.find] at h
  | cons a t ih =>
    obtain ⟨ka, va⟩ := a
    simp only [List.map_cons, List.nodup_cons] at hn
    simp only [StdMap.find] at h
    by_cases hk : k = ka
    · subst hk
      simp only [if_true, Option.some.injEq] at h
      subst h
      simp only [List.filter_cons, decide_True, if_true, List.cons.injEq, true_and]
      exact filter_key_eq_nil t k hn.1
    · rw [if_neg hk] at h
      have hne : ¬ ka = k := fun e => hk e.symm
      simp only [List.filter_cons, hne, decide_False, Bool.false_eq_true, if_false]
      exact ih hn.2 h

theorem FindAllDocuments.contribution_eq {R : Type} [LinearOrderedField R] (log : R → R)
    (s : SearchServer R) (hs : s.DistinctKeys) (word : Str) (k : Int) :
    FindAllDocuments.contribution log s word k
      = if Posted s word k = true then
          termFreq s word k * log ((GetDocumentCount s : R) / (docFreq s word : R))
        else 0 := by
  by_cases hp : Posted s word k = true
  · rw [if_pos hp]
    unfold Posted at hp
    unfold FindAllDocuments.contribution termFreq docFreq posting
    cases hw : StdMap.find s.word_to_document_freqs_ word with
    | none => simp [hw] at hp
    | some postings =>
      simp only [hw] at hp
      obtain ⟨v, hv⟩ := Option.isSome_iff_exists.mp hp
      have hn := hs.2 _ (StdMap.mem_of_find _ _ _ hw)
      simp only [filter_key_of_nodup postings k v hn hv, List.map_cons, List.map_nil,
        List.sum_cons, List.sum_nil, add_zero, mul_one, Option.some_bind, hv,
        Option.getD_some]
  · rw [if_neg hp]
    exact FindAllDocuments.contribution_of_not_posted log s word k (by simpa using hp)

theorem sum_map_ite_eq_sum_filter {R : Type} [LinearOrderedField R] (words : List Str)
    (c : Str → Bool) (f : Str → R) :
    (words.map (fun w => if c w = true then f w else 0)).sum
      = ((words.filter c).map f).sum := by
  induction words with
  | nil => rfl
  | cons a t ih =>
    cases hc : c a with
    | false => simp [List.filter_cons, hc, ih]
    | true => simp [List.filter_cons, hc, ih]

theorem FindTopDocuments_relevance_of_distinctKeys {R : Type} [LinearOrderedField R]
    (log : R → R) (s : SearchServer R) (hs : s.DistinctKeys) (raw_query : Str)
    (p : DocumentPredicate) (r : List (Document R))
    (h : FindTopDocuments log s raw_query p = .ok r) (d : Document R) (hd : d ∈ r) :
    d.relevance
      = (((ParseQuery s raw_query).plus_words.filter (fun t => Posted s t d.id)).map
          (fun t => termFreq s t d.id *
            log ((GetDocumentCount s : R) / (docFreq s t : R)))).sum := by
  obtain ⟨all, hall, hsub⟩ := FindTopDocuments_subset log s raw_query p r h
  obtain ⟨m, hmap, hnodup, hfind⟩ := FindAllDocuments_find log s _ p all hall
  have hmem : (d.id, d.relevance) ∈ m := by
    rw [← hmap]
    exact List.mem_map_of_mem (fun d => (d.id, d.relevance)) (hsub d hd)
  have hval := StdMap.find_of_mem_nodup m d.id d.relevance hnodup hmem
  rw [hfind] at hval
  split at hval
  · exact absurd hval (by simp)
  · split at hval
    · simp only [Option.some.injEq, zero_add] at hval
      rw [← hval, ← sum_map_ite_eq_sum_filter]
      congr 1
      apply List.map_congr_left
      intro w _
      exact FindAllDocuments.contribution_eq log s hs w d.id
    · exact absurd hval (by simp)

/-- C13. In every state reached from the empty engine by `SetStopWords` and `AddDocument`
calls (in particular when each id was added exactly once), the relevance of every document
`d` that `FindTopDocuments` returns is the sum, over the plus words `t` of the parsed query
under which `d.id` is posted, of `tf(t, d.id) * ln(N / df(t))`: `tf` is the frequency stored
in the index, `N` is `GetDocumentCount()` and `df(t)` is the number of ids in the posting
list of `t`. (`log` is any function on any ordered field, the natural logarithm of the real
numbers included.) -/
theorem FindTopDocuments_relevance {R : Type} [LinearOrderedField R] (log : R → R)
    (calls : List Call) (raw_query : Str) (p : DocumentPredicate) (r : List (Document R))
    (h : FindTopDocuments log (run (SearchServer.empty : SearchServer R) calls).state
      raw_query p = .ok r)
    (d : Document R) (hd : d ∈ r) :
    d.relevance
      = (((ParseQuery (run (SearchServer.empty : SearchServer R) calls).state
            raw_query).plus_words.filter
          (fun t => Posted (run (SearchServer.empty : SearchServer R) calls).state t d.id)).map
          (fun t => termFreq (run (SearchServer.empty : SearchServer R) calls).state t d.id *
            log ((GetDocumentCount (run (SearchServer.empty : SearchServer R) calls).state : R) /
              (docFreq (run (SearchServer.empty : SearchServer R) calls).state t : R)))).sum :=
  FindTopDocuments_relevance_of_distinctKeys log _
    (run_distinctKeys calls _ empty_distinctKeys) raw_query p r h d hd

/-! ## The five documents of the tests -/

theorem FindTopDocuments_fiveDocuments :
    FindTopDocumentsDefault Real.log (fiveDocuments ℝ) "cat city play match".toList
      = .ok [⟨1, 1 / 4 * Real.log 5 + 1 / 4 * Real.log (5 / 2) + 1 / 4 * Real.log (5 / 3)
                + 1 / 4 * Real.log (5 / 4), 2⟩,
          ⟨2, 1 / 4 * Real.log (5 / 2) + 1 / 4 * Real.log (5 / 3) + 1 / 4 * Real.log (5 / 4), 2⟩,
          ⟨3, 1 / 4 * Real.log (5 / 3) + 1 / 4 * Real.log (5 / 4), 2⟩,
          ⟨4, 1 / 4 * Real.log (5 / 4), 2⟩] := by
  have hall : FindAllDocuments Real.log (fiveDocuments ℝ)
        (ParseQuery (fiveDocuments ℝ) "cat city play match".toList)
        (.predicate (fun _ status _ => decide (status = DocumentStatus.ACTUAL)))
      = .ok [⟨1, 0 + (0 + 1 / ((4 : ℕ) : ℝ)) * Real.log (((5 : ℤ) : ℝ) * 1 / ((1 : ℕ) : ℝ))
                + (0 + 1 / ((4 : ℕ) : ℝ)) * Real.log (((5 : ℤ) : ℝ) * 1 / ((2 : ℕ) : ℝ))
                + (0 + 1 / ((4 : ℕ) : ℝ)) * Real.log (((5 : ℤ) : ℝ) * 1 / ((4 : ℕ) : ℝ))
                + (0 + 1 / ((4 : ℕ) : ℝ)) * Real.log (((5 : ℤ) : ℝ) * 1 / ((3 : ℕ) : ℝ)), 2⟩,
          ⟨2, 0 + (0 + 1 / ((4 : ℕ) : ℝ)) * Real.log (((5 : ℤ) : ℝ) * 1 / ((2 : ℕ) : ℝ))
                + (0 + 1 / ((4 : ℕ) : ℝ)) * Real.log (((5 : ℤ) : ℝ) * 1 / ((4 : ℕ) : ℝ))
                + (0 + 1 / ((4 : ℕ) : ℝ)) * Real.log (((5 : ℤ) : ℝ) * 1 / ((3 : ℕ) : ℝ)), 2⟩,
          ⟨3, 0 + (0 + 1 / ((4 : ℕ) : ℝ)) * Real.log (((5 : ℤ) : ℝ) * 1 / ((4 : ℕ) : ℝ))
                + (0 + 1 / ((4 : ℕ) : ℝ)) * Real.log (((5 : ℤ) : ℝ) * 1 / ((3 : ℕ) : ℝ)), 2⟩,
          ⟨4, 0 + (0 + 1 / ((4 : ℕ) : ℝ)) * Real.log (((5 : ℤ) : ℝ) * 1 / ((4 : ℕ) : ℝ)),
            2⟩] := by
    rfl
  have hl1 : Real.log (((5 : ℤ) : ℝ) * 1 / ((1 : ℕ) : ℝ)) = Real.log 5 := by
    congr 1; norm_num
  have hl2 : Real.log (((5 : ℤ) : ℝ) * 1 / ((2 : ℕ) : ℝ)) = Real.log (5 / 2) := by
    congr 1; norm_num
  have hl3 : Real.log (((5 : ℤ) : ℝ) * 1 / ((3 : ℕ) : ℝ)) = Real.log (5 / 3) := by
    congr 1; norm_num
  have hl4 : Real.log (((5 : ℤ) : ℝ) * 1 / ((4 : ℕ) : ℝ)) = Real.log (5 / 4) := by
    congr 1; norm_num
  have htf : (0 : ℝ) + 1 / ((4 : ℕ) : ℝ) = 1 / 4 := by norm_num
  rw [hl1, hl2, hl3, hl4, htf] at hall
  have e1 : (0 : ℝ) + 1 / 4 * Real.log 5 + 1 / 4 * Real.log (5 / 2) + 1 / 4 * Real.log (5 / 4)
        + 1 / 4 * Real.log (5 / 3)
      = 1 / 4 * Real.log 5 + 1 / 4 * Real.log (5 / 2) + 1 / 4 * Real.log (5 / 3)
        + 1 / 4 * Real.log (5 / 4) := by ring
  have e2 : (0 : ℝ) + 1 / 4 * Real.log (5 / 2) + 1 / 4 * Real.log (5 / 4)
        + 1 / 4 * Real.log (5 / 3)
      = 1 / 4 * Real.log (5 / 2) + 1 / 4 * Real.log (5 / 3) + 1 / 4 * Real.log (5 / 4) := by
    ring
  have e3 : (0 : ℝ) + 1 / 4 * Real.log (5 / 4) + 1 / 4 * Real.log (5 / 3)
      = 1 / 4 * Real.log (5 / 3) + 1 / 4 * Real.log (5 / 4) := by ring
  have e4 : (0 : ℝ) + 1 / 4 * Real.log (5 / 4) = 1 / 4 * Real.log (5 / 4) := by ring
  rw [e1, e2, e3, e4] at hall
  have p5 : 0 ≤ Real.log 5 := Real.log_nonneg (by norm_num)
  have p2 : 0 ≤ Real.log (5 / 2) := Real.log_nonneg (by norm_num)
  have p3 : 0 ≤ Real.log (5 / 3) := Real.log_nonneg (by norm_num)
  have c21 : FindTopDocuments.comp
      (⟨2, 1 / 4 * Real.log (5 / 2) + 1 / 4 * Real.log (5 / 3) + 1 / 4 * Real.log (5 / 4), 2⟩ :
        Document ℝ)
      ⟨1, 1 / 4 * Real.log 5 + 1 / 4 * Real.log (5 / 2) + 1 / 4 * Real.log (5 / 3)
        + 1 / 4 * Real.log (5 / 4), 2⟩ = false :=
    FindTopDocuments.comp_of_le _ _ (by simp only; linarith) (le_refl _)
  have c31 : FindTopDocuments.comp
      (⟨3, 1 / 4 * Real.log (5 / 3) + 1 / 4 * Real.log (5 / 4), 2⟩ : Document ℝ)
      ⟨1, 1 / 4 * Real.log 5 + 1 / 4 * Real.log (5 / 2) + 1 / 4 * Real.log (5 / 3)
        + 1 / 4 * Real.log (5 / 4), 2⟩ = false :=
    FindTopDocuments.comp_of_le _ _ (by simp only; linarith) (le_refl _)
  have c32 : FindTopDocuments.comp
      (⟨3, 1 / 4 * Real.log (5 / 3) + 1 / 4 * Real.log (5 / 4), 2⟩ : Document ℝ)
      ⟨2, 1 / 4 * Real.log (5 / 2) + 1 / 4 * Real.log (5 / 3) + 1 / 4 * Real.log (5 / 4), 2⟩
        = false :=
    FindTopDocuments.comp_of_le _ _ (by simp only; linarith) (le_refl _)
  have c41 : FindTopDocuments.comp
      (⟨4, 1 / 4 * Real.log (5 / 4), 2⟩ : Document ℝ)
      ⟨1, 1 / 4 * Real.log 5 + 1 / 4 * Real.log (5 / 2) + 1 / 4 * Real.log (5 / 3)
        + 1 / 4 * Real.log (5 / 4), 2⟩ = false :=
    FindTopDocuments.comp_of_le _ _ (by simp only; linarith) (le_refl _)
  have c43 : FindTopDocuments.comp
      (⟨4, 1 / 4 * Real.log (5 / 4), 2⟩ : Document ℝ)
      ⟨3, 1 / 4 * Real.log (5 / 3) + 1 / 4 * Real.log (5 / 4), 2⟩ = false :=
    FindTopDocuments.comp_of_le _ _ (by simp only; linarith) (le_refl _)
  rw [FindTopDocumentsDefault, FindTopDocuments_eq, hall]
  simp only [Except.map, stdSort, List.foldl, stdSort.step, stdSort.linearInsert, c21, c31,
    c32, c41, c43, List.reverse_cons, List.reverse_nil, List.nil_append, List.cons_append,
    Bool.false_eq_true, if_false, MAX_RESULT_DOCUMENT_COUNT]
  rfl

theorem log_five_fourths_bounds :
    (0.22314352 : ℝ) < Real.log (5 / 4) ∧ Real.log (5 / 4) < 0.22314358 := by
  have t : |(5⁻¹ : ℝ)| = 5⁻¹ := by rw [abs_of_pos]; norm_num
  have z := Real.abs_log_sub_add_sum_range_le (show |(5⁻¹ : ℝ)| < 1 by rw [t]; norm_num) 10
  rw [t] at z
  have hlog : Real.log (1 - 5⁻¹) = - Real.log (5 / 4) := by
    rw [← Real.log_inv]
    congr 1
    norm_num
  rw [hlog, abs_le] at z
  simp only [Finset.sum_range_succ, Finset.sum_range_zero] at z
  norm_num at z
  constructor <;> linarith [z.1, z.2]

theorem log_three_halves_bounds :
    (0.4054649 : ℝ) < Real.log (3 / 2) ∧ Real.log (3 / 2) < 0.4054653 := by
  have t : |(3⁻¹ : ℝ)| = 3⁻¹ := by rw [abs_of_pos]; norm_num
  have z := Real.abs_log_sub_add_sum_range_le (show |(3⁻¹ : ℝ)| < 1 by rw [t]; norm_num) 14
  rw [t] at z
  have hlog : Real.log (1 - 3⁻¹) = - Real.log (3 / 2) := by
    rw [← Real.log_inv]
    congr 1
    norm_num
  rw [hlog, abs_le] at z
  simp only [Finset.sum_range_succ, Finset.sum_range_zero] at z
  norm_num at z
  constructor <;> linarith [z.1, z.2]

theorem top_relevance_bounds :
    |1 / 4 * Real.log 5 + 1 / 4 * Real.log (5 / 2) + 1 / 4 * Real.log (5 / 3)
        + 1 / 4 * Real.log (5 / 4) - 0.8149244548| < (1 / 1000000 : ℝ) := by
  obtain ⟨a1, a2⟩ := log_five_fourths_bounds
  obtain ⟨b1, b2⟩ := log_three_halves_bounds
  have hlo : (0.6931471803 : ℝ) < Real.log 2 := Real.log_two_gt_d9
  have hhi : Real.log 2 < (0.6931471808 : ℝ) := Real.log_two_lt_d9
  have h5 : Real.log 5 = Real.log 2 + Real.log 2 + Real.log (5 / 4) := by
    rw [← Real.log_mul (by norm_num) (by norm_num), ← Real.log_mul (by norm_num) (by norm_num)]
    congr 1
    norm_num
  have h52 : Real.log (5 / 2) = Real.log 2 + Real.log (5 / 4) := by
    rw [← Real.log_mul (by norm_num) (by norm_num)]
    congr 1
    norm_num
  have h53 : Real.log (5 / 3) + Real.log (3 / 2) = Real.log 2 + Real.log (5 / 4) := by
    rw [← Real.log_mul (by norm_num) (by norm_num), ← Real.log_mul (by norm_num) (by norm_num)]
    congr 1
    norm_num
  rw [abs_lt]
  constructor <;> linarith

/-- C14. With the stop words `in the` and the five documents of the tests, all `ACTUAL`
with the ratings `1, 2, 3`, the result of `FindTopDocuments("cat city play match")` is not
empty; its first document is the document 1, with the relevance
`ln 5 / 4 + ln (5/2) / 4 + ln (5/3) / 4 + ln (5/4) / 4` over the real numbers, which is
within `1e-6` of `0.8149244548`. -/
theorem FindTopDocuments_top_relevance :
    ∃ top rest,
      FindTopDocumentsDefault Real.log (fiveDocuments ℝ) "cat city play match".toList
        = .ok (top :: rest) ∧
      top.id = 1 ∧
      top.relevance = 1 / 4 * Real.log 5 + 1 / 4 * Real.log (5 / 2) + 1 / 4 * Real.log (5 / 3)
        + 1 / 4 * Real.log (5 / 4) ∧
      |top.relevance - 0.8149244548| < (1 / 1000000 : ℝ) :=
  ⟨_, _, FindTopDocuments_fiveDocuments, rfl, rfl, top_relevance_bounds⟩

/-- C13, an instance: the document 4 of the five documents of the tests, returned for the
query `cat city play match` with the relevance `ln (5/4) / 4`. -/
theorem FindTopDocuments_relevance_witness :
    (1 / 4 * Real.log (5 / 4) : ℝ)
      = (((ParseQuery (fiveDocuments ℝ) "cat city play match".toList).plus_words.filter
          (fun t => Posted (fiveDocuments ℝ) t 4)).map
          (fun t => termFreq (fiveDocuments ℝ) t 4 *
            Real.log ((GetDocumentCount (fiveDocuments ℝ) : ℝ) /
              (docFreq (fiveDocuments ℝ) t : ℝ)))).sum :=
  FindTopDocuments_relevance Real.log
    [.SetStopWords "in the".toList,
     .AddDocument 1 "cat in the city play match".toList .ACTUAL [1, 2, 3],
     .AddDocument 2 "cat1 in the city play match".toList .ACTUAL [1, 2, 3],
     .AddDocument 3 "cat1 in the city2 play match".toList .ACTUAL [1, 2, 3],
     .AddDocument 4 "cat1 in the city2 play3 match".toList .ACTUAL [1, 2, 3],
     .AddDocument 5 "cat1 in the city2 play3 match4".toList .ACTUAL [1, 2, 3]]
    "cat city play match".toList
    (.predicate (fun _ status _ => decide (status = DocumentStatus.ACTUAL))) _
    FindTopDocuments_fiveDocuments ⟨4, 1 / 4 * Real.log (5 / 4), 2⟩ (by simp)

/-! ## The average rating -/

theorem wrap32_spec (n : Int) :
    -2147483648 ≤ wrap32 n ∧ wrap32 n ≤ 2147483647 ∧ ∃ k : Int, wrap32 n = n + k * 4294967296 := by
  unfold wrap32
  refine ⟨by omega, by omega, ⟨-((n + 2147483648) / 4294967296), ?_⟩⟩
  have := Int.emod_add_ediv (n + 2147483648) 4294967296
  linarith

theorem ComputeAverageRating.foldl_wrap32 (ratings : List Int) (acc : Int) :
    ∃ k : Int, ratings.foldl (fun acc rating => wrap32 (acc + rating)) acc
      = acc + ratings.sum + k * 4294967296 := by
  induction ratings generalizing acc with
  | nil => exact ⟨0, by simp⟩
  | cons a t ih =>
    obtain ⟨k1, hk1⟩ := ih (wrap32 (acc + a))
    obtain ⟨_, _, k2, hk2⟩ := wrap32_spec (acc + a)
    refine ⟨k1 + k2, ?_⟩
    rw [List.foldl_cons, hk1, hk2, List.sum_cons]
    ring

theorem ComputeAverageRating.foldl_range (ratings : List Int) (acc : Int)
    (h : -2147483648 ≤ acc ∧ acc ≤ 2147483647) :
    -2147483648 ≤ ratings.foldl (fun acc rating => wrap32 (acc + rating)) acc ∧
      ratings.foldl (fun acc rating => wrap32 (acc + rating)) acc ≤ 2147483647 := by
  induction ratings generalizing acc with
  | nil => exact h
  | cons a t ih =>
    rw [List.foldl_cons]
    exact ih _ ⟨(wrap32_spec (acc + a)).1, (wrap32_spec (acc + a)).2.1⟩

theorem ComputeAverageRating_eq (ratings : List Int) (hr : ratings ≠ [])
    (hsum : -2147483648 ≤ ratings.sum ∧ ratings.sum ≤ 2147483647) :
    ComputeAverageRating ratings = .ok (Int.tdiv ratings.sum (ratings.length : Int)) := by
  unfold ComputeAverageRating
  have hlen : ¬ ((ratings.length : Int) = 0) := by
    have := List.length_pos.mpr hr
    omega
  obtain ⟨k, hk⟩ := ComputeAverageRating.foldl_wrap32 ratings 0
  obtain ⟨h1, h2⟩ := ComputeAverageRating.foldl_range ratings 0 (by omega)
  have hfold : ratings.foldl (fun acc rating => wrap32 (acc + rating)) 0 = ratings.sum := by
    rw [hk] at h1 h2 ⊢
    have hk0 : k = 0 := by omega
    rw [hk0]
    ring
  simp only [hlen, if_false, hfold]

theorem run_documents_find {R : Type} [LinearOrderedField R] (calls : List Call)
    (s : SearchServer R) (document_id : Int) (data : DocumentData)
    (h : StdMap.find s.documents_ document_id = some data) :
    StdMap.find (run s calls).state.documents_ document_id = some data := by
  induction calls generalizing s with
  | nil => exact h
  | cons call rest ih =>
    have hstep : StdMap.find (call.apply s).state.documents_ document_id = some data := by
      cases call with
      | SetStopWords text => exact h
      | AddDocument id document status ratings =>
        obtain ⟨_, hok, hfault⟩ := AddDocument_fault s id document status ratings
        simp only [Call.apply]
        cases hf : (AddDocument s id document status ratings).fault with
        | some f => rw [hfault (by simp [hf])]; exact h
        | none =>
          obtain ⟨rating, _, hdocs⟩ := hok hf
          rw [hdocs, StdMap.find_emplace]
          by_cases hid : document_id = id
          · subst hid
            simp [h]
          · rw [if_neg hid]
            exact h
    simp only [run]
    cases (call.apply s).fault with
    | some f => exact hstep
    | none => exact ih _ hstep

/-- C15. For a non-empty `ratings` whose sum fits in a 32-bit `int`, `AddDocument` with an
id that is not stored yet stores the quotient of the sum by the number of ratings,
truncated towards zero, as the rating of the document; after that call and any further
calls, every document with that id in a result of `FindTopDocuments` carries this rating.
For the ratings `1, 2, 3` the rating is 2, and for `-1, -2, -4` it is -2. -/
theorem AddDocument_stores_average {R : Type} [LinearOrderedField R] (s : SearchServer R)
    (document_id : Int) (document : Str) (status : DocumentStatus) (ratings : List Int)
    (hr : ratings ≠ [])
    (hsum : -2147483648 ≤ ratings.sum ∧ ratings.sum ≤ 2147483647)
    (hfresh : StdMap.find s.documents_ document_id = none) :
    (AddDocument s document_id document status ratings).fault = none ∧
    StdMap.find (AddDocument s document_id document status ratings).state.documents_ document_id
      = some ⟨Int.tdiv ratings.sum (ratings.length : Int), status⟩ ∧
    (∀ (log : R → R) (calls : List Call) (raw_query : Str) (p : DocumentPredicate)
      (r : List (Document R)),
      FindTopDocuments log
        (run (AddDocument s document_id document status ratings).state calls).state
        raw_query p = .ok r →
      ∀ d ∈ r, d.id = document_id → d.rating = Int.tdiv ratings.sum (ratings.length : Int)) ∧
    ComputeAverageRating [1, 2, 3] = .ok 2 ∧ ComputeAverageRating [-1, -2, -4] = .ok (-2) := by
  have havg := ComputeAverageRating_eq ratings hr hsum
  have hstored : StdMap.find
      (AddDocument s document_id document status ratings).state.documents_ document_id
        = some ⟨Int.tdiv ratings.sum (ratings.length : Int), status⟩ := by
    simp only [AddDocument, havg, StdMap.find_emplace, hfresh, if_true, Option.getD_none]
  refine ⟨by simp only [AddDocument, havg], hstored, ?_, by rfl, by rfl⟩
  intro log calls raw_query p r h d hd hid
  obtain ⟨all, hall, hsub⟩ := FindTopDocuments_subset log _ raw_query p r h
  obtain ⟨⟨data, hdata, _, hrating⟩, _⟩ := FindAllDocuments_sound log _ _ p all hall d (hsub d hd)
  rw [hid, run_documents_find calls _ document_id _ hstored] at hdata
  simp only [Option.some.injEq] at hdata
  rw [hrating, ← hdata]

/-- C15, an instance: the ratings `-1, -2, -4` of a first document give the rating -2. -/
theorem AddDocument_stores_average_witness :
    StdMap.find (AddDocument (SearchServer.empty : SearchServer ℚ) 1 "cat".toList
        DocumentStatus.ACTUAL [-1, -2, -4]).state.documents_ 1
      = some ⟨-2, DocumentStatus.ACTUAL⟩ :=
  (AddDocument_stores_average (SearchServer.empty : SearchServer ℚ) 1 "cat".toList
    DocumentStatus.ACTUAL [-1, -2, -4] (by decide) (by decide) (by rfl)).2.1

/-! ## The invariants of the reachable states -/

theorem StdMap.subscript_ne_nil {K V : Type} [LinearOrder K] (m : List (K × V)) (k : K)
    (dflt : V) (f : V → V) : StdMap.subscript m k dflt f ≠ [] := by
  intro h
  have := StdMap.find_subscript m k k dflt f
  rw [h] at this
  simp [StdMap.find] at this

theorem AddDocument.foldl_addFreq_entries {R : Type} [LinearOrderedField R] (document_id : Int)
    (inv : R) (P : Int → Prop) (hP : P document_id) (words : List Str)
    (freqs : List (Str × List (Int × R)))
    (h : ∀ entry ∈ freqs, entry.2 ≠ [] ∧ ∀ e ∈ entry.2, P e.1) :
    ∀ entry ∈ words.foldl (AddDocument.addFreq document_id inv) freqs,
      entry.2 ≠ [] ∧ ∀ e ∈ entry.2, P e.1 := by
  induction words generalizing freqs with
  | nil => exact h
  | cons a t ih =>
    apply ih
    intro entry hentry
    rcases AddDocument.mem_addFreq document_id inv freqs a entry hentry with
      h1 | ⟨postings, hp, rfl⟩
    · exact h entry h1
    · refine ⟨StdMap.subscript_ne_nil _ _ _ _, ?_⟩
      intro e he
      rcases StdMap.mem_subscript postings document_id 0 _ e he with h2 | ⟨v, _, rfl⟩
      · rcases hp with hp | rfl
        · exact (h _ hp).2 e h2
        · simp at h2
      · exact hP

theorem AddDocument_consistent {R : Type} [LinearOrderedField R] (s : SearchServer R)
    (document_id : Int) (document : Str) (status : DocumentStatus) (ratings : List Int)
    (hr : ratings ≠ []) (hs : s.Consistent ∧ s.PostingsNonempty) :
    (AddDocument s document_id document status ratings).fault = none ∧
    (AddDocument s document_id document status ratings).state.Consistent ∧
    (AddDocument s document_id document status ratings).state.PostingsNonempty := by
  obtain ⟨hiff, hok, _⟩ := AddDocument_fault s document_id document status ratings
  have hf := hiff.mpr hr
  obtain ⟨rating, _, hdocs⟩ := hok hf
  have hentries := AddDocument.foldl_addFreq_entries document_id
    (1 / ((SplitIntoWordsNoStop s document).length : R))
    (fun k => (StdMap.find (StdMap.emplace s.documents_ document_id
      (⟨rating, status⟩ : DocumentData)) k).isSome = true)
    (by simp [StdMap.find_emplace]) (SplitIntoWordsNoStop s document) s.word_to_document_freqs_
    (by
      intro entry hentry
      refine ⟨hs.2 entry hentry, fun e he => ?_⟩
      have := hs.1 entry hentry e he
      obtain ⟨data, hdata⟩ := Option.isSome_iff_exists.mp this
      show (StdMap.find (StdMap.emplace s.documents_ document_id
        (⟨rating, status⟩ : DocumentData)) e.1).isSome = true
      rw [StdMap.find_emplace]
      by_cases hk : e.1 = document_id
      · simp [hk]
      · simp [hk, hdata])
  refine ⟨hf, ?_, ?_⟩
  · intro entry hentry e he
    rw [AddDocument_word_to_document_freqs] at hentry
    rw [hdocs]
    exact (hentries entry hentry).2 e he
  · intro entry hentry
    rw [AddDocument_word_to_document_freqs] at hentry
    exact (hentries entry hentry).1

theorem run_consistent {R : Type} [LinearOrderedField R] (calls : List Call)
    (hcalls : ∀ call ∈ calls, call.ratingsNonempty = true) (s : SearchServer R)
    (hs : s.Consistent ∧ s.PostingsNonempty) :
    (run s calls).fault = none ∧ (run s calls).state.Consistent ∧
      (run s calls).state.PostingsNonempty := by
  induction calls generalizing s with
  | nil => exact ⟨rfl, hs⟩
  | cons call rest ih =>
    have hrest : ∀ c ∈ rest, c.ratingsNonempty = true :=
      fun c hc => hcalls c (List.mem_cons_of_mem _ hc)
    have hstep : (call.apply s).fault = none ∧ (call.apply s).state.Consistent ∧
        (call.apply s).state.PostingsNonempty := by
      have hcall := hcalls call (List.mem_cons_self _ _)
      cases call with
      | SetStopWords text => exact ⟨rfl, hs⟩
      | AddDocument document_id document status ratings =>
        apply AddDocument_consistent s document_id document status ratings _ hs
        intro hnil
        subst hnil
        simp [Call.ratingsNonempty] at hcall
    simp only [run, hstep.1]
    exact ih hrest _ hstep.2

theorem empty_consistent {R : Type} :
    (SearchServer.empty : SearchServer R).Consistent ∧
      (SearchServer.empty : SearchServer R).PostingsNonempty := by
  constructor
  · intro entry hentry
    simp [SearchServer.empty] at hentry
  · intro entry hentry
    simp [SearchServer.empty] at hentry

/-- C18. In every state reached from the empty engine by `SetStopWords` calls and
`AddDocument` calls with ratings that are not empty, every call has returned normally,
every document id in a posting list of the inverted index is a key of the document store,
and every key of the inverted index has a posting list that is not empty. Hence
`FindTopDocuments` returns a result for every query and filter (no `documents_.at` throws),
and the document frequency by which the idf divides is never zero. -/
theorem reachable_consistent {R : Type} [LinearOrderedField R] (calls : List Call)
    (hcalls : ∀ call ∈ calls, call.ratingsNonempty = true) :
    (run (SearchServer.empty : SearchServer R) calls).fault = none ∧
    (run (SearchServer.empty : SearchServer R) calls).state.Consistent ∧
    (run (SearchServer.empty : SearchServer R) calls).state.PostingsNonempty ∧
    (∀ (log : R → R) (raw_query : Str) (p : DocumentPredicate),
      ∃ r, FindTopDocuments log (run (SearchServer.empty : SearchServer R) calls).state
        raw_query p = .ok r) ∧
    (∀ word postings,
      StdMap.find (run (SearchServer.empty : SearchServer R) calls).state.word_to_document_freqs_
        word = some postings → 0 < postings.length) := by
  obtain ⟨hf, hc, hne⟩ := run_consistent calls hcalls (SearchServer.empty : SearchServer R)
    empty_consistent
  refine ⟨hf, hc, hne, fun log raw_query p => FindTopDocuments_ok log _ raw_query p hc, ?_⟩
  intro word postings hfind
  exact List.length_pos.mpr (hne _ (StdMap.mem_of_find _ _ _ hfind))

/-- C18, an instance: the five documents of the tests and the query that the tests use,
with the status `BANNED` as the filter. -/
theorem reachable_consistent_witness :
    ∃ r, FindTopDocuments Real.log (fiveDocuments ℝ) "cat city play match".toList
      (.status DocumentStatus.BANNED) = .ok r :=
  (reachable_consistent
    [.SetStopWords "in the".toList,
     .AddDocument 1 "cat in the city play match".toList .ACTUAL [1, 2, 3],
     .AddDocument 2 "cat1 in the city play match".toList .ACTUAL [1, 2, 3],
     .AddDocument 3 "cat1 in the city2 play match".toList .ACTUAL [1, 2, 3],
     .AddDocument 4 "cat1 in the city2 play3 match".toList .ACTUAL [1, 2, 3],
     .AddDocument 5 "cat1 in the city2 play3 match4".toList .ACTUAL [1, 2, 3]]
    (by decide)).2.2.2.1 Real.log "cat city play match".toList (.status DocumentStatus.BANNED)

/-! ## The term frequencies -/

theorem AddDocument_posting {R : Type} [LinearOrderedField R] (s : SearchServer R)
    (document_id : Int) (document : Str) (status : DocumentStatus) (ratings : List Int)
    (w : Str) (d : Int) :
    posting (AddDocument s document_id document status ratings).state.word_to_document_freqs_ w d
      = if d = document_id ∧ w ∈ SplitIntoWordsNoStop s document then
          some ((posting s.word_to_document_freqs_ w document_id).getD 0 +
            ((SplitIntoWordsNoStop s document).count w : R) *
              (1 / ((SplitIntoWordsNoStop s document).length : R)))
        else posting s.word_to_document_freqs_ w d := by
  rw [AddDocument_word_to_document_freqs, posting_foldl_addFreq]

theorem posting_of_mem {R : Type} (freqs : List (Str × List (Int × R)))
    (hkeys : (freqs.map Prod.fst).Nodup ∧ ∀ entry ∈ freqs, (entry.2.map Prod.fst).Nodup)
    (entry : Str × List (Int × R)) (hentry : entry ∈ freqs) (e : Int × R) (he : e ∈ entry.2) :
    posting freqs entry.1 e.1 = some e.2 := by
  unfold posting
  rw [StdMap.find_of_mem_nodup freqs entry.1 entry.2 hkeys.1 hentry]
  exact StdMap.find_of_mem_nodup entry.2 e.1 e.2 (hkeys.2 entry hentry) he

theorem mem_of_posting {R : Type} (freqs : List (Str × List (Int × R))) (w : Str) (d : Int)
    (v : R) (h : posting freqs w d = some v) :
    ∃ postings, (w, postings) ∈ freqs ∧ (d, v) ∈ postings := by
  unfold posting at h
  cases hw : StdMap.find freqs w with
  | none => simp [hw] at h
  | some postings =>
    simp only [hw, Option.some_bind] at h
    exact ⟨postings, StdMap.mem_of_find _ _ _ hw, StdMap.mem_of_find _ _ _ h⟩

theorem AddDocument_posting_pos {R : Type} [LinearOrderedField R] (s : SearchServer R)
    (document_id : Int) (document : Str) (status : DocumentStatus) (ratings : List Int)
    (h : ∀ w d v, posting s.word_to_document_freqs_ w d = some v → 0 < v) :
    ∀ w d v,
      posting (AddDocument s document_id document status ratings).state.word_to_document_freqs_
        w d = some v → 0 < v := by
  intro w d v hv
  rw [AddDocument_posting] at hv
  split at hv
  · rename_i hcond
    simp only [Option.some.injEq] at hv
    have hlen : (0 : R) < ((SplitIntoWordsNoStop s document).length : R) := by
      exact_mod_cast List.length_pos_of_mem hcond.2
    have hcnt : (0 : R) < ((SplitIntoWordsNoStop s document).count w : R) := by
      exact_mod_cast List.count_pos_iff.mpr hcond.2
    have hadd := mul_pos hcnt (one_div_pos.mpr hlen)
    have hold : (0 : R) ≤ (posting s.word_to_document_freqs_ w document_id).getD 0 := by
      cases ho : posting s.word_to_document_freqs_ w document_id with
      | none => simp
      | some o => exact le_of_lt (h w document_id o ho)
    linarith
  · exact h w d v hv

theorem AddDocument_posting_le_one {R : Type} [LinearOrderedField R] (s : SearchServer R)
    (document_id : Int) (document : Str) (status : DocumentStatus) (ratings : List Int)
    (hfresh : ∀ w, posting s.word_to_document_freqs_ w document_id = none)
    (h : ∀ w d v, posting s.word_to_document_freqs_ w d = some v → v ≤ 1) :
    ∀ w d v,
      posting (AddDocument s document_id document status ratings).state.word_to_document_freqs_
        w d = some v → v ≤ 1 := by
  intro w d v hv
  rw [AddDocument_posting] at hv
  split at hv
  · rename_i hcond
    simp only [hfresh w, Option.getD_none, zero_add, Option.some.injEq] at hv
    have hlen : (0 : R) < ((SplitIntoWordsNoStop s document).length : R) := by
      exact_mod_cast List.length_pos_of_mem hcond.2
    have hcnt : ((SplitIntoWordsNoStop s document).count w : R)
        ≤ ((SplitIntoWordsNoStop s document).length : R) := by
      exact_mod_cast List.count_le_length w (SplitIntoWordsNoStop s document)
    rw [← hv, mul_one_div, div_le_one hlen]
    exact hcnt
  · exact h w d v hv

theorem posting_none_of_not_stored {R : Type} (s : SearchServer R) (hc : s.Consistent)
    (document_id : Int) (hid : StdMap.find s.documents_ document_id = none) (w : Str) :
    posting s.word_to_document_freqs_ w document_id = none := by
  cases hp : posting s.word_to_document_freqs_ w document_id with
  | none => rfl
  | some v =>
    exfalso
    obtain ⟨postings, h1, h2⟩ := mem_of_posting _ _ _ _ hp
    have := hc _ h1 _ h2
    simp [hid] at this

theorem run_posting_pos {R : Type} [LinearOrderedField R] (calls : List Call)
    (s : SearchServer R) (h : ∀ w d v, posting s.word_to_document_freqs_ w d = some v → 0 < v) :
    ∀ w d v, posting (run s calls).state.word_to_document_freqs_ w d = some v → 0 < v := by
  induction calls generalizing s with
  | nil => exact h
  | cons call rest ih =>
    have hstep : ∀ w d v,
        posting (call.apply s).state.word_to_document_freqs_ w d = some v → 0 < v := by
      cases call with
      | SetStopWords text => exact h
      | AddDocument document_id document status ratings =>
        exact AddDocument_posting_pos s document_id document status ratings h
    simp only [run]
    cases (call.apply s).fault with
    | some f => exact hstep
    | none => exact ih _ hstep

theorem run_posting_le_one {R : Type} [LinearOrderedField R] (calls : List Call)
    (s : SearchServer R) (hs : s.Consistent ∧ s.PostingsNonempty)
    (hids : (addedIds calls).Nodup)
    (hfresh : ∀ id ∈ addedIds calls, StdMap.find s.documents_ id = none)
    (h : ∀ w d v, posting s.word_to_document_freqs_ w d = some v → v ≤ 1) :
    ∀ w d v, posting (run s calls).state.word_to_document_freqs_ w d = some v → v ≤ 1 := by
  induction calls generalizing s with
  | nil => exact h
  | cons call rest ih =>
    cases call with
    | SetStopWords text =>
      simp only [run, Call.apply]
      exact ih (SetStopWords s text) hs hids hfresh h
    | AddDocument document_id document status ratings =>
      simp only [addedIds, List.nodup_cons, List.mem_cons, forall_eq_or_imp] at hids hfresh
      have hstep := AddDocument_posting_le_one s document_id document status ratings
        (posting_none_of_not_stored s hs.1 document_id hfresh.1) h
      obtain ⟨hiff, hok, _⟩ := AddDocument_fault s document_id document status ratings
      simp only [run, Call.apply]
      cases hf : (AddDocument s document_id document status ratings).fault with
      | some f => exact hstep
      | none =>
        simp only
        obtain ⟨hf', hc, hne⟩ := AddDocument_consistent s document_id document status ratings
          (hiff.mp hf) hs
        obtain ⟨rating, _, hdocs⟩ := hok hf
        refine ih _ ⟨hc, hne⟩ hids.2 ?_ hstep
        intro id hid
        rw [hdocs, StdMap.find_emplace]
        have hne' : ¬ id = document_id := by
          rintro rfl
          exact hids.1 hid
        rw [if_neg hne']
        exact hfresh.2 id hid

/-- C16 (as amended). In every state reached from the empty engine by `SetStopWords` and
`AddDocument` calls, every term frequency stored in the inverted index is strictly greater
than 0; it is at most 1 when no document id is used by two of the `AddDocument` calls. -/
theorem term_frequency_bounds {R : Type} [LinearOrderedField R] (calls : List Call) :
    (∀ entry ∈ (run (SearchServer.empty : SearchServer R) calls).state.word_to_document_freqs_,
      ∀ e ∈ entry.2, 0 < e.2) ∧
    ((addedIds calls).Nodup →
      ∀ entry ∈ (run (SearchServer.empty : SearchServer R) calls).state.word_to_document_freqs_,
        ∀ e ∈ entry.2, e.2 ≤ 1) := by
  have hkeys := run_distinctKeys calls (SearchServer.empty : SearchServer R) empty_distinctKeys
  have hempty : ∀ (w : Str) (d : Int) (v : R),
      posting (SearchServer.empty : SearchServer R).word_to_document_freqs_ w d = some v →
        False := by
    intro w d v h
    simp [posting, SearchServer.empty, StdMap.find] at h
  constructor
  · intro entry hentry e he
    exact run_posting_pos calls _ (fun w d v h => (hempty w d v h).elim) entry.1 e.1 e.2
      (posting_of_mem _ hkeys entry hentry e he)
  · intro hids entry hentry e he
    exact run_posting_le_one calls _ empty_consistent hids
      (fun id _ => by simp [SearchServer.empty, StdMap.find])
      (fun w d v h => (hempty w d v h).elim) entry.1 e.1 e.2
      (posting_of_mem _ hkeys entry hentry e he)

/-- C16, an instance: the five documents of the tests have five different ids. -/
theorem term_frequency_bounds_witness :
    ∀ entry ∈ (fiveDocuments ℚ).word_to_document_freqs_, ∀ e ∈ entry.2, e.2 ≤ 1 :=
  (term_frequency_bounds
    [.SetStopWords "in the".toList,
     .AddDocument 1 "cat in the city play match".toList .ACTUAL [1, 2, 3],
     .AddDocument 2 "cat1 in the city play match".toList .ACTUAL [1, 2, 3],
     .AddDocument 3 "cat1 in the city2 play match".toList .ACTUAL [1, 2, 3],
     .AddDocument 4 "cat1 in the city2 play3 match".toList .ACTUAL [1, 2, 3],
     .AddDocument 5 "cat1 in the city2 play3 match4".toList .ACTUAL [1, 2, 3]]).2 (by decide)

/-- C16 (the claim fails). After `AddDocument(1, "cat", ACTUAL, {1, 2, 3})` twice on the
empty engine, the frequency stored for `cat` in document 1 is 2, which is greater than 1. -/
theorem term_frequency_counterexample :
    (run (SearchServer.empty : SearchServer ℚ)
      [.AddDocument 1 "cat".toList .ACTUAL [1, 2, 3],
       .AddDocument 1 "cat".toList .ACTUAL [1, 2, 3]]).state.word_to_document_freqs_
      = [("cat".toList, [(1, 2)])] ∧ ¬ ((2 : ℚ) ≤ 1) := by
  have hr : ComputeAverageRating [1, 2, 3] = .ok 2 := by rfl
  constructor
  · simp [run, Call.apply, AddDocument, hr, SplitIntoWordsNoStop, SplitIntoWords,
      SplitIntoWords.loop, IsStopWord, SearchServer.empty, AddDocument.addFreq,
      StdMap.subscript, StdMap.emplace, StdMap.find, StdMap.insertNew, StdMap.modify]
    norm_num
  · norm_num

theorem sum_map_count_dedup {α : Type} [DecidableEq α] [inst : BEq α] [LawfulBEq α]
    (l : List α) : (l.dedup.map (fun x => l.count x)).sum = l.length := by
  have hcount : ∀ x, @List.count α inst x l = @List.count α instBEqOfDecidableEq x l := by
    intro x
    unfold List.count
    congr 1
    funext y
    rw [Bool.eq_iff_iff]
    simp
  simp only [hcount]
  exact List.sum_map_count_dedup_eq_length l

theorem sum_map_count_div {R : Type} [LinearOrderedField R] (words l : List Str) (c : R) :
    (l.map (fun w => (words.count w : R) / c)).sum
      = ((l.map (fun w => words.count w)).sum : ℕ) / c := by
  induction l with
  | nil => simp
  | cons a t ih =>
    simp only [List.map_cons, List.sum_cons, ih, Nat.cast_add]
    rw [add_div]

/-- The rounding on known values of `double`: `1.0`; the ties `2 ^ 53 + 1` and
`2 ^ 53 + 3`, which go to the even mantissa; and nine additions of `1.0 / 9`, which give
`1.0000000000000002`. -/
theorem Binary64.round_known_values :
    Binary64.ofNat 1 = .finite 4503599627370496 (-52) ∧
    Binary64.ofNat 9007199254740993 = .finite 4503599627370496 1 ∧
    Binary64.ofNat 9007199254740995 = .finite 4503599627370498 1 ∧
    (List.replicate 9 (Binary64.div (Binary64.ofNat 1) (Binary64.ofNat 9))).foldl Binary64.add
        Binary64.zero
      = .finite 4503599627370497 (-52) := by
  refine ⟨by decide, by decide, by decide, by decide⟩

/-- C17 (as amended). Take the frequencies as exact numbers: the quotient and the additions
of `AddDocument` are those of a field, without the rounding of `double`. Let `id` be posted
nowhere in the index and let the text have at least one word outside the stop words. After
`AddDocument(id, text, status, ratings)`, for each such word `w` of the text the frequency
`index[w][id]` is the number of occurrences of `w` among these words divided by their
number; `id` is posted under no other word; the postings of every other id are as before;
and the frequencies of `id` over the distinct words of the text sum to 1. -/
theorem AddDocument_term_frequencies {R : Type} [LinearOrderedField R] (s : SearchServer R)
    (document_id : Int) (document : Str) (status : DocumentStatus) (ratings : List Int)
    (hfresh : ∀ w, posting s.word_to_document_freqs_ w document_id = none)
    (hwords : SplitIntoWordsNoStop s document ≠ []) :
    (∀ w ∈ SplitIntoWordsNoStop s document,
      posting (AddDocument s document_id document status ratings).state.word_to_document_freqs_
          w document_id
        = some (((SplitIntoWordsNoStop s document).count w : R) /
            ((SplitIntoWordsNoStop s document).length : R))) ∧
    (∀ w, w ∉ SplitIntoWordsNoStop s document →
      posting (AddDocument s document_id document status ratings).state.word_to_document_freqs_
          w document_id = none) ∧
    (∀ w d, d ≠ document_id →
      posting (AddDocument s document_id document status ratings).state.word_to_document_freqs_
          w d = posting s.word_to_document_freqs_ w d) ∧
    (((SplitIntoWordsNoStop s document).dedup.map (fun w =>
      (posting (AddDocument s document_id document status ratings).state.word_to_document_freqs_
          w document_id).getD 0)).sum = 1) := by
  have hin : ∀ w ∈ SplitIntoWordsNoStop s document,
      posting (AddDocument s document_id document status ratings).state.word_to_document_freqs_
          w document_id
        = some (((SplitIntoWordsNoStop s document).count w : R) /
            ((SplitIntoWordsNoStop s document).length : R)) := by
    intro w hw
    rw [AddDocument_posting, if_pos ⟨rfl, hw⟩, hfresh w]
    simp only [Option.getD_none, zero_add, mul_one_div]
  refine ⟨hin, ?_, ?_, ?_⟩
  · intro w hw
    rw [AddDocument_posting, if_neg (fun h => hw h.2)]
    exact hfresh w
  · intro w d hd
    rw [AddDocument_posting, if_neg (fun h => hd h.1)]
  · have hlen : ((SplitIntoWordsNoStop s document).length : R) ≠ 0 := by
      have := List.length_pos.mpr hwords
      exact_mod_cast (Nat.pos_iff_ne_zero.mp this)
    have hmap : (SplitIntoWordsNoStop s document).dedup.map (fun w =>
        (posting (AddDocument s document_id document status ratings).state.word_to_document_freqs_
          w document_id).getD 0)
        = (SplitIntoWordsNoStop s document).dedup.map (fun w =>
            ((SplitIntoWordsNoStop s document).count w : R) /
              ((SplitIntoWordsNoStop s document).length : R)) := by
      apply List.map_congr_left
      intro w hw
      rw [hin w (List.mem_dedup.mp hw)]
      rfl
    rw [hmap, sum_map_count_div, sum_map_count_dedup]
    exact div_self hlen

/-- C17, an instance: the document `cat cat cat dog dog` on the empty engine, with exact
frequencies; the frequency of `cat` is 3/5. -/
theorem AddDocument_term_frequencies_witness :
    posting (AddDocument (SearchServer.empty : SearchServer ℚ) 1 "cat cat cat dog dog".toList
        DocumentStatus.ACTUAL [1, 2, 3]).state.word_to_document_freqs_ "cat".toList 1
      = some (3 / 5) := by
  have h := (AddDocument_term_frequencies (SearchServer.empty : SearchServer ℚ) 1
    "cat cat cat dog dog".toList DocumentStatus.ACTUAL [1, 2, 3]
    (fun w => by simp [posting, SearchServer.empty, StdMap.find]) (by decide)).1
    "cat".toList (by decide)
  have hwords : SplitIntoWordsNoStop (SearchServer.empty : SearchServer ℚ)
        "cat cat cat dog dog".toList
      = ["cat".toList, "cat".toList, "cat".toList, "dog".toList, "dog".toList] := by decide
  have hcount : List.count "cat".toList
      ["cat".toList, "cat".toList, "cat".toList, "dog".toList, "dog".toList] = 3 := by
    decide
  rw [h, hwords, hcount]
  norm_num

/-- C17 (the claim fails). In the arithmetic of `double`, the call
`AddDocument(1, "cat cat cat dog dog", ACTUAL, {1, 2, 3})` on the empty engine, where the
id 1 is posted nowhere, finds five words, three of them `cat`. It computes `1.0 / 5` as
`7205759403792794 * 2 ^ -55` and adds it three times to `index[cat][1]`, which holds
`5404319552844596 * 2 ^ -53` afterwards (0.60000000000000009). That is not the number 3/5,
and it is not the `double` that dividing 3 by 5 gives either, which is
`5404319552844595 * 2 ^ -53`. -/
theorem AddDocument_term_frequencies_counterexample :
    SplitIntoWordsNoStop (SearchServer.empty : SearchServer Binary64)
        "cat cat cat dog dog".toList
      = ["cat".toList, "cat".toList, "cat".toList, "dog".toList, "dog".toList] ∧
    Binary64.div (Binary64.ofNat 1) (Binary64.ofNat 5) = .finite 7205759403792794 (-55) ∧
    posting (AddDocument.binary64 SearchServer.empty 1 "cat cat cat dog dog".toList
        DocumentStatus.ACTUAL [1, 2, 3]).state.word_to_document_freqs_ "cat".toList 1
      = some (.finite 5404319552844596 (-53)) ∧
    (Binary64.finite 5404319552844596 (-53)).value ≠ some (3 / 5) ∧
    Binary64.div (Binary64.ofNat 3) (Binary64.ofNat 5) = .finite 5404319552844595 (-53) := by
  refine ⟨by decide, by decide, by decide, ?_, by decide⟩
  simp only [Binary64.value, ne_eq, Option.some.injEq]
  norm_num

/-! ## Splitting a text into words -/

theorem intercalate_append_singleton (sep : Str) (l : List Str) (x : Str) (hl : l ≠ []) :
    List.intercalate sep (l ++ [x]) = List.intercalate sep l ++ sep ++ x := by
  induction l with
  | nil => exact absurd rfl hl
  | cons a t ih =>
    cases t with
    | nil => simp [List.intercalate]
    | cons b t' =>
      have h := ih (by simp)
      simp only [List.intercalate, List.cons_append, List.intersperse_cons₂,
        List.flatten_cons] at h ⊢
      rw [h]
      simp [List.append_assoc]

theorem intercalate_append_word (sep : Str) (l : List Str) (x y : Str) :
    List.intercalate sep (l ++ [x ++ y]) = List.intercalate sep (l ++ [x]) ++ y := by
  cases l with
  | nil => simp [List.intercalate]
  | cons a t =>
    rw [intercalate_append_singleton sep _ _ (by simp),
      intercalate_append_singleton sep _ _ (by simp)]
    simp only [List.append_assoc]

theorem SplitIntoWords.loop_spec (cs : List Char) (words : List Str) (word : Str) :
    (SplitIntoWords.loop cs words word).length = words.length + cs.count ' ' + 1 ∧
    List.intercalate [' '] (SplitIntoWords.loop cs words word)
      = List.intercalate [' '] (words ++ [word]) ++ cs ∧
    ((∀ t ∈ words, ' ' ∉ t) → ' ' ∉ word →
      ∀ t ∈ SplitIntoWords.loop cs words word, ' ' ∉ t) := by
  induction cs generalizing words word with
  | nil =>
    refine ⟨by simp [SplitIntoWords.loop], by simp [SplitIntoWords.loop], ?_⟩
    intro hwords hword t ht
    simp only [SplitIntoWords.loop, List.mem_append, List.mem_singleton] at ht
    rcases ht with ht | rfl
    · exact hwords t ht
    · exact hword
  | cons c rest ih =>
    by_cases hc : c = ' '
    · subst hc
      obtain ⟨h1, h2, h3⟩ := ih (words ++ [word]) []
      simp only [SplitIntoWords.loop, if_true]
      refine ⟨?_, ?_, ?_⟩
      · rw [h1]
        simp only [List.length_append, List.length_singleton, List.count_cons_self]
        omega
      · rw [h2, intercalate_append_singleton _ _ _ (by simp)]
        simp [List.append_assoc]
      · intro hwords hword
        apply h3
        · intro t ht
          rcases List.mem_append.mp ht with ht | ht
          · exact hwords t ht
          · rw [List.mem_singleton.mp ht]
            exact hword
        · simp
    · obtain ⟨h1, h2, h3⟩ := ih words (word ++ [c])
      simp only [SplitIntoWords.loop, if_neg hc]
      refine ⟨?_, ?_, ?_⟩
      · rw [h1, List.count_cons_of_ne (fun e => hc e.symm)]
      · rw [h2, intercalate_append_word]
        simp [List.append_assoc]
      · intro hwords hword
        apply h3 hwords
        intro hmem
        rcases List.mem_append.mp hmem with hmem | hmem
        · exact hword hmem
        · exact hc (List.mem_singleton.mp hmem).symm

/-- C19. `SplitIntoWords(text)` returns as many words as the text has spaces, plus one; no
word has a space; the words joined with one space between two neighbours are the text
again. So the empty text gives one empty word, and a space at the start, at the end or
after another space gives an empty word, as in ` a  b `. -/
theorem SplitIntoWords_spec (text : Str) :
    (SplitIntoWords text).length = text.count ' ' + 1 ∧
    (∀ t ∈ SplitIntoWords text, ' ' ∉ t) ∧
    List.intercalate [' '] (SplitIntoWords text) = text ∧
    SplitIntoWords [] = [[]] ∧
    SplitIntoWords " a  b ".toList = [[], "a".toList, [], "b".toList, []] := by
  obtain ⟨h1, h2, h3⟩ := SplitIntoWords.loop_spec text [] []
  refine ⟨?_, ?_, ?_, by rfl, by decide⟩
  · simpa [SplitIntoWords] using h1
  · exact h3 (by simp) (by simp)
  · simpa [SplitIntoWords, List.intercalate] using h2

/-! ## The plus words and the minus words -/

theorem ParseQueryWord_eq {R : Type} (s : SearchServer R) (t : Str) :
    (∀ rest, t = '-' :: rest →
      ParseQueryWord s t = ⟨rest, true, decide (rest ∈ s.stop_words_)⟩) ∧
    ((∀ rest, t ≠ '-' :: rest) → ParseQueryWord s t = ⟨t, false, decide (t ∈ s.stop_words_)⟩) := by
  constructor
  · rintro rest rfl
    simp [ParseQueryWord, IsStopWord]
  · intro h
    cases t with
    | nil => simp [ParseQueryWord, IsStopWord]
    | cons c cs =>
      have hc : c ≠ '-' := by
        rintro rfl
        exact h cs rfl
      simp [ParseQueryWord, IsStopWord, hc]

/-- C20. For every stop-word set and every query text (with or without a bare minus sign),
the plus words of the parsed query are the words of the text that do not begin with a
minus sign and are no stop words, and the minus words are the `w` such that `-w` is a word
of the text and `w` is no stop word: one minus sign is stripped, and the stop-word test is
made on the stripped word. Hence no plus word and no minus word is a stop word. -/
theorem ParseQuery_spec {R : Type} (s : SearchServer R) (text : Str) :
    (∀ w, w ∈ (ParseQuery s text).plus_words ↔
      w ∈ SplitIntoWords text ∧ (∀ rest, w ≠ '-' :: rest) ∧ w ∉ s.stop_words_) ∧
    (∀ w, w ∈ (ParseQuery s text).minus_words ↔
      ('-' :: w) ∈ SplitIntoWords text ∧ w ∉ s.stop_words_) ∧
    (∀ w ∈ (ParseQuery s text).plus_words, w ∉ s.stop_words_) ∧
    (∀ w ∈ (ParseQuery s text).minus_words, w ∉ s.stop_words_) := by
  have hplus : ∀ w, w ∈ (ParseQuery s text).plus_words ↔
      w ∈ SplitIntoWords text ∧ (∀ rest, w ≠ '-' :: rest) ∧ w ∉ s.stop_words_ := by
    intro w
    rw [ParseQuery.mem_plus_words]
    constructor
    · rintro ⟨t, ht, hminus, hstop, hdata⟩
      by_cases hform : ∃ rest, t = '-' :: rest
      · obtain ⟨rest, hrest⟩ := hform
        rw [(ParseQueryWord_eq s t).1 rest hrest] at hminus
        simp at hminus
      · have hform' : ∀ rest, t ≠ '-' :: rest := fun rest h => hform ⟨rest, h⟩
        rw [(ParseQueryWord_eq s t).2 hform'] at hstop hdata
        simp only at hdata
        subst hdata
        exact ⟨ht, hform', by simpa using hstop⟩
    · rintro ⟨hw, hform, hstop⟩
      refine ⟨w, hw, ?_⟩
      rw [(ParseQueryWord_eq s w).2 hform]
      simp [hstop]
  have hminus : ∀ w, w ∈ (ParseQuery s text).minus_words ↔
      ('-' :: w) ∈ SplitIntoWords text ∧ w ∉ s.stop_words_ := by
    intro w
    rw [ParseQuery.mem_minus_words]
    constructor
    · rintro ⟨t, ht, hm, hstop, hdata⟩
      by_cases hform : ∃ rest, t = '-' :: rest
      · obtain ⟨rest, hrest⟩ := hform
        rw [(ParseQueryWord_eq s t).1 rest hrest] at hstop hdata
        simp only at hdata
        subst hdata
        subst hrest
        exact ⟨ht, by simpa using hstop⟩
      · have hform' : ∀ rest, t ≠ '-' :: rest := fun rest h => hform ⟨rest, h⟩
        rw [(ParseQueryWord_eq s t).2 hform'] at hm
        simp at hm
    · rintro ⟨hw, hstop⟩
      refine ⟨'-' :: w, hw, ?_⟩
      rw [(ParseQueryWord_eq s ('-' :: w)).1 w rfl]
      simp [hstop]
  exact ⟨hplus, hminus, fun w hw => ((hplus w).mp hw).2.2, fun w hw => ((hminus w).mp hw).2⟩

/-! ## The sign of the relevance -/

theorem docFreq_bounds {R : Type} [LinearOrderedField R] (calls : List Call)
    (hcalls : ∀ call ∈ calls, call.ratingsNonempty = true) (word : Str)
    (postings : List (Int × R))
    (h : StdMap.find (run (SearchServer.empty : SearchServer R) calls).state.word_to_document_freqs_
      word = some postings) :
    1 ≤ postings.length ∧
      (postings.length : Int)
        ≤ GetDocumentCount (run (SearchServer.empty : SearchServer R) calls).state := by
  obtain ⟨_, hc, hne⟩ := run_consistent calls hcalls (SearchServer.empty : SearchServer R)
    empty_consistent
  have hkeys := run_distinctKeys calls (SearchServer.empty : SearchServer R) empty_distinctKeys
  have hmem := StdMap.mem_of_find _ _ _ h
  refine ⟨List.length_pos.mpr (hne _ hmem), ?_⟩
  have hsub : postings.map Prod.fst
      ⊆ (run (SearchServer.empty : SearchServer R) calls).state.documents_.map Prod.fst := by
    intro k hk
    obtain ⟨e, he, rfl⟩ := List.mem_map.mp hk
    exact (StdMap.find_isSome_iff _ _).mp (hc _ hmem e he)
  have hlen := (List.subperm_of_subset (hkeys.2 _ hmem) hsub).length_le
  simp only [List.length_map] at hlen
  unfold GetDocumentCount
  exact_mod_cast hlen

theorem run_termFreq_nonneg {R : Type} [LinearOrderedField R] (calls : List Call) (word : Str)
    (document_id : Int) :
    0 ≤ termFreq (run (SearchServer.empty : SearchServer R) calls).state word document_id := by
  unfold termFreq
  cases hp : posting (run (SearchServer.empty : SearchServer R) calls).state.word_to_document_freqs_
      word document_id with
  | none => simp
  | some v =>
    simp only [Option.getD_some]
    refine le_of_lt (run_posting_pos calls _ ?_ word document_id v hp)
    intro w d v' h
    simp [posting, SearchServer.empty, StdMap.find] at h

/-- C21. In every state reached from the empty engine by `SetStopWords` calls and
`AddDocument` calls with ratings that are not empty, the posting list of every word of the
index has at least 1 and at most `GetDocumentCount()` ids. So, over the real numbers, every
inverse document frequency is at least 0, and so is the relevance of every document that
`FindTopDocuments` returns, for every query and filter. -/
theorem reachable_relevance_nonneg (calls : List Call)
    (hcalls : ∀ call ∈ calls, call.ratingsNonempty = true) :
    (∀ word postings,
      StdMap.find (run (SearchServer.empty : SearchServer ℝ) calls).state.word_to_document_freqs_
        word = some postings →
      1 ≤ postings.length ∧
        (postings.length : Int)
          ≤ GetDocumentCount (run (SearchServer.empty : SearchServer ℝ) calls).state) ∧
    (∀ word idf,
      ComputeWordInverseDocumentFreq Real.log (run (SearchServer.empty : SearchServer ℝ)
        calls).state word = .ok idf → 0 ≤ idf) ∧
    (∀ (raw_query : Str) (p : DocumentPredicate) (r : List (Document ℝ)),
      FindTopDocuments Real.log (run (SearchServer.empty : SearchServer ℝ) calls).state
        raw_query p = .ok r →
      ∀ d ∈ r, 0 ≤ d.relevance) := by
  have hratio : ∀ word postings,
      StdMap.find (run (SearchServer.empty : SearchServer ℝ) calls).state.word_to_document_freqs_
        word = some postings →
      (1 : ℝ) ≤ (GetDocumentCount (run (SearchServer.empty : SearchServer ℝ) calls).state : ℝ)
        / (postings.length : ℝ) := by
    intro word postings h
    obtain ⟨h1, h2⟩ := docFreq_bounds calls hcalls word postings h
    have hpos : (0 : ℝ) < (postings.length : ℝ) := by exact_mod_cast h1
    rw [le_div_iff₀ hpos, one_mul]
    exact_mod_cast h2
  refine ⟨fun word postings h => docFreq_bounds calls hcalls word postings h, ?_, ?_⟩
  · intro word idf h
    unfold ComputeWordInverseDocumentFreq at h
    cases hw : StdMap.find
        (run (SearchServer.empty : SearchServer ℝ) calls).state.word_to_document_freqs_ word with
    | none => simp [hw] at h
    | some postings =>
      simp only [hw, mul_one, Except.ok.injEq] at h
      rw [← h]
      exact Real.log_nonneg (hratio word postings hw)
  · intro raw_query p r h d hd
    rw [FindTopDocuments_relevance_of_distinctKeys Real.log _
      (run_distinctKeys calls _ empty_distinctKeys) raw_query p r h d hd]
    apply List.sum_nonneg
    intro x hx
    obtain ⟨t, ht, rfl⟩ := List.mem_map.mp hx
    have hposted := (List.mem_filter.mp ht).2
    apply mul_nonneg (run_termFreq_nonneg calls t d.id)
    unfold Posted at hposted
    cases hw : StdMap.find
        (run (SearchServer.empty : SearchServer ℝ) calls).state.word_to_document_freqs_ t with
    | none => simp [hw] at hposted
    | some postings =>
      have hdf : docFreq (run (SearchServer.empty : SearchServer ℝ) calls).state t
          = postings.length := by
        simp [docFreq, hw]
      rw [hdf]
      exact Real.log_nonneg (hratio t postings hw)

/-- C21, an instance: the document 4 of the five documents of the tests, returned for the
query `cat city play match` with the relevance `ln (5/4) / 4`. -/
theorem reachable_relevance_nonneg_witness : (0 : ℝ) ≤ 1 / 4 * Real.log (5 / 4) :=
  (reachable_relevance_nonneg
    [.SetStopWords "in the".toList,
     .AddDocument 1 "cat in the city play match".toList .ACTUAL [1, 2, 3],
     .AddDocument 2 "cat1 in the city play match".toList .ACTUAL [1, 2, 3],
     .AddDocument 3 "cat1 in the city2 play match".toList .ACTUAL [1, 2, 3],
     .AddDocument 4 "cat1 in the city2 play3 match".toList .ACTUAL [1, 2, 3],
     .AddDocument 5 "cat1 in the city2 play3 match4".toList .ACTUAL [1, 2, 3]]
    (by decide)).2.2 "cat city play match".toList
    (.predicate (fun _ status _ => decide (status = DocumentStatus.ACTUAL))) _
    FindTopDocuments_fiveDocuments ⟨4, 1 / 4 * Real.log (5 / 4), 2⟩ (by simp)

end SearchServerModel
